import Mathlib

/-!
# codebase-interface/cli : validation engine

A shallow embedding of `internal/config/config.go`, `internal/agents/agents.go`,
`internal/output/formatter.go` and `cmd/validate.go`.

* Go structs become Lean structures with the same field names (`Finding.Type` is
  written `Type_`, since `Type` is reserved).
* The state of the outside world that `Validate` reads is passed explicitly as a
  `World`: the answers of `os.Stat` for the files below the target path and the
  results of the two `git` subprocess calls.
* The `float64` score of an agent is the quotient `passedChecks / totalChecks` of at
  most three checks; the field `Score` holds the fraction, and the binary64 value
  that Go stores is its rounding (`ValidationResult.scoreF64`).  Where rounding can
  decide, the arithmetic is bit-exact binary64: the threshold test of
  `checkConventionalCommits` (section "binary64") and the sum, the quotient and the
  comparisons of the table formatter (`F64`, `roundF64`).
* Mutable locals (`totalChecks`, `passedChecks`, `result.Findings`) are threaded
  through a `Tally` value.
* A Go map is a list of entries with distinct keys; the order in which a `range`
  visits the entries is an input of the run (`MapRange`), any permutation of them.
* `runValidate` returns, next to the way it ends, the agents whose `Validate` it
  called and the report it handed to standard output.
-/

namespace CodebaseInterface

/-! ## internal/config/config.go -/

structure EssentialFilesConfig where
  Enabled : Bool
  RequireReadme : Bool
  RequireContributing : Bool
  deriving DecidableEq, Repr

structure GitConfigurationConfig where
  Enabled : Bool
  RequireGitignore : Bool
  RequireGitattributes : Bool
  RequireEditorconfig : Bool
  deriving DecidableEq, Repr

structure DevelopmentStandardsConfig where
  Enabled : Bool
  CheckCommitHistory : Bool
  CommitHistoryDepth : Int
  RequireConventionalCommits : Bool
  deriving DecidableEq, Repr

structure OutputConfig where
  Format : String
  Verbose : Bool
  deriving DecidableEq, Repr

structure AgentsConfig where
  EssentialFiles : EssentialFilesConfig
  GitConfiguration : GitConfigurationConfig
  DevelopmentStandards : DevelopmentStandardsConfig
  deriving DecidableEq, Repr

structure ValidationConfig where
  Agents : AgentsConfig
  Output : OutputConfig
  deriving DecidableEq, Repr

structure Config where
  Validation : ValidationConfig
  deriving DecidableEq, Repr

/-- The built-in configuration, `config.DefaultConfig()`. -/
def DefaultConfig : Config :=
  { Validation :=
      { Agents :=
          { EssentialFiles :=
              { Enabled := true, RequireReadme := true, RequireContributing := true }
            GitConfiguration :=
              { Enabled := true, RequireGitignore := true
                RequireGitattributes := false, RequireEditorconfig := true }
            DevelopmentStandards :=
              { Enabled := true, CheckCommitHistory := true
                CommitHistoryDepth := 10, RequireConventionalCommits := true } }
        Output := { Format := "table", Verbose := false } } }

/-- The per-agent enable flag, `(*Config).IsAgentEnabled`. -/
def Config.IsAgentEnabled (c : Config) (agentName : String) : Bool :=
  if agentName = "essential-files" then c.Validation.Agents.EssentialFiles.Enabled
  else if agentName = "git-configuration" then c.Validation.Agents.GitConfiguration.Enabled
  else if agentName = "development-standards" then
    c.Validation.Agents.DevelopmentStandards.Enabled
  else false

/-! ## internal/agents/agents.go : data model -/

structure Finding where
  Type_ : String
  File : String
  Message : String
  Severity : String
  deriving DecidableEq, Repr

structure ValidationResult where
  Agent : String
  Status : String
  Score : ℚ
  Findings : List Finding
  deriving DecidableEq

/-- What one `Validate` call can observe outside the program, for a fixed target
path: `stat name` is true when `os.Stat(filepath.Join(targetPath, name))` returns a
nil error; `gitLog depth` is the outcome of `git log --oneline -<depth>` run in the
target path (`Except.error` carries the error text, `Except.ok` the standard
output); `gitBranch` is the outcome of `git rev-parse --abbrev-ref HEAD`. -/
structure World where
  stat : String → Bool
  gitLog : Int → Except String String
  gitBranch : Except String String

/-- The three mutable locals of a `Validate` body. -/
structure Tally where
  totalChecks : Nat
  passedChecks : Nat
  Findings : List Finding
  deriving DecidableEq, Repr

/-- One check that passed: `totalChecks++`, `passedChecks++`, append the finding. -/
def Tally.pass (t : Tally) (f : Finding) : Tally :=
  { totalChecks := t.totalChecks + 1, passedChecks := t.passedChecks + 1
    Findings := t.Findings ++ [f] }

/-- One check that did not pass: `totalChecks++`, append the finding. -/
def Tally.miss (t : Tally) (f : Finding) : Tally :=
  { totalChecks := t.totalChecks + 1, passedChecks := t.passedChecks
    Findings := t.Findings ++ [f] }

/-- The closing lines shared by the three `Validate` bodies: the result starts as
`Status: "pass", Score: 1.0`; the score is replaced by `passedChecks / totalChecks`
when `totalChecks > 0`; the status becomes `"fail"` when the score is below `1.0`. -/
def Tally.result (agent : String) (t : Tally) : ValidationResult :=
  let score : ℚ :=
    if t.totalChecks > 0 then (t.passedChecks : ℚ) / (t.totalChecks : ℚ) else 1
  { Agent := agent
    Status := if score < 1 then "fail" else "pass"
    Score := score
    Findings := t.Findings }

/-! ## EssentialFilesAgent -/

def readmePaths : List String := ["README.md", "README.rst", "readme.md", "readme.rst"]

/-- The `require_readme` block: the first existing name of `readmePaths` is
reported as present, otherwise `README.md` is reported missing. -/
def EssentialFilesAgent.checkReadme (w : World) (t : Tally) : Tally :=
  match readmePaths.find? w.stat with
  | some readmePath =>
      t.pass { Type_ := "present", File := readmePath
               Message := readmePath ++ " present", Severity := "info" }
  | none =>
      t.miss { Type_ := "missing", File := "README.md"
               Message := "README.md or README.rst missing", Severity := "critical" }

/-- A plain existence check of one file, as written out for `CONTRIBUTING.md`,
`.gitignore`, `.gitattributes` and `.editorconfig`. -/
def checkFile (w : World) (file missingMessage missingSeverity : String) (t : Tally) : Tally :=
  if w.stat file then
    t.pass { Type_ := "present", File := file
             Message := file ++ " present", Severity := "info" }
  else
    t.miss { Type_ := "missing", File := file
             Message := missingMessage, Severity := missingSeverity }

def EssentialFilesAgent.tally (w : World) (cfg : Config) : Tally :=
  let agentCfg := cfg.Validation.Agents.EssentialFiles
  let t0 : Tally := { totalChecks := 0, passedChecks := 0, Findings := [] }
  let t1 := if agentCfg.RequireReadme then EssentialFilesAgent.checkReadme w t0 else t0
  let t2 :=
    if agentCfg.RequireContributing then
      checkFile w "CONTRIBUTING.md" "CONTRIBUTING.md missing" "critical" t1
    else t1
  t2

/-- The method `(*EssentialFilesAgent).Validate`. -/
def EssentialFilesAgent.Validate (w : World) (cfg : Config) : Except String ValidationResult :=
  .ok (Tally.result "essential-files" (EssentialFilesAgent.tally w cfg))

/-! ## GitConfigurationAgent -/

def GitConfigurationAgent.tally (w : World) (cfg : Config) : Tally :=
  let agentCfg := cfg.Validation.Agents.GitConfiguration
  let t0 : Tally := { totalChecks := 0, passedChecks := 0, Findings := [] }
  let t1 :=
    if agentCfg.RequireGitignore then
      checkFile w ".gitignore" ".gitignore missing" "critical" t0
    else t0
  let t2 :=
    if agentCfg.RequireGitattributes then
      checkFile w ".gitattributes" ".gitattributes missing (optional)" "warning" t1
    else t1
  let t3 :=
    if agentCfg.RequireEditorconfig then
      checkFile w ".editorconfig" ".editorconfig missing" "critical" t2
    else t2
  t3

/-- The method `(*GitConfigurationAgent).Validate`. -/
def GitConfigurationAgent.Validate (w : World) (cfg : Config) : Except String ValidationResult :=
  .ok (Tally.result "git-configuration" (GitConfigurationAgent.tally w cfg))

/-! ## Go standard library: `strings`

Strings are handled as their sequences of characters (`String.toList`). -/

/-- The predicate `unicode.IsSpace`: the Unicode White_Space property. -/
def isSpace (c : Char) : Bool :=
  let n := c.toNat
  (0x09 ≤ n && n ≤ 0x0D) || n == 0x20 || n == 0x85 || n == 0xA0 || n == 0x1680 ||
    (0x2000 ≤ n && n ≤ 0x200A) || n == 0x2028 || n == 0x2029 || n == 0x202F ||
    n == 0x205F || n == 0x3000

/-- The function `strings.TrimSpace`: drop leading and trailing white space. -/
def TrimSpace (s : List Char) : List Char :=
  ((s.dropWhile isSpace).reverse.dropWhile isSpace).reverse

/-- The call `strings.Split(s, sep)` for a one-character separator: the pieces
between the separators, so the result always has at least one element. -/
def Split : List Char → Char → List (List Char)
  | [], _ => [[]]
  | c :: cs, sep =>
    if c = sep then [] :: Split cs sep
    else
      match Split cs sep with
      | [] => [[c]]
      | l :: ls => (c :: l) :: ls

/-! ## Go standard library: `regexp`

Regular expressions as syntax trees, matched with Brzozowski derivatives.  A
character class is a predicate on characters. -/

inductive Regex where
  | empty : Regex
  | eps : Regex
  | cls : (Char → Bool) → Regex
  | alt : Regex → Regex → Regex
  | seq : Regex → Regex → Regex
  | star : Regex → Regex

namespace Regex

/-- A single literal character. -/
def chr (c : Char) : Regex := cls (fun d => d == c)

/-- The dot: any character except line feed (no `s` flag is set). -/
def dot : Regex := cls (fun d => d != '\n')

/-- A literal string. -/
def lit (s : String) : Regex := s.toList.foldr (fun c r => seq (chr c) r) eps

/-- Postfix `+`. -/
def plus (r : Regex) : Regex := seq r (star r)

/-- Postfix `?`. -/
def opt (r : Regex) : Regex := alt r eps

/-- Several alternatives `(a|b|c)`. -/
def alts (rs : List Regex) : Regex := rs.foldr alt empty

/-- Does the expression accept the empty string? -/
def nullable : Regex → Bool
  | empty => false
  | eps => true
  | cls _ => false
  | alt a b => nullable a || nullable b
  | seq a b => nullable a && nullable b
  | star _ => true

/-- Brzozowski derivative: what remains to be matched after reading `c`. -/
def deriv (c : Char) : Regex → Regex
  | empty => empty
  | eps => empty
  | cls p => if p c then eps else empty
  | alt a b => alt (deriv c a) (deriv c b)
  | seq a b => if nullable a then alt (seq (deriv c a) b) (deriv c b) else seq (deriv c a) b
  | star a => seq (deriv c a) (star a)

/-- The whole of `s` is accepted. -/
def matchFull : Regex → List Char → Bool
  | r, [] => nullable r
  | r, c :: cs => matchFull (deriv c r) cs

/-- Some prefix of `s` is accepted. -/
def matchPrefix : Regex → List Char → Bool
  | r, [] => nullable r
  | r, c :: cs => nullable r || matchPrefix (deriv c r) cs

end Regex

/-- A compiled pattern of `agents.go`.  All of them begin with `^`; `body` is what
follows the `^`, and `toEnd` records a closing `$` (end of text, no `m` flag). -/
structure Regexp where
  body : Regex
  toEnd : Bool

/-- The method `(*Regexp).MatchString`. -/
def Regexp.MatchString (re : Regexp) (s : List Char) : Bool :=
  if re.toEnd then re.body.matchFull s else re.body.matchPrefix s

/-! ## binary64

`float64` values that occur in `checkConventionalCommits` are non-negative and far
from overflow and underflow, so a value is a natural number of units of `2^-52`. -/

def bitLenAux : Nat → Nat → Nat
  | 0, _ => 0
  | f + 1, m => if m = 0 then 0 else bitLenAux f (m / 2) + 1

/-- Number of binary digits of `m`. -/
def bitLen (m : Nat) : Nat := bitLenAux m m

/-- Round to nearest, ties to even, keeping 53 significant binary digits. -/
def round53 (m : Nat) : Nat :=
  let s := bitLen m - 53
  let q := m / 2 ^ s
  let r := m % 2 ^ s
  if 2 ^ s < 2 * r ∨ (2 * r = 2 ^ s ∧ q % 2 = 1) then (q + 1) * 2 ^ s else q * 2 ^ s

/-- The conversion `float64(n)` of a non-negative `int`, in units of `2^-52`. -/
def float64OfNat (n : Nat) : Nat := round53 (n * 2 ^ 52)

/-- The constant `0.8` as binary64, in units of `2^-52`:
`0x3FE999999999999A = 3602879701896397 * 2^-52`. -/
def f64_0_8 : Nat := 3602879701896397

/-- The product `x * 0.8` in binary64, for `x` in units of `2^-52`; the exact
product has units of `2^-104` and is rounded once. -/
def f64MulPoint8 (x : Nat) : Nat := round53 (x * f64_0_8)

/-- The test `float64(validCommits) >= float64(len(lines)) * 0.8`: the left side is
brought to units of `2^-104`. -/
def meetsThreshold (validCommits len : Nat) : Bool :=
  decide (f64MulPoint8 (float64OfNat len) ≤ float64OfNat validCommits * 2 ^ 52)

/-! ## DevelopmentStandardsAgent -/

/-- The class `[a-f0-9]`. -/
def hexClass (c : Char) : Bool :=
  ('a'.toNat ≤ c.toNat && c.toNat ≤ 'f'.toNat) || ('0'.toNat ≤ c.toNat && c.toNat ≤ '9'.toNat)

def commitTypes : List String :=
  ["feat", "fix", "docs", "style", "refactor", "test", "chore", "perf", "ci", "build", "revert"]

open Regex in
/-- The pattern
`^[a-f0-9]+ (feat|fix|docs|style|refactor|test|chore|perf|ci|build|revert)(\(.+\))?!?: .+`. -/
def conventionalPattern : Regexp :=
  { body :=
      seq (plus (cls hexClass))
        (seq (chr ' ')
          (seq (alts (commitTypes.map lit))
            (seq (opt (seq (chr '(') (seq (plus dot) (chr ')'))))
              (seq (opt (chr '!'))
                (seq (lit ": ") (plus dot))))))
    toEnd := false }

/-- The body of `checkConventionalCommits` after a successful `git log`: split the
trimmed output into lines, count the lines matching `conventionalPattern`, compare
with 80% of the number of lines. -/
def conventionalCommitsOf (output : String) : Bool :=
  let lines := Split (TrimSpace output.toList) '\n'
  if lines.length = 0 then true
  else
    let validCommits := (lines.filter conventionalPattern.MatchString).length
    meetsThreshold validCommits lines.length

/-- The method `checkConventionalCommits(targetPath, depth)`. -/
def DevelopmentStandardsAgent.checkConventionalCommits (w : World) (depth : Int) :
    Except String Bool :=
  match w.gitLog depth with
  | .error err => .error ("git log failed: " ++ err)
  | .ok output => .ok (conventionalCommitsOf output)

open Regex in
/-- The list `patterns` of `checkBranchNaming`, in source order. -/
def branchPatterns : List Regexp :=
  [ { body := seq (alts [lit "feature", lit "feat"]) (seq (chr '/') (plus dot)), toEnd := false },
    { body := seq (alts [lit "fix", lit "bugfix"]) (seq (chr '/') (plus dot)), toEnd := false },
    { body := seq (alts [lit "hotfix", lit "patch"]) (seq (chr '/') (plus dot)), toEnd := false },
    { body := seq (alts [lit "release", lit "rel"]) (seq (chr '/') (plus dot)), toEnd := false },
    { body := seq (alts [lit "docs", lit "documentation"]) (seq (chr '/') (plus dot)),
      toEnd := false },
    { body := seq (alts [lit "chore", lit "task"]) (seq (chr '/') (plus dot)), toEnd := false },
    { body := alts [lit "main", lit "master", lit "develop", lit "development"], toEnd := true } ]

/-- The loop of `checkBranchNaming` over `patterns`: true at the first match. -/
def branchNameValid (branchName : List Char) : Bool :=
  branchPatterns.any (fun pattern => pattern.MatchString branchName)

/-- The method `checkBranchNaming(targetPath)`; the result is the pair
`(valid, branchName)` or the error. -/
def DevelopmentStandardsAgent.checkBranchNaming (w : World) : Except String (Bool × String) :=
  match w.gitBranch with
  | .error err => .error ("git branch check failed: " ++ err)
  | .ok output =>
    let branchName := TrimSpace output.toList
    .ok (branchNameValid branchName, String.mk branchName)

/-- The conventional-commit block of `Validate`; `totalChecks++` comes before the
call, so it is done in every branch. -/
def DevelopmentStandardsAgent.commitCheck (w : World) (depth : Int) (t : Tally) : Tally :=
  match DevelopmentStandardsAgent.checkConventionalCommits w depth with
  | .error err =>
      t.miss { Type_ := "invalid", File := "git-history"
               Message := "Failed to check commit history: " ++ err, Severity := "warning" }
  | .ok true =>
      t.pass { Type_ := "present", File := "git-history"
               Message := "Recent commits follow conventional format", Severity := "info" }
  | .ok false =>
      t.miss { Type_ := "invalid", File := "git-history"
               Message := "Recent commits don't follow conventional format"
               Severity := "critical" }

/-- The branch-naming block of `Validate`; again `totalChecks++` precedes the call. -/
def DevelopmentStandardsAgent.branchCheck (w : World) (t : Tally) : Tally :=
  match DevelopmentStandardsAgent.checkBranchNaming w with
  | .error err =>
      t.miss { Type_ := "invalid", File := "git-branch"
               Message := "Failed to check branch naming: " ++ err, Severity := "warning" }
  | .ok (true, branchName) =>
      t.pass { Type_ := "present", File := "git-branch"
               Message := "Branch naming follows conventions: " ++ branchName
               Severity := "info" }
  | .ok (false, branchName) =>
      t.miss { Type_ := "invalid", File := "git-branch"
               Message := "Branch name doesn't follow conventions: " ++ branchName
               Severity := "warning" }

def DevelopmentStandardsAgent.tally (w : World) (cfg : Config) : Tally :=
  let agentCfg := cfg.Validation.Agents.DevelopmentStandards
  let t0 : Tally := { totalChecks := 0, passedChecks := 0, Findings := [] }
  let t1 :=
    if agentCfg.CheckCommitHistory && agentCfg.RequireConventionalCommits then
      DevelopmentStandardsAgent.commitCheck w agentCfg.CommitHistoryDepth t0
    else t0
  DevelopmentStandardsAgent.branchCheck w t1

/-- The method `(*DevelopmentStandardsAgent).Validate`. -/
def DevelopmentStandardsAgent.Validate (w : World) (cfg : Config) :
    Except String ValidationResult :=
  .ok (Tally.result "development-standards" (DevelopmentStandardsAgent.tally w cfg))

/-! ## Agent and Registry -/

/-- The implementations of the `Agent` interface. -/
inductive Agent where
  | EssentialFilesAgent
  | GitConfigurationAgent
  | DevelopmentStandardsAgent
  deriving DecidableEq, Repr

/-- Interface dispatch of `Validate`. -/
def Agent.Validate : Agent → World → Config → Except String ValidationResult
  | .EssentialFilesAgent => EssentialFilesAgent.Validate
  | .GitConfigurationAgent => GitConfigurationAgent.Validate
  | .DevelopmentStandardsAgent => DevelopmentStandardsAgent.Validate

/-- A Go `map[string]V`: a list of entries in which every key occurs at most once.
The order of the entries stands for no observable order. -/
abbrev GoMap (V : Type) := List (String × V)

/-- The assignment `m[k] = v`. -/
def GoMap.set {V : Type} : GoMap V → String → V → GoMap V
  | [], k, v => [(k, v)]
  | (k1, v1) :: m, k, v => if k1 = k then (k, v) :: m else (k1, v1) :: GoMap.set m k v

/-- The lookup `v, ok := m[k]`; `none` stands for `ok == false`. -/
def GoMap.get {V : Type} : GoMap V → String → Option V
  | [], _ => none
  | (k1, v1) :: m, k => if k1 = k then some v1 else GoMap.get m k

structure Registry where
  agents : GoMap Agent

def NewRegistry : Registry := { agents := [] }

def Registry.Register (r : Registry) (name : String) (agent : Agent) : Registry :=
  { agents := r.agents.set name agent }

def Registry.Get (r : Registry) (name : String) : Option Agent :=
  r.agents.get name

def Registry.All (r : Registry) : GoMap Agent :=
  r.agents

/-! ## internal/output/formatter.go

Only what `Format` decides is modelled, not the styling of the text: the status word
of every result, the overall score and the overall verdict.  The arithmetic of
`Format` (a running sum, one division, two comparisons) is binary64 arithmetic:
every operation gives the exact result rounded to the nearest binary64 value. -/

/-- The status word shown for one result (`statusText`). -/
def TableFormatter.statusText (status : String) : String :=
  if status = "pass" then "PASS"
  else if status = "fail" then "FAIL"
  else if status = "warning" then "WARN"
  else "UNKNOWN"

/-- A `float64` value: a finite binary64 number, given by its exact value, an
infinity or NaN.  The sign of a zero is not kept: no comparison sees it, and the
divisor of `Format` is never negative. -/
inductive F64 where
  | finite (value : ℚ)
  | posInf
  | negInf
  | nan
  deriving DecidableEq, Repr

/-- Rounding to the nearest integer, ties to the even one. -/
def roundHalfEven (x : ℚ) : ℤ :=
  let f := ⌊x⌋
  if x - f < 1 / 2 then f
  else if 1 / 2 < x - f then f + 1
  else if f % 2 = 0 then f else f + 1

/-- The exponent of the unit in the last place of binary64 at `x`: 52 below the
exponent of `x`, and `-1074` throughout the subnormal range. -/
def quantumExp (x : ℚ) : ℤ := max (Int.log 2 |x| - 52) (-1074)

/-- The binary64 value of a real number under round-to-nearest-even, the rounding of
every Go `float64` operation, conversion and constant: `x` is rounded to a multiple
of its unit in the last place, and a result of magnitude `2^1024` or more is an
infinity. -/
def roundF64 (x : ℚ) : F64 :=
  let q := quantumExp x
  let v : ℚ := (roundHalfEven (x / 2 ^ q) : ℚ) * 2 ^ q
  if 2 ^ 1024 ≤ v then .posInf
  else if v ≤ -2 ^ 1024 then .negInf
  else .finite v

/-- The `float64` addition `x + y`. -/
def F64.add : F64 → F64 → F64
  | .finite a, .finite b => roundF64 (a + b)
  | .nan, _ => .nan
  | _, .nan => .nan
  | .posInf, .negInf => .nan
  | .negInf, .posInf => .nan
  | .posInf, _ => .posInf
  | _, .posInf => .posInf
  | .negInf, _ => .negInf
  | _, .negInf => .negInf

/-- The `float64` division `x / y`; a zero divisor is `+0`. -/
def F64.div : F64 → F64 → F64
  | .finite a, .finite b =>
    if b = 0 then (if a = 0 then .nan else if 0 < a then .posInf else .negInf)
    else roundF64 (a / b)
  | .nan, _ => .nan
  | _, .nan => .nan
  | .finite _, _ => .finite 0
  | .posInf, .finite b => if 0 ≤ b then .posInf else .negInf
  | .negInf, .finite b => if 0 ≤ b then .negInf else .posInf
  | _, _ => .nan

/-- The `float64` comparison `x < y`: false whenever an operand is NaN. -/
def F64.lt : F64 → F64 → Bool
  | .finite a, .finite b => decide (a < b)
  | .nan, _ => false
  | _, .nan => false
  | .negInf, .negInf => false
  | .negInf, _ => true
  | .posInf, _ => false
  | .finite _, .posInf => true
  | .finite _, .negInf => false

/-- The `float64` held by the field `Score`.  The agents compute it as
`float64(passedChecks) / float64(totalChecks)`, the binary64 value nearest to the
fraction that `Score` is here. -/
def ValidationResult.scoreF64 (r : ValidationResult) : F64 :=
  roundF64 r.Score

/-- The two accumulators of the loop of `TableFormatter.Format`. -/
structure TableFormatter.Acc where
  totalScore : F64
  criticalFailures : Bool

/-- One iteration of the loop: `totalScore += result.Score`, and
`criticalFailures = true` in the case `"fail"` of the switch. -/
def TableFormatter.step (acc : TableFormatter.Acc) (result : ValidationResult) :
    TableFormatter.Acc :=
  { totalScore := acc.totalScore.add result.scoreF64
    criticalFailures := if result.Status = "fail" then true else acc.criticalFailures }

/-- What `TableFormatter.Format` computes. -/
structure TableReport where
  agentStatus : List (String × String)
  overallScore : F64
  overallStatus : String

/-- The method `(*TableFormatter).Format`: `totalScore` starts at `0.0`, the quotient
is `totalScore / float64(len(results))` (NaN for the empty list, `0.0 / 0.0`), and the
constants of the two comparisons are the binary64 values of `0.8` and `1.0`. -/
def TableFormatter.Format (results : List ValidationResult) : TableReport :=
  let acc := results.foldl TableFormatter.step
    { totalScore := .finite 0, criticalFailures := false }
  let overallScore := acc.totalScore.div (roundF64 (results.length : ℚ))
  let overallStatus :=
    if acc.criticalFailures || overallScore.lt (roundF64 (4 / 5)) then "FAIL"
    else if overallScore.lt (roundF64 1) then "PASS (with warnings)"
    else "PASS"
  { agentStatus := results.map (fun r => (r.Agent, TableFormatter.statusText r.Status))
    overallScore := overallScore
    overallStatus := overallStatus }

/-- The two implementations of the `Formatter` interface. -/
inductive Formatter where
  | JSONFormatter
  | TableFormatter
  deriving DecidableEq, Repr

/-- The function `NewFormatter`. -/
def NewFormatter (format : String) : Except String Formatter :=
  if format = "json" then .ok .JSONFormatter
  else if format = "table" then .ok .TableFormatter
  else .error ("unsupported format: " ++ format)

/-- What a formatter hands to the writer: the results themselves for `json`, the
table report for `table`. -/
inductive Report where
  | json (results : List ValidationResult)
  | table (report : TableReport)

/-- Interface dispatch of `Format`, without the write. -/
def Formatter.Format : Formatter → List ValidationResult → Report
  | .JSONFormatter, results => .json results
  | .TableFormatter, results => .table (TableFormatter.Format results)

/-! ## cmd/validate.go -/

/-- The order in which a `for ... range` over a Go map visits the entries: every
entry once, in an order the language leaves unspecified. -/
structure MapRange where
  order : GoMap Agent → List (String × Agent)
  perm : ∀ m, (order m).Perm m

/-- What one run of the `validate` command is given: the flags `--output` and
`--agent`, the outcome of `config.Load(targetPath)`, the world below the target path,
the order in which the registry map is ranged over, and the error of writing to
standard output, if any. -/
structure Invocation where
  outputFormat : String
  agentName : String
  loadConfig : Except String Config
  world : World
  range : MapRange
  stdoutError : Option String

/-- The errors that `runValidate` returns. -/
inductive RunError where
  | configLoad (err : String)
  | agentNotFound (agentName : String)
  | validation (err : String)
  | validationFor (name err : String)
  | outputFormat (err : String)
  | format (err : String)
  deriving DecidableEq, Repr

/-- The text of an error of `runValidate`. -/
def RunError.Error : RunError → String
  | .configLoad err => "failed to load configuration: " ++ err
  | .agentNotFound agentName => "agent '" ++ agentName ++ "' not found"
  | .validation err => "validation failed: " ++ err
  | .validationFor name err => "validation failed for agent " ++ name ++ ": " ++ err
  | .outputFormat err => "invalid output format: " ++ err
  | .format err => "failed to format output: " ++ err

/-- The registry that `runValidate` builds. -/
def agentRegistry : Registry :=
  ((NewRegistry.Register "essential-files" Agent.EssentialFilesAgent).Register
    "git-configuration" Agent.GitConfigurationAgent).Register
    "development-standards" Agent.DevelopmentStandardsAgent

/-- The agents whose `Validate` was called, in call order, and the collected results
or the error that ended the collection. -/
structure Collected where
  ran : List Agent
  results : Except RunError (List ValidationResult)

/-- The branch `agentName != ""` of `runValidate`. -/
def collectSelected (w : World) (cfg : Config) (agentName : String) : Collected :=
  match agentRegistry.Get agentName with
  | none => { ran := [], results := .error (.agentNotFound agentName) }
  | some agent =>
    match agent.Validate w cfg with
    | .error err => { ran := [agent], results := .error (.validation err) }
    | .ok result => { ran := [agent], results := .ok [result] }

/-- The loop `for name, agent := range agentRegistry.All()` of `runValidate`, over the
entries in the order of the range. -/
def collectEnabled (w : World) (cfg : Config) :
    List (String × Agent) → List Agent → List ValidationResult → Collected
  | [], ran, results => { ran := ran, results := .ok results }
  | (name, agent) :: rest, ran, results =>
    if cfg.IsAgentEnabled name then
      match agent.Validate w cfg with
      | .error err => { ran := ran ++ [agent], results := .error (.validationFor name err) }
      | .ok result => collectEnabled w cfg rest (ran ++ [agent]) (results ++ [result])
    else collectEnabled w cfg rest ran results

/-- The collection of results in `runValidate`, after the configuration is loaded. -/
def collect (inv : Invocation) (cfg : Config) : Collected :=
  if inv.agentName ≠ "" then collectSelected inv.world cfg inv.agentName
  else collectEnabled inv.world cfg (inv.range.order agentRegistry.All) [] []

/-- How `runValidate` ends: it returns an error, it calls `os.Exit`, or it returns
nil. -/
inductive Outcome where
  | failed (err : RunError)
  | exited (code : Nat)
  | returned

/-- One run of `runValidate`: the agents that were run, the report handed to standard
output (if `Format` was reached), and the way it ended. -/
structure Run where
  ran : List Agent
  report : Option Report
  outcome : Outcome

/-- The function `runValidate`. -/
def runValidate (inv : Invocation) : Run :=
  match inv.loadConfig with
  | .error err => { ran := [], report := none, outcome := .failed (.configLoad err) }
  | .ok cfg =>
    let c := collect inv cfg
    match c.results with
    | .error err => { ran := c.ran, report := none, outcome := .failed err }
    | .ok results =>
      match NewFormatter inv.outputFormat with
      | .error err => { ran := c.ran, report := none, outcome := .failed (.outputFormat err) }
      | .ok formatter =>
        match inv.stdoutError with
        | some err =>
          { ran := c.ran, report := some (formatter.Format results)
            outcome := .failed (.format err) }
        | none =>
          { ran := c.ran, report := some (formatter.Format results)
            outcome :=
              if results.any (fun result => result.Status == "fail") then .exited 1
              else .returned }

/-- The exit code of the process: `main` exits with 1 when `Execute` returns an
error, `os.Exit(code)` inside `runValidate` ends the process with `code`, and a nil
return ends it with 0. -/
def Run.exitCode (r : Run) : Nat :=
  match r.outcome with
  | .failed _ => 1
  | .exited code => code
  | .returned => 0

/-! ## Definitions used to state the properties -/

/-- A directory that holds exactly the files `files` and is not a git repository
(the temporary directories of `agents_test.go`). -/
def filesOnly (files : List String) : World :=
  { stat := fun name => files.contains name
    gitLog := fun _ => .error "exit status 128"
    gitBranch := .error "exit status 128" }

/-- At least one of the four accepted README names exists. -/
def readmeFound (w : World) : Bool :=
  w.stat "README.md" || w.stat "README.rst" || w.stat "readme.md" || w.stat "readme.rst"

/-- Number of enabled checks of the essential-files agent. -/
def EssentialFilesConfig.enabledChecks (c : EssentialFilesConfig) : Nat :=
  c.RequireReadme.toNat + c.RequireContributing.toNat

/-- Number of enabled checks of the essential-files agent that pass in `w`. -/
def EssentialFilesConfig.passingChecks (c : EssentialFilesConfig) (w : World) : Nat :=
  (c.RequireReadme && readmeFound w).toNat +
    (c.RequireContributing && w.stat "CONTRIBUTING.md").toNat

/-- Number of enabled checks of the git-configuration agent. -/
def GitConfigurationConfig.enabledChecks (c : GitConfigurationConfig) : Nat :=
  c.RequireGitignore.toNat + c.RequireGitattributes.toNat + c.RequireEditorconfig.toNat

/-- Number of enabled checks of the git-configuration agent whose file exists. -/
def GitConfigurationConfig.passingChecks (c : GitConfigurationConfig) (w : World) : Nat :=
  (c.RequireGitignore && w.stat ".gitignore").toNat +
    (c.RequireGitattributes && w.stat ".gitattributes").toNat +
    (c.RequireEditorconfig && w.stat ".editorconfig").toNat

/-- Two worlds agree on every file whose flag is enabled in `c`. -/
def GitConfigurationConfig.agreeOnEnabled (c : GitConfigurationConfig) (w w2 : World) : Prop :=
  (c.RequireGitignore = true → w.stat ".gitignore" = w2.stat ".gitignore") ∧
  (c.RequireGitattributes = true → w.stat ".gitattributes" = w2.stat ".gitattributes") ∧
  (c.RequireEditorconfig = true → w.stat ".editorconfig" = w2.stat ".editorconfig")

/-- A git repository without files in which `git log` prints `log` (whatever the
depth asked for) and `git rev-parse --abbrev-ref HEAD` prints `branch`. -/
def repoWith (log branch : String) : World :=
  { stat := fun _ => false
    gitLog := fun _ => .ok log
    gitBranch := .ok branch }

/-- A directory without files in which both git calls fail. -/
def notARepo : World := filesOnly []

/-- Ten log entries, the first eight conventional. -/
def logEightOfTen : String :=
  "a1b2c3d feat: add login\nb2c3d4e fix(api): null check\nc3d4e5f docs: readme\n" ++
  "d4e5f6a test: cover parser\ne5f6a7b chore!: drop old flag\nf6a7b8c perf(db)!: index\n" ++
  "a7b8c9d ci: cache\nb8c9d0e build: bump\nc9d0e1f Update readme\nd0e1f2a wip\n"

/-- Ten log entries, the first seven conventional. -/
def logSevenOfTen : String :=
  "a1b2c3d feat: add login\nb2c3d4e fix(api): null check\nc3d4e5f docs: readme\n" ++
  "d4e5f6a test: cover parser\ne5f6a7b chore!: drop old flag\nf6a7b8c perf(db)!: index\n" ++
  "a7b8c9d ci: cache\nb8c9d0e Merge branch x\nc9d0e1f Update readme\nd0e1f2a wip\n"

/-- The lines that `checkConventionalCommits` examines for a given output. -/
def logLines (output : String) : List (List Char) :=
  Split (TrimSpace output.toList) '\n'

/-- Which strings a regular expression denotes. -/
inductive Regex.Matches : Regex → List Char → Prop
  | eps : Regex.Matches .eps []
  | cls (p : Char → Bool) (c : Char) : p c = true → Regex.Matches (.cls p) [c]
  | altL (a b : Regex) (x : List Char) : Regex.Matches a x → Regex.Matches (.alt a b) x
  | altR (a b : Regex) (x : List Char) : Regex.Matches b x → Regex.Matches (.alt a b) x
  | seq (a b : Regex) (x y : List Char) :
      Regex.Matches a x → Regex.Matches b y → Regex.Matches (.seq a b) (x ++ y)
  | starNil (a : Regex) : Regex.Matches (.star a) []
  | starCons (a : Regex) (x y : List Char) :
      Regex.Matches a x → Regex.Matches (.star a) y → Regex.Matches (.star a) (x ++ y)

/-- The characters `0`-`9` and `a`-`f`. -/
def lowerHexDigits : List Char := "0123456789abcdef".toList

/-- A conventional log entry, in words: a non-empty hash of characters from
`[0-9a-f]`, one space, one of the eleven types, optionally a non-empty scope in
parentheses, optionally `!`, then `": "` and a non-empty description. -/
def IsConventionalEntry (line : List Char) : Prop :=
  ∃ hash type scope bang desc : List Char,
    line = hash ++ ' ' :: (type ++ (scope ++ (bang ++ ':' :: ' ' :: desc))) ∧
    hash ≠ [] ∧ (∀ c ∈ hash, c ∈ lowerHexDigits) ∧
    type ∈ commitTypes.map String.toList ∧
    (scope = [] ∨ ∃ inner, inner ≠ [] ∧ scope = '(' :: (inner ++ [')'])) ∧
    (bang = [] ∨ bang = ['!']) ∧
    desc ≠ []

/-- The twelve accepted branch prefixes. -/
def branchPrefixes : List String :=
  ["feature", "feat", "fix", "bugfix", "hotfix", "patch", "release", "rel", "docs",
   "documentation", "chore", "task"]

/-- The four branch names accepted as they are. -/
def trunkBranches : List String := ["main", "master", "develop", "development"]

/-- An accepted branch name, in words: one of the four trunk names, or one of the
twelve prefixes, then `/`, then at least one further character. -/
def IsAcceptedBranch (name : List Char) : Prop :=
  name ∈ trunkBranches.map String.toList ∨
    ∃ pre ∈ branchPrefixes.map String.toList, ∃ rest, rest ≠ [] ∧ name = pre ++ '/' :: rest

/-- The default configuration with another `commit_history_depth`. -/
def configWithDepth (depth : Int) : Config :=
  { Validation :=
      { Agents :=
          { EssentialFiles := DefaultConfig.Validation.Agents.EssentialFiles
            GitConfiguration := DefaultConfig.Validation.Agents.GitConfiguration
            DevelopmentStandards :=
              { Enabled := true, CheckCommitHistory := true
                CommitHistoryDepth := depth, RequireConventionalCommits := true } }
        Output := DefaultConfig.Validation.Output } }

/-- Both flags that gate the conventional-commit check are set. -/
def DevelopmentStandardsConfig.commitCheckOn (c : DevelopmentStandardsConfig) : Bool :=
  c.CheckCommitHistory && c.RequireConventionalCommits

/-- Number of findings that name `file`. -/
def findingsFor (file : String) (fs : List Finding) : Nat :=
  (fs.filter (fun f => f.File == file)).length

/-- A directory in which `git log` fails while `git rev-parse --abbrev-ref HEAD`
prints `branch`. -/
def logFails (branch : String) : World :=
  { stat := fun _ => false
    gitLog := fun _ => .error "exit status 128"
    gitBranch := .ok branch }

/-- The finding appended when `git log` fails with `err`. -/
def logFailedFinding (err : String) : Finding :=
  { Type_ := "invalid", File := "git-history"
    Message := "Failed to check commit history: " ++ ("git log failed: " ++ err)
    Severity := "warning" }

/-- The finding appended when `git rev-parse` fails with `err`. -/
def branchFailedFinding (err : String) : Finding :=
  { Type_ := "invalid", File := "git-branch"
    Message := "Failed to check branch naming: " ++ ("git branch check failed: " ++ err)
    Severity := "warning" }

/-- The default configuration with `require_conventional_commits: false`. -/
def configWithoutCommitCheck : Config :=
  { Validation :=
      { Agents :=
          { EssentialFiles := DefaultConfig.Validation.Agents.EssentialFiles
            GitConfiguration := DefaultConfig.Validation.Agents.GitConfiguration
            DevelopmentStandards :=
              { Enabled := true, CheckCommitHistory := true
                CommitHistoryDepth := 10, RequireConventionalCommits := false } }
        Output := DefaultConfig.Validation.Output } }

/-- A sequence of `Register` calls, in order, on a new registry. -/
def registerAll (calls : List (String × Agent)) : Registry :=
  calls.foldl (fun r call => r.Register call.1 call.2) NewRegistry

/-- The agent of the last call in `calls` that registers under `name`. -/
def lastRegistered (calls : List (String × Agent)) (name : String) : Option Agent :=
  (calls.reverse.find? (fun call => call.1 == name)).map Prod.snd

/-- The names under which `runValidate` registers the agents, in registration
order. -/
def registeredNames : List String :=
  ["essential-files", "git-configuration", "development-standards"]

/-- The result that an agent returns; `Validate` of the three agents never returns an
error. -/
def Agent.result (a : Agent) (w : World) (cfg : Config) : ValidationResult :=
  match a with
  | .EssentialFilesAgent => Tally.result "essential-files" (EssentialFilesAgent.tally w cfg)
  | .GitConfigurationAgent =>
      Tally.result "git-configuration" (GitConfigurationAgent.tally w cfg)
  | .DevelopmentStandardsAgent =>
      Tally.result "development-standards" (DevelopmentStandardsAgent.tally w cfg)

/-- The counters and findings of an agent at the end of `Validate`. -/
def Agent.tally (a : Agent) (w : World) (cfg : Config) : Tally :=
  match a with
  | .EssentialFilesAgent => EssentialFilesAgent.tally w cfg
  | .GitConfigurationAgent => GitConfigurationAgent.tally w cfg
  | .DevelopmentStandardsAgent => DevelopmentStandardsAgent.tally w cfg

/-- The results of the entries of `entries` whose agent is enabled, in the order of
`entries`. -/
def enabledResults (w : World) (cfg : Config) (entries : List (String × Agent)) :
    List ValidationResult :=
  (entries.filter (fun e => cfg.IsAgentEnabled e.1)).map (fun e => e.2.result w cfg)

/-- A range that visits the entries in the order of registration. -/
def rangeInOrder : MapRange :=
  { order := fun m => m
    perm := fun m => List.Perm.refl m }

/-- A range that visits the entries in the opposite order. -/
def rangeReversed : MapRange :=
  { order := fun m => m.reverse
    perm := fun m => List.reverse_perm m }

/-- A range that starts at the last entry: for the registry it visits
development-standards, essential-files, git-configuration. -/
def rangeRotated : MapRange :=
  { order := fun m => m.rotate 2
    perm := fun m => List.rotate_perm m 2 }

/-- The names of the registry entries in the order in which the range visits them. -/
def visitedNames (range : MapRange) : List String :=
  (range.order agentRegistry.All).map Prod.fst

/-- A configuration with the three `enabled` flags as given and every other setting
as in the default configuration. -/
def configWithEnabled (essentialFiles gitConfiguration developmentStandards : Bool) : Config :=
  { Validation :=
      { Agents :=
          { EssentialFiles :=
              { Enabled := essentialFiles, RequireReadme := true, RequireContributing := true }
            GitConfiguration :=
              { Enabled := gitConfiguration, RequireGitignore := true
                RequireGitattributes := false, RequireEditorconfig := true }
            DevelopmentStandards :=
              { Enabled := developmentStandards, CheckCommitHistory := true
                CommitHistoryDepth := 10, RequireConventionalCommits := true } }
        Output := DefaultConfig.Validation.Output } }

/-- The default configuration with `require_gitattributes: true`. -/
def configWithGitattributes : Config :=
  { Validation :=
      { Agents :=
          { EssentialFiles := DefaultConfig.Validation.Agents.EssentialFiles
            GitConfiguration :=
              { Enabled := true, RequireGitignore := true
                RequireGitattributes := true, RequireEditorconfig := true }
            DevelopmentStandards := DefaultConfig.Validation.Agents.DevelopmentStandards }
        Output := DefaultConfig.Validation.Output } }

/-- A run of `validate --output table [--agent agentName]` in world `w` whose
configuration loads as `cfg`, with standard output writable. -/
def invocation (agentName : String) (cfg : Config) (w : World) (range : MapRange) :
    Invocation :=
  { outputFormat := "table", agentName := agentName, loadConfig := .ok cfg
    world := w, range := range, stdoutError := none }

/-- The arithmetic mean of the scores of `results`. -/
def meanScore (results : List ValidationResult) : ℚ :=
  (results.map (fun r => r.Score)).sum / (results.length : ℚ)

/-- A rational number is a binary64 value: `m * 2^e` with `|m| < 2^53` and
`-1074 ≤ e ≤ 971`. -/
def IsBinary64 (x : ℚ) : Prop :=
  ∃ m e : ℤ, |m| < 2 ^ 53 ∧ -1074 ≤ e ∧ e ≤ 971 ∧ x = m * 2 ^ e

/-- The scores added in binary64 in list order, starting from `0.0`: every addition
is rounded. -/
def f64Sum (results : List ValidationResult) : F64 :=
  (results.map ValidationResult.scoreF64).foldl F64.add (.finite 0)

/-- Three results without a failing status, of scores 0.5, 1.0 and 0.9. -/
def scoresHalfOneNineTenths : List ValidationResult :=
  [{ Agent := "essential-files", Status := "warning", Score := 1 / 2, Findings := [] },
   { Agent := "git-configuration", Status := "pass", Score := 1, Findings := [] },
   { Agent := "development-standards", Status := "warning", Score := 9 / 10, Findings := [] }]

/-- Three results without a failing status, of scores 1.0, 1.0 and `1 - 2^-53`. -/
def scoresAlmostOne : List ValidationResult :=
  [{ Agent := "essential-files", Status := "pass", Score := 1, Findings := [] },
   { Agent := "git-configuration", Status := "pass", Score := 1, Findings := [] },
   { Agent := "development-standards", Status := "warning", Score := 1 - 1 / 2 ^ 53,
     Findings := [] }]

/-- Number of findings of type `present`. -/
def presentCount (fs : List Finding) : Nat :=
  (fs.filter (fun f => f.Type_ == "present")).length

/-- The file named by the finding of the README check. -/
def readmeFile (w : World) : String :=
  (readmePaths.find? w.stat).getD "README.md"

/-- The artifacts of the checks that an agent counts, in the order in which the source
evaluates them. -/
def Agent.checkedFiles (a : Agent) (w : World) (cfg : Config) : List String :=
  match a with
  | .EssentialFilesAgent =>
      (if cfg.Validation.Agents.EssentialFiles.RequireReadme then [readmeFile w] else []) ++
      (if cfg.Validation.Agents.EssentialFiles.RequireContributing then ["CONTRIBUTING.md"]
        else [])
  | .GitConfigurationAgent =>
      (if cfg.Validation.Agents.GitConfiguration.RequireGitignore then [".gitignore"] else []) ++
      (if cfg.Validation.Agents.GitConfiguration.RequireGitattributes then [".gitattributes"]
        else []) ++
      (if cfg.Validation.Agents.GitConfiguration.RequireEditorconfig then [".editorconfig"]
        else [])
  | .DevelopmentStandardsAgent =>
      (if cfg.Validation.Agents.DevelopmentStandards.commitCheckOn then ["git-history"]
        else []) ++ ["git-branch"]

/-- The part of a branch name before its first `/`. -/
def firstSegment (name : List Char) : List Char :=
  name.takeWhile (fun c => c != '/')

/-- Number of patterns of `patterns` that match `name`. -/
def matchCount (patterns : List Regexp) (name : List Char) : Nat :=
  (patterns.filter (fun pattern => pattern.MatchString name)).length

/-- The findings of a tally account for its counters: one finding per counted check,
the findings of type `present` being those of the passed checks, and every finding
satisfies `P`. -/
def Tally.Accounted (P : Finding → Prop) (t : Tally) : Prop :=
  t.Findings.length = t.totalChecks ∧ presentCount t.Findings = t.passedChecks ∧
    ∀ f ∈ t.Findings, P f

/-- The finding for a required `.gitattributes` that does not exist. -/
def gitattributesMissing : Finding :=
  { Type_ := "missing", File := ".gitattributes"
    Message := ".gitattributes missing (optional)", Severity := "warning" }

/-- The finding for a branch name that was read and does not follow the conventions. -/
def branchInvalid (branchName : String) : Finding :=
  { Type_ := "invalid", File := "git-branch"
    Message := "Branch name doesn't follow conventions: " ++ branchName
    Severity := "warning" }

/-- The severity of a finding, by kind of check outcome: a passed check is `present`
with severity `info`; a check that was evaluated and failed is `critical`, except the
missing `.gitattributes` and the invalid branch name, which are `warning`; the two
remaining cases are the findings of a git call that failed. -/
def SeverityRule (w : World) (depth : Int) (f : Finding) : Prop :=
  (f.Type_ = "present" ∧ f.Severity = "info") ∨
  (f.Type_ ≠ "present" ∧ f.Severity = "critical" ∧ f.File ≠ ".gitattributes" ∧
    f.File ≠ "git-branch") ∨
  f = gitattributesMissing ∨
  (∃ out, w.gitBranch = .ok out ∧ branchNameValid (TrimSpace out.toList) = false ∧
    f = branchInvalid (String.mk (TrimSpace out.toList))) ∨
  (∃ e, w.gitLog depth = .error e ∧ f = logFailedFinding e) ∨
  (∃ e, w.gitBranch = .error e ∧ f = branchFailedFinding e)

/-- How a check of an agent ended: evaluated and passed, evaluated and failed, or not
evaluated because the git call failed. -/
inductive CheckOutcome where
  | passed
  | failed
  | unreadable
  deriving DecidableEq, Repr

/-- The outcome of a check that was evaluated. -/
def CheckOutcome.ofBool (ok : Bool) : CheckOutcome :=
  if ok then .passed else .failed

/-- The checks that an agent performs, each with the artifact it names and its
outcome, in the order of the source: a file check passes when the file exists (the
README check when one of the four names exists), the commit check when the log meets
the 80% threshold, the branch check when the trimmed branch name is accepted. -/
def Agent.outcomes (a : Agent) (w : World) (cfg : Config) : List (String × CheckOutcome) :=
  match a with
  | .EssentialFilesAgent =>
      (if cfg.Validation.Agents.EssentialFiles.RequireReadme then
        [(readmeFile w, CheckOutcome.ofBool (readmePaths.any w.stat))] else []) ++
      (if cfg.Validation.Agents.EssentialFiles.RequireContributing then
        [("CONTRIBUTING.md", CheckOutcome.ofBool (w.stat "CONTRIBUTING.md"))] else [])
  | .GitConfigurationAgent =>
      (if cfg.Validation.Agents.GitConfiguration.RequireGitignore then
        [(".gitignore", CheckOutcome.ofBool (w.stat ".gitignore"))] else []) ++
      (if cfg.Validation.Agents.GitConfiguration.RequireGitattributes then
        [(".gitattributes", CheckOutcome.ofBool (w.stat ".gitattributes"))] else []) ++
      (if cfg.Validation.Agents.GitConfiguration.RequireEditorconfig then
        [(".editorconfig", CheckOutcome.ofBool (w.stat ".editorconfig"))] else [])
  | .DevelopmentStandardsAgent =>
      (if cfg.Validation.Agents.DevelopmentStandards.commitCheckOn then
        [("git-history",
          match w.gitLog cfg.Validation.Agents.DevelopmentStandards.CommitHistoryDepth with
          | .error _ => CheckOutcome.unreadable
          | .ok output => CheckOutcome.ofBool (conventionalCommitsOf output))]
        else []) ++
      [("git-branch",
        match w.gitBranch with
        | .error _ => CheckOutcome.unreadable
        | .ok output => CheckOutcome.ofBool (branchNameValid (TrimSpace output.toList)))]

/-- The type of the finding of a check, by its outcome: `present` for a passed check;
for a failed check `missing` when it is a file check and `invalid` when it is the
commit or the branch check; `invalid` when the git call failed. -/
def findingType (file : String) : CheckOutcome → String
  | .passed => "present"
  | .failed => if file = "git-history" ∨ file = "git-branch" then "invalid" else "missing"
  | .unreadable => "invalid"

/-- The severity of the finding of a check, by its outcome: `info` for a passed check;
`critical` for a failed check, except `.gitattributes` and the branch name, which are
`warning`; `warning` when the git call failed. -/
def findingSeverity (file : String) : CheckOutcome → String
  | .passed => "info"
  | .failed => if file = ".gitattributes" ∨ file = "git-branch" then "warning" else "critical"
  | .unreadable => "warning"

/-- File, type and severity of a finding. -/
def Finding.kind (f : Finding) : String × String × String :=
  (f.File, f.Type_, f.Severity)

/-- File, type and severity of the finding that the severity rules give to a check. -/
def expectedKind (c : String × CheckOutcome) : String × String × String :=
  (c.1, findingType c.1 c.2, findingSeverity c.1 c.2)

/-! ## Scores and statuses -/

theorem Tally.pass_le (t : Tally) (f : Finding) (h : t.passedChecks ≤ t.totalChecks) :
    (t.pass f).passedChecks ≤ (t.pass f).totalChecks := by
  simp only [Tally.pass]; omega

theorem Tally.miss_le (t : Tally) (f : Finding) (h : t.passedChecks ≤ t.totalChecks) :
    (t.miss f).passedChecks ≤ (t.miss f).totalChecks := by
  simp only [Tally.miss]; omega

theorem checkFile_le (w : World) (file msg sev : String) (t : Tally)
    (h : t.passedChecks ≤ t.totalChecks) :
    (checkFile w file msg sev t).passedChecks ≤ (checkFile w file msg sev t).totalChecks := by
  unfold checkFile
  split
  · exact Tally.pass_le _ _ h
  · exact Tally.miss_le _ _ h

theorem checkReadme_le (w : World) (t : Tally) (h : t.passedChecks ≤ t.totalChecks) :
    (EssentialFilesAgent.checkReadme w t).passedChecks ≤
      (EssentialFilesAgent.checkReadme w t).totalChecks := by
  unfold EssentialFilesAgent.checkReadme
  split
  · exact Tally.pass_le _ _ h
  · exact Tally.miss_le _ _ h

theorem commitCheck_le (w : World) (d : Int) (t : Tally) (h : t.passedChecks ≤ t.totalChecks) :
    (DevelopmentStandardsAgent.commitCheck w d t).passedChecks ≤
      (DevelopmentStandardsAgent.commitCheck w d t).totalChecks := by
  unfold DevelopmentStandardsAgent.commitCheck
  split
  · exact Tally.miss_le _ _ h
  · exact Tally.pass_le _ _ h
  · exact Tally.miss_le _ _ h

theorem branchCheck_le (w : World) (t : Tally) (h : t.passedChecks ≤ t.totalChecks) :
    (DevelopmentStandardsAgent.branchCheck w t).passedChecks ≤
      (DevelopmentStandardsAgent.branchCheck w t).totalChecks := by
  unfold DevelopmentStandardsAgent.branchCheck
  split
  · exact Tally.miss_le _ _ h
  · exact Tally.pass_le _ _ h
  · exact Tally.miss_le _ _ h

theorem essentialFiles_tally_le (w : World) (cfg : Config) :
    (EssentialFilesAgent.tally w cfg).passedChecks ≤
      (EssentialFilesAgent.tally w cfg).totalChecks := by
  simp only [EssentialFilesAgent.tally]
  have h0 : (0 : Nat) ≤ 0 := le_refl 0
  split_ifs <;>
    first
      | exact checkFile_le _ _ _ _ _ (checkReadme_le _ _ h0)
      | exact checkFile_le _ _ _ _ _ h0
      | exact checkReadme_le _ _ h0
      | exact h0

theorem gitConfiguration_tally_le (w : World) (cfg : Config) :
    (GitConfigurationAgent.tally w cfg).passedChecks ≤
      (GitConfigurationAgent.tally w cfg).totalChecks := by
  simp only [GitConfigurationAgent.tally]
  have h0 : (0 : Nat) ≤ 0 := le_refl 0
  split_ifs <;>
    first
      | exact checkFile_le _ _ _ _ _ (checkFile_le _ _ _ _ _ (checkFile_le _ _ _ _ _ h0))
      | exact checkFile_le _ _ _ _ _ (checkFile_le _ _ _ _ _ h0)
      | exact checkFile_le _ _ _ _ _ h0
      | exact h0

theorem developmentStandards_tally_le (w : World) (cfg : Config) :
    (DevelopmentStandardsAgent.tally w cfg).passedChecks ≤
      (DevelopmentStandardsAgent.tally w cfg).totalChecks := by
  simp only [DevelopmentStandardsAgent.tally]
  have h0 : (0 : Nat) ≤ 0 := le_refl 0
  split_ifs
  · exact branchCheck_le _ _ (commitCheck_le _ _ _ h0)
  · exact branchCheck_le _ _ h0

/-- The score of a tally with `passedChecks ≤ totalChecks` lies in `[0, 1]`. -/
theorem Tally.result_score_bounds (agent : String) (t : Tally)
    (h : t.passedChecks ≤ t.totalChecks) :
    0 ≤ (Tally.result agent t).Score ∧ (Tally.result agent t).Score ≤ 1 := by
  simp only [Tally.result]
  split_ifs with hpos
  · have hq : (0 : ℚ) < (t.totalChecks : ℚ) := by exact_mod_cast hpos
    have hle : (t.passedChecks : ℚ) ≤ (t.totalChecks : ℚ) := by exact_mod_cast h
    exact ⟨by positivity, (div_le_one hq).mpr hle⟩
  · exact ⟨zero_le_one, le_refl 1⟩

/-- The status is derived from the score alone. -/
theorem Tally.result_status (agent : String) (t : Tally) :
    ((Tally.result agent t).Status = "fail" ↔ (Tally.result agent t).Score < 1) ∧
    ((Tally.result agent t).Status = "pass" ↔ ¬ (Tally.result agent t).Score < 1) ∧
    (Tally.result agent t).Status ≠ "warning" := by
  have key : ∀ sc : ℚ,
      ((if sc < 1 then "fail" else "pass") = "fail" ↔ sc < 1) ∧
      ((if sc < 1 then "fail" else "pass") = "pass" ↔ ¬ sc < 1) ∧
      (if sc < 1 then "fail" else "pass") ≠ "warning" := by
    intro sc
    by_cases h : sc < 1 <;> simp [h]
  exact key _

/-- C1. For each of the three agents, whatever the configuration, the files below
the target path and the answers of git, `Validate` returns a result whose score is
between 0 and 1, whose status is "fail" exactly when the score is below 1 and "pass"
otherwise; the status is never "warning". -/
theorem C1_score_in_unit_interval_and_status (a : Agent) (w : World) (cfg : Config) :
    ∃ r, a.Validate w cfg = .ok r ∧ 0 ≤ r.Score ∧ r.Score ≤ 1 ∧
      (r.Status = "fail" ↔ r.Score < 1) ∧ (r.Status = "pass" ↔ ¬ r.Score < 1) ∧
      r.Status ≠ "warning" := by
  cases a
  · refine ⟨_, rfl, ?_⟩
    have hb := Tally.result_score_bounds "essential-files" _ (essentialFiles_tally_le w cfg)
    have hs := Tally.result_status "essential-files" (EssentialFilesAgent.tally w cfg)
    exact ⟨hb.1, hb.2, hs.1, hs.2.1, hs.2.2⟩
  · refine ⟨_, rfl, ?_⟩
    have hb := Tally.result_score_bounds "git-configuration" _ (gitConfiguration_tally_le w cfg)
    have hs := Tally.result_status "git-configuration" (GitConfigurationAgent.tally w cfg)
    exact ⟨hb.1, hb.2, hs.1, hs.2.1, hs.2.2⟩
  · refine ⟨_, rfl, ?_⟩
    have hb := Tally.result_score_bounds "development-standards" _
      (developmentStandards_tally_le w cfg)
    have hs := Tally.result_status "development-standards"
      (DevelopmentStandardsAgent.tally w cfg)
    exact ⟨hb.1, hb.2, hs.1, hs.2.1, hs.2.2⟩

/-! ## Counting the file checks -/

theorem checkFile_counts (w : World) (file msg sev : String) (t : Tally) :
    (checkFile w file msg sev t).totalChecks = t.totalChecks + 1 ∧
    (checkFile w file msg sev t).passedChecks = t.passedChecks + (w.stat file).toNat := by
  unfold checkFile
  cases w.stat file <;> simp [Tally.pass, Tally.miss]

theorem readmePaths_find_isSome (w : World) :
    (readmePaths.find? w.stat).isSome = readmeFound w := by
  simp only [readmePaths, readmeFound, List.find?]
  cases w.stat "README.md" <;> cases w.stat "README.rst" <;> cases w.stat "readme.md" <;>
    cases w.stat "readme.rst" <;> rfl

theorem checkReadme_counts (w : World) (t : Tally) :
    (EssentialFilesAgent.checkReadme w t).totalChecks = t.totalChecks + 1 ∧
    (EssentialFilesAgent.checkReadme w t).passedChecks =
      t.passedChecks + (readmeFound w).toNat := by
  rw [← readmePaths_find_isSome]
  unfold EssentialFilesAgent.checkReadme
  cases readmePaths.find? w.stat <;> simp [Tally.pass, Tally.miss]

theorem essentialFiles_tally_counts (w : World) (cfg : Config) :
    (EssentialFilesAgent.tally w cfg).totalChecks =
      cfg.Validation.Agents.EssentialFiles.enabledChecks ∧
    (EssentialFilesAgent.tally w cfg).passedChecks =
      cfg.Validation.Agents.EssentialFiles.passingChecks w := by
  simp only [EssentialFilesAgent.tally, EssentialFilesConfig.enabledChecks,
    EssentialFilesConfig.passingChecks]
  cases cfg.Validation.Agents.EssentialFiles.RequireReadme <;>
    cases cfg.Validation.Agents.EssentialFiles.RequireContributing <;>
    simp [checkFile_counts, checkReadme_counts]

theorem gitConfiguration_tally_counts (w : World) (cfg : Config) :
    (GitConfigurationAgent.tally w cfg).totalChecks =
      cfg.Validation.Agents.GitConfiguration.enabledChecks ∧
    (GitConfigurationAgent.tally w cfg).passedChecks =
      cfg.Validation.Agents.GitConfiguration.passingChecks w := by
  simp only [GitConfigurationAgent.tally, GitConfigurationConfig.enabledChecks,
    GitConfigurationConfig.passingChecks]
  cases cfg.Validation.Agents.GitConfiguration.RequireGitignore <;>
    cases cfg.Validation.Agents.GitConfiguration.RequireGitattributes <;>
    cases cfg.Validation.Agents.GitConfiguration.RequireEditorconfig <;>
    simp [checkFile_counts]

/-- The score is the quotient of the two counters, and 1 when nothing was counted. -/
theorem Tally.result_score (agent : String) (t : Tally) :
    (Tally.result agent t).Score =
      if t.totalChecks = 0 then 1 else (t.passedChecks : ℚ) / (t.totalChecks : ℚ) := by
  simp only [Tally.result]
  rcases Nat.eq_zero_or_pos t.totalChecks with h | h
  · simp [h]
  · simp [h, Nat.pos_iff_ne_zero.mp h]

/-- C2. The essential-files agent never fails with an error; its score is `p/t`, with
`t` the number of enabled flags and `p` the number of enabled checks that pass (the
README check passes iff one of the four README names exists, the CONTRIBUTING check
iff CONTRIBUTING.md exists), and 1.0 with status pass when `t = 0`.  With both flags
enabled: README.md and CONTRIBUTING.md give 1.0/pass, README.rst and CONTRIBUTING.md
give 1.0/pass, README.md without CONTRIBUTING.md gives 0.5/fail, no file gives
0.0/fail. -/
theorem C2_essential_files_score (w : World) (cfg : Config) :
    ∃ r, EssentialFilesAgent.Validate w cfg = .ok r ∧
      (r.Score =
        if cfg.Validation.Agents.EssentialFiles.enabledChecks = 0 then 1
        else (cfg.Validation.Agents.EssentialFiles.passingChecks w : ℚ) /
          (cfg.Validation.Agents.EssentialFiles.enabledChecks : ℚ)) ∧
      (cfg.Validation.Agents.EssentialFiles.enabledChecks = 0 →
        r.Score = 1 ∧ r.Status = "pass") ∧
      (cfg.Validation.Agents.EssentialFiles.RequireReadme = true →
        cfg.Validation.Agents.EssentialFiles.RequireContributing = true →
        (w.stat "README.md" = true → w.stat "CONTRIBUTING.md" = true →
          r.Score = 1 ∧ r.Status = "pass") ∧
        (w.stat "README.rst" = true → w.stat "CONTRIBUTING.md" = true →
          r.Score = 1 ∧ r.Status = "pass") ∧
        (w.stat "README.md" = true → w.stat "CONTRIBUTING.md" = false →
          r.Score = 1 / 2 ∧ r.Status = "fail") ∧
        ((∀ name, w.stat name = false) → r.Score = 0 ∧ r.Status = "fail")) := by
  refine ⟨_, rfl, ?_⟩
  have hc := essentialFiles_tally_counts w cfg
  have hs := Tally.result_score "essential-files" (EssentialFilesAgent.tally w cfg)
  have hst := Tally.result_status "essential-files" (EssentialFilesAgent.tally w cfg)
  rw [hc.1, hc.2] at hs
  generalize Tally.result "essential-files" (EssentialFilesAgent.tally w cfg) = r at hs hst
  obtain ⟨hfail, hpass, -⟩ := hst
  refine ⟨hs, ?_, ?_⟩
  · intro h0
    have h1 : r.Score = 1 := by rw [hs, if_pos h0]
    exact ⟨h1, hpass.mpr (by rw [h1]; exact lt_irrefl 1)⟩
  · intro hr hcn
    have hsc : r.Score = ((readmeFound w).toNat + (w.stat "CONTRIBUTING.md").toNat : ℚ) / 2 := by
      rw [hs]
      simp [EssentialFilesConfig.enabledChecks, EssentialFilesConfig.passingChecks, hr, hcn]
    refine ⟨?_, ?_, ?_, ?_⟩
    · intro h1 h2
      have h3 : r.Score = 1 := by rw [hsc]; simp [readmeFound, h1, h2]
      exact ⟨h3, hpass.mpr (by rw [h3]; exact lt_irrefl 1)⟩
    · intro h1 h2
      have h3 : r.Score = 1 := by rw [hsc]; simp [readmeFound, h1, h2]
      exact ⟨h3, hpass.mpr (by rw [h3]; exact lt_irrefl 1)⟩
    · intro h1 h2
      have h3 : r.Score = 1 / 2 := by rw [hsc]; simp [readmeFound, h1, h2]
      exact ⟨h3, hfail.mpr (by rw [h3]; norm_num)⟩
    · intro h1
      have h3 : r.Score = 0 := by rw [hsc]; simp [readmeFound, h1]
      exact ⟨h3, hfail.mpr (by rw [h3]; norm_num)⟩

/-- C2 at the four directories of `TestEssentialFilesAgent_Validate`, with the
default configuration. -/
theorem C2_essential_files_score_witness :
    (∃ r, EssentialFilesAgent.Validate (filesOnly ["README.md", "CONTRIBUTING.md"])
        DefaultConfig = .ok r ∧ r.Score = 1 ∧ r.Status = "pass") ∧
    (∃ r, EssentialFilesAgent.Validate (filesOnly ["README.rst", "CONTRIBUTING.md"])
        DefaultConfig = .ok r ∧ r.Score = 1 ∧ r.Status = "pass") ∧
    (∃ r, EssentialFilesAgent.Validate (filesOnly ["README.md"])
        DefaultConfig = .ok r ∧ r.Score = 1 / 2 ∧ r.Status = "fail") ∧
    (∃ r, EssentialFilesAgent.Validate (filesOnly [])
        DefaultConfig = .ok r ∧ r.Score = 0 ∧ r.Status = "fail") := by
  refine ⟨?_, ?_, ?_, ?_⟩
  · obtain ⟨r, h, -, -, hx⟩ :=
      C2_essential_files_score (filesOnly ["README.md", "CONTRIBUTING.md"]) DefaultConfig
    exact ⟨r, h, (hx rfl rfl).1 (by decide) (by decide)⟩
  · obtain ⟨r, h, -, -, hx⟩ :=
      C2_essential_files_score (filesOnly ["README.rst", "CONTRIBUTING.md"]) DefaultConfig
    exact ⟨r, h, (hx rfl rfl).2.1 (by decide) (by decide)⟩
  · obtain ⟨r, h, -, -, hx⟩ := C2_essential_files_score (filesOnly ["README.md"]) DefaultConfig
    exact ⟨r, h, (hx rfl rfl).2.2.1 (by decide) (by decide)⟩
  · obtain ⟨r, h, -, -, hx⟩ := C2_essential_files_score (filesOnly []) DefaultConfig
    exact ⟨r, h, (hx rfl rfl).2.2.2 (fun _ => rfl)⟩

theorem gitConfiguration_tally_congr (w w2 : World) (cfg : Config)
    (h : cfg.Validation.Agents.GitConfiguration.agreeOnEnabled w w2) :
    GitConfigurationAgent.tally w2 cfg = GitConfigurationAgent.tally w cfg := by
  obtain ⟨h1, h2, h3⟩ := h
  simp only [GitConfigurationAgent.tally]
  cases hi : cfg.Validation.Agents.GitConfiguration.RequireGitignore <;>
    cases ha : cfg.Validation.Agents.GitConfiguration.RequireGitattributes <;>
    cases he : cfg.Validation.Agents.GitConfiguration.RequireEditorconfig <;>
    simp [checkFile, h1, h2, h3, hi, ha, he]

/-- C3. The git-configuration agent never fails with an error; its score is `p/t`,
with `t` the number of enabled flags and `p` the number of enabled flags whose file
exists, and 1.0 when `t = 0`.  Two directories that agree on the files of the enabled
flags get the same result, so a file whose flag is disabled has no influence.  With
.gitignore and .editorconfig required and .gitattributes not: both present give
1.0/pass, only .gitignore gives 0.5/fail, neither gives 0.0/fail. -/
theorem C3_git_configuration_score (w w2 : World) (cfg : Config) :
    ∃ r, GitConfigurationAgent.Validate w cfg = .ok r ∧
      (r.Score =
        if cfg.Validation.Agents.GitConfiguration.enabledChecks = 0 then 1
        else (cfg.Validation.Agents.GitConfiguration.passingChecks w : ℚ) /
          (cfg.Validation.Agents.GitConfiguration.enabledChecks : ℚ)) ∧
      (cfg.Validation.Agents.GitConfiguration.agreeOnEnabled w w2 →
        GitConfigurationAgent.Validate w2 cfg = .ok r) ∧
      (cfg.Validation.Agents.GitConfiguration.RequireGitignore = true →
        cfg.Validation.Agents.GitConfiguration.RequireGitattributes = false →
        cfg.Validation.Agents.GitConfiguration.RequireEditorconfig = true →
        (w.stat ".gitignore" = true → w.stat ".editorconfig" = true →
          r.Score = 1 ∧ r.Status = "pass") ∧
        (w.stat ".gitignore" = true → w.stat ".editorconfig" = false →
          r.Score = 1 / 2 ∧ r.Status = "fail") ∧
        (w.stat ".gitignore" = false → w.stat ".editorconfig" = false →
          r.Score = 0 ∧ r.Status = "fail")) := by
  refine ⟨_, rfl, ?_, ?_, ?_⟩
  · have hc := gitConfiguration_tally_counts w cfg
    have hs := Tally.result_score "git-configuration" (GitConfigurationAgent.tally w cfg)
    rw [hc.1, hc.2] at hs
    exact hs
  · intro h
    simp only [GitConfigurationAgent.Validate, gitConfiguration_tally_congr w w2 cfg h]
  · have hc := gitConfiguration_tally_counts w cfg
    have hs := Tally.result_score "git-configuration" (GitConfigurationAgent.tally w cfg)
    have hst := Tally.result_status "git-configuration" (GitConfigurationAgent.tally w cfg)
    rw [hc.1, hc.2] at hs
    generalize Tally.result "git-configuration" (GitConfigurationAgent.tally w cfg) = r at hs hst
    obtain ⟨hfail, hpass, -⟩ := hst
    intro hi ha he
    have hsc : r.Score = ((w.stat ".gitignore").toNat + (w.stat ".editorconfig").toNat : ℚ) / 2 := by
      rw [hs]
      simp [GitConfigurationConfig.enabledChecks, GitConfigurationConfig.passingChecks,
        hi, ha, he]
    refine ⟨?_, ?_, ?_⟩
    · intro h1 h2
      have h3 : r.Score = 1 := by rw [hsc]; simp [h1, h2]
      exact ⟨h3, hpass.mpr (by rw [h3]; exact lt_irrefl 1)⟩
    · intro h1 h2
      have h3 : r.Score = 1 / 2 := by rw [hsc]; simp [h1, h2]
      exact ⟨h3, hfail.mpr (by rw [h3]; norm_num)⟩
    · intro h1 h2
      have h3 : r.Score = 0 := by rw [hsc]; simp [h1, h2]
      exact ⟨h3, hfail.mpr (by rw [h3]; norm_num)⟩

/-- C3 at the three directories of `TestGitConfigurationAgent_Validate` with the
default configuration; a stray .gitattributes changes nothing. -/
theorem C3_git_configuration_score_witness :
    (∃ r, GitConfigurationAgent.Validate (filesOnly [".gitignore", ".editorconfig"])
        DefaultConfig = .ok r ∧ r.Score = 1 ∧ r.Status = "pass" ∧
      GitConfigurationAgent.Validate
        (filesOnly [".gitignore", ".gitattributes", ".editorconfig"]) DefaultConfig = .ok r) ∧
    (∃ r, GitConfigurationAgent.Validate (filesOnly [".gitignore"])
        DefaultConfig = .ok r ∧ r.Score = 1 / 2 ∧ r.Status = "fail") ∧
    (∃ r, GitConfigurationAgent.Validate (filesOnly [])
        DefaultConfig = .ok r ∧ r.Score = 0 ∧ r.Status = "fail") := by
  refine ⟨?_, ?_, ?_⟩
  · obtain ⟨r, h, -, hag, hx⟩ :=
      C3_git_configuration_score (filesOnly [".gitignore", ".editorconfig"])
        (filesOnly [".gitignore", ".gitattributes", ".editorconfig"]) DefaultConfig
    obtain ⟨h1, h2⟩ := (hx rfl rfl rfl).1 (by decide) (by decide)
    refine ⟨r, h, h1, h2, hag ⟨fun _ => by decide, fun hf => ?_, fun _ => by decide⟩⟩
    exact absurd hf (by decide)
  · obtain ⟨r, h, -, -, hx⟩ :=
      C3_git_configuration_score (filesOnly [".gitignore"]) (filesOnly []) DefaultConfig
    exact ⟨r, h, (hx rfl rfl rfl).2.1 (by decide) (by decide)⟩
  · obtain ⟨r, h, -, -, hx⟩ :=
      C3_git_configuration_score (filesOnly []) (filesOnly []) DefaultConfig
    exact ⟨r, h, (hx rfl rfl rfl).2.2 (by decide) (by decide)⟩

/-! ## binary64: the 80% threshold -/

theorem bitLenAux_zero (f : Nat) : bitLenAux f 0 = 0 := by
  cases f <;> simp [bitLenAux]

theorem bitLenAux_bounds (f : Nat) : ∀ m, m ≤ f → m ≠ 0 →
    2 ^ bitLenAux f m ≤ 2 * m ∧ m < 2 ^ bitLenAux f m := by
  induction f with
  | zero => intro m h hm; omega
  | succ f ih =>
    intro m h hm
    simp only [bitLenAux, if_neg hm]
    by_cases h2 : m / 2 = 0
    · have h1 : m = 1 := by omega
      subst h1
      simp [bitLenAux_zero]
    · have := ih (m / 2) (by omega) h2
      rw [pow_succ]
      omega

theorem bitLen_zero : bitLen 0 = 0 := rfl

theorem bitLen_bounds (m : Nat) (hm : m ≠ 0) : 2 ^ bitLen m ≤ 2 * m ∧ m < 2 ^ bitLen m :=
  bitLenAux_bounds m m (le_refl m) hm

theorem bitLen_le_of_lt (m n : Nat) (h : m < 2 ^ n) : bitLen m ≤ n := by
  by_cases hm : m = 0
  · subst hm; simp [bitLen_zero]
  · have hb := (bitLen_bounds m hm).1
    by_contra hcon
    have h1 : 2 ^ (n + 1) ≤ 2 ^ bitLen m := Nat.pow_le_pow_right (by norm_num) (by omega)
    rw [pow_succ] at h1
    omega

theorem lt_bitLen_of_le (m n : Nat) (h : 2 ^ n ≤ m) : n < bitLen m := by
  have hm : m ≠ 0 := by
    have : 0 < 2 ^ n := Nat.two_pow_pos _
    omega
  have hb := (bitLen_bounds m hm).2
  by_contra hcon
  have h1 : 2 ^ bitLen m ≤ 2 ^ n := Nat.pow_le_pow_right (by norm_num) (by omega)
  omega

/-- A number with at most 53 significant digits is not changed by rounding. -/
theorem round53_exact (a j : Nat) (ha : a < 2 ^ 53) : round53 (a * 2 ^ j) = a * 2 ^ j := by
  have hlt : a * 2 ^ j < 2 ^ (53 + j) := by
    rw [pow_add]
    exact Nat.mul_lt_mul_of_pos_right ha (Nat.two_pow_pos _)
  have hs : bitLen (a * 2 ^ j) - 53 ≤ j := by
    have := bitLen_le_of_lt _ _ hlt
    omega
  have hdvd : 2 ^ (bitLen (a * 2 ^ j) - 53) ∣ a * 2 ^ j :=
    Dvd.dvd.mul_left (pow_dvd_pow 2 hs) a
  have hpos : 0 < 2 ^ (bitLen (a * 2 ^ j) - 53) := Nat.two_pow_pos _
  have hmod : a * 2 ^ j % 2 ^ (bitLen (a * 2 ^ j) - 53) = 0 := Nat.mod_eq_zero_of_dvd hdvd
  simp only [round53, hmod]
  rw [if_neg (by omega)]
  exact Nat.div_mul_cancel hdvd

theorem float64OfNat_exact (n : Nat) (h : n < 2 ^ 53) : float64OfNat n = n * 2 ^ 52 :=
  round53_exact n 52 h

/-- The binary64 comparison of `checkConventionalCommits` agrees with the exact
comparison `validCommits / len ≥ 4/5` as long as `len < 2^51`. -/
theorem meetsThreshold_iff (k n : Nat) (hn : n < 2 ^ 51) (hk : k ≤ n) :
    meetsThreshold k n = true ↔ 4 * n ≤ 5 * k := by
  have hn53 : n < 2 ^ 53 := by
    have : (2 : Nat) ^ 51 ≤ 2 ^ 53 := by norm_num
    omega
  simp only [meetsThreshold, f64MulPoint8, float64OfNat_exact n hn53,
    float64OfNat_exact k (lt_of_le_of_lt hk hn53), decide_eq_true_eq]
  by_cases hn0 : n = 0
  · subst hn0
    have hk0 : k = 0 := by omega
    subst hk0
    decide
  -- the exact product, in units of 2^-104
  obtain ⟨P, hP⟩ : ∃ P, P = n * 2 ^ 52 * f64_0_8 := ⟨_, rfl⟩
  rw [← hP]
  have hPn : P = n * 16225927682921337239877726502912 := by
    rw [hP, f64_0_8]; ring
  have hPlow : 2 ^ 103 ≤ P := by rw [hPn]; norm_num; omega
  have hPhigh : P < 2 ^ 155 := by
    rw [hPn]
    have h51 : (2 : Nat) ^ 51 = 2251799813685248 := by norm_num
    have h155 : (2 : Nat) ^ 155 = 45671926166590716193865151022383844364247891968 := by
      norm_num
    rw [h155]; rw [h51] at hn
    omega
  have hP0 : P ≠ 0 := by
    have : 0 < 2 ^ 103 := Nat.two_pow_pos _
    omega
  obtain ⟨hLlow, hLhigh⟩ := bitLen_bounds P hP0
  have hL1 : 103 < bitLen P := lt_bitLen_of_le P 103 hPlow
  have hL2 : bitLen P ≤ 155 := bitLen_le_of_lt P 155 hPhigh
  -- the rounding step t = 2^s
  obtain ⟨s, hs⟩ : ∃ s, s = bitLen P - 53 := ⟨_, rfl⟩
  have hLs : bitLen P = 53 + s := by omega
  obtain ⟨t, ht⟩ : ∃ t, t = 2 ^ s := ⟨_, rfl⟩
  have htpos : 0 < t := by rw [ht]; exact Nat.two_pow_pos _
  have ht102 : t ≤ 2 ^ 102 := by rw [ht]; exact Nat.pow_le_pow_right (by norm_num) (by omega)
  have h2L : 2 ^ bitLen P = 2 ^ 53 * t := by rw [hLs, pow_add, ht]
  rw [h2L] at hLlow hLhigh
  obtain ⟨u, hu⟩ : ∃ u, 2 ^ 102 = u * t := by
    refine ⟨2 ^ (102 - s), ?_⟩
    rw [ht, ← pow_add]
    congr 1
    omega
  -- quotient and remainder
  obtain ⟨q, hq⟩ : ∃ q, q = P / t := ⟨_, rfl⟩
  obtain ⟨r, hr⟩ : ∃ r, r = P % t := ⟨_, rfl⟩
  have hdm : t * q + r = P := by rw [hq, hr]; exact Nat.div_add_mod P t
  have hrt : r < t := by rw [hr]; exact Nat.mod_lt P htpos
  obtain ⟨X, hX⟩ : ∃ X, X = q * t := ⟨_, rfl⟩
  obtain ⟨T, hT⟩ : ∃ T, T = k * 2 ^ 52 * 2 ^ 52 := ⟨_, rfl⟩
  have hTa : T = (k * 4 * u) * t := by
    rw [hT, mul_assoc (k * 4) u t, ← hu]; ring
  have hTk : T = k * 20282409603651670423947251286016 := by rw [hT]; ring
  have hcmp : X + t ≤ T ∨ X = T ∨ T + t ≤ X := by
    rcases lt_trichotomy q (k * 4 * u) with h | h | h
    · left
      have := Nat.mul_le_mul_right t (Nat.succ_le_of_lt h)
      rw [hX, hTa]
      calc q * t + t = (q + 1) * t := by ring
        _ ≤ k * 4 * u * t := this
    · right; left; rw [hX, hTa, h]
    · right; right
      have := Nat.mul_le_mul_right t (Nat.succ_le_of_lt h)
      rw [hX, hTa]
      calc k * 4 * u * t + t = (k * 4 * u + 1) * t := by ring
        _ ≤ q * t := this
  have hXP : X + r = P := by rw [hX, ← hdm]; ring
  have hround : round53 P =
      if t < 2 * r ∨ (2 * r = t ∧ q % 2 = 1) then X + t else X := by
    simp only [round53, ← hs, ← ht, ← hq, ← hr, hX]
    split_ifs <;> ring
  rw [hround, ← hT]
  have h102 : (2 : Nat) ^ 102 = 5070602400912917605986812821504 := by norm_num
  have h53 : (2 : Nat) ^ 53 = 9007199254740992 := by norm_num
  rw [h102] at ht102
  rw [h53] at hLlow hLhigh
  clear hu hTa hround hdm hX hT hP hq hr ht hs h2L hLs hL1 hL2 hPlow hPhigh h102 h53
  split_ifs with hc
  · constructor
    · intro h; omega
    · intro h; omega
  · constructor
    · intro h; omega
    · intro h; omega

set_option maxRecDepth 100000 in
/-- The bound on the number of lines in `meetsThreshold_iff` cannot be dropped: from
about `2^52` lines on, the binary64 product is rounded to an integer, and
`2^52 + 3` valid lines of `5 * 2^50 + 4` pass although they are fewer than 80%. -/
theorem meetsThreshold_beyond_bound :
    meetsThreshold (2 ^ 52 + 3) (5 * 2 ^ 50 + 4) = true ∧
      ¬ 4 * (5 * 2 ^ 50 + 4) ≤ 5 * (2 ^ 52 + 3) := by
  constructor
  · decide
  · decide

theorem Split_length_pos (s : List Char) (sep : Char) : 1 ≤ (Split s sep).length := by
  induction s with
  | nil => simp [Split]
  | cons c cs ih =>
    simp only [Split]
    split_ifs
    · simp
    · split <;> simp

/-- C4. When `git log` succeeds, the output always yields a non-empty list of `n`
entries; with `k` of them matching the conventional pattern,
`checkConventionalCommits` returns true iff `5k ≥ 4n`, i.e. iff `k` is at least 80%
of `n`.  (`n < 2^51` keeps the binary64 product `n * 0.8` within half a unit of the
exact value; a log of that length does not fit in an address space.) -/
theorem C4_conventional_threshold (w : World) (depth : Int) (output : String)
    (hlog : w.gitLog depth = .ok output) (hlen : (logLines output).length < 2 ^ 51) :
    1 ≤ (logLines output).length ∧
    DevelopmentStandardsAgent.checkConventionalCommits w depth =
      .ok (decide (4 * (logLines output).length ≤
        5 * ((logLines output).filter conventionalPattern.MatchString).length)) := by
  have hpos : 1 ≤ (logLines output).length := Split_length_pos _ _
  refine ⟨hpos, ?_⟩
  simp only [DevelopmentStandardsAgent.checkConventionalCommits, hlog, conventionalCommitsOf]
  have hne : (Split (TrimSpace output.toList) '\n').length ≠ 0 := by
    simp only [logLines] at hpos; omega
  simp only [if_neg hne]
  have hiff := meetsThreshold_iff
    ((logLines output).filter conventionalPattern.MatchString).length
    (logLines output).length hlen (List.length_filter_le _ _)
  simp only [logLines] at hiff ⊢
  congr 1
  rw [Bool.eq_iff_iff, hiff, decide_eq_true_eq]

set_option maxRecDepth 100000 in
/-- C4 on two logs of ten entries: eight conventional entries pass, seven fail. -/
theorem C4_conventional_threshold_witness :
    DevelopmentStandardsAgent.checkConventionalCommits (repoWith logEightOfTen "main") 10
      = .ok true ∧
    DevelopmentStandardsAgent.checkConventionalCommits (repoWith logSevenOfTen "main") 10
      = .ok false := by
  constructor
  · have h := (C4_conventional_threshold (repoWith logEightOfTen "main") 10 logEightOfTen rfl
      (by decide)).2
    rw [h]
    exact congrArg Except.ok (by decide)
  · have h := (C4_conventional_threshold (repoWith logSevenOfTen "main") 10 logSevenOfTen rfl
      (by decide)).2
    rw [h]
    exact congrArg Except.ok (by decide)

/-! ## Regular expressions: the matcher computes the denotation -/

namespace Regex

theorem matches_empty_iff (x : List Char) : Matches empty x ↔ False := by
  constructor
  · intro h; cases h
  · exact False.elim

theorem matches_eps_iff (x : List Char) : Matches eps x ↔ x = [] := by
  constructor
  · intro h; cases h; rfl
  · rintro rfl; exact Matches.eps

theorem matches_cls_iff (p : Char → Bool) (x : List Char) :
    Matches (cls p) x ↔ ∃ c, x = [c] ∧ p c = true := by
  constructor
  · intro h; cases h with | cls _ c hc => exact ⟨c, rfl, hc⟩
  · rintro ⟨c, rfl, hc⟩; exact Matches.cls p c hc

theorem matches_alt_iff (a b : Regex) (x : List Char) :
    Matches (alt a b) x ↔ Matches a x ∨ Matches b x := by
  constructor
  · intro h
    cases h with
    | altL _ _ _ h => exact Or.inl h
    | altR _ _ _ h => exact Or.inr h
  · rintro (h | h)
    · exact Matches.altL a b x h
    · exact Matches.altR a b x h

theorem matches_seq_iff (a b : Regex) (x : List Char) :
    Matches (seq a b) x ↔ ∃ y z, x = y ++ z ∧ Matches a y ∧ Matches b z := by
  constructor
  · intro h
    cases h with | seq _ _ y z h1 h2 => exact ⟨y, z, rfl, h1, h2⟩
  · rintro ⟨y, z, rfl, h1, h2⟩
    exact Matches.seq a b y z h1 h2

theorem matches_chr_iff (c : Char) (x : List Char) : Matches (chr c) x ↔ x = [c] := by
  simp only [chr, matches_cls_iff, beq_iff_eq]
  constructor
  · rintro ⟨d, rfl, rfl⟩; rfl
  · rintro rfl; exact ⟨c, rfl, rfl⟩

theorem matches_opt_iff (r : Regex) (x : List Char) :
    Matches (opt r) x ↔ Matches r x ∨ x = [] := by
  simp only [opt, matches_alt_iff, matches_eps_iff]

theorem matches_alts_iff (rs : List Regex) (x : List Char) :
    Matches (alts rs) x ↔ ∃ r ∈ rs, Matches r x := by
  induction rs with
  | nil => simp [alts, matches_empty_iff]
  | cons r rs ih =>
    have : alts (r :: rs) = alt r (alts rs) := rfl
    rw [this, matches_alt_iff, ih]
    simp

theorem matches_lit_aux (cs : List Char) (x : List Char) :
    Matches (cs.foldr (fun c r => seq (chr c) r) eps) x ↔ x = cs := by
  induction cs generalizing x with
  | nil => simp [matches_eps_iff]
  | cons c cs ih =>
    simp only [List.foldr_cons, matches_seq_iff, matches_chr_iff, ih]
    constructor
    · rintro ⟨y, z, rfl, rfl, rfl⟩; rfl
    · rintro rfl; exact ⟨[c], cs, rfl, rfl, rfl⟩

theorem matches_lit_iff (s : String) (x : List Char) : Matches (lit s) x ↔ x = s.toList :=
  matches_lit_aux s.toList x

theorem matches_star_cls_iff (p : Char → Bool) (x : List Char) :
    Matches (star (cls p)) x ↔ ∀ c ∈ x, p c = true := by
  constructor
  · intro h
    generalize hr : star (cls p) = r at h
    induction h with
    | eps => cases hr
    | cls _ _ _ => cases hr
    | altL _ _ _ _ _ => cases hr
    | altR _ _ _ _ _ => cases hr
    | seq _ _ _ _ _ _ _ _ => cases hr
    | starNil _ => simp
    | starCons a y z h1 _ _ ih2 =>
      injection hr with hr
      subst hr
      obtain ⟨c, rfl, hc⟩ := (matches_cls_iff p y).mp h1
      intro d hd
      rcases List.mem_append.mp hd with hd | hd
      · rw [List.mem_singleton.mp hd]; exact hc
      · exact ih2 rfl d hd
  · intro h
    induction x with
    | nil => exact Matches.starNil _
    | cons c cs ih =>
      have h1 : Matches (cls p) [c] := Matches.cls p c (h c (List.mem_cons_self c cs))
      have h2 := ih (fun d hd => h d (List.mem_cons_of_mem c hd))
      exact Matches.starCons (cls p) [c] cs h1 h2

theorem matches_plus_cls_iff (p : Char → Bool) (x : List Char) :
    Matches (plus (cls p)) x ↔ x ≠ [] ∧ ∀ c ∈ x, p c = true := by
  simp only [plus, matches_seq_iff, matches_cls_iff, matches_star_cls_iff]
  constructor
  · rintro ⟨y, z, rfl, ⟨c, rfl, hc⟩, hz⟩
    refine ⟨by simp, ?_⟩
    intro d hd
    rcases List.mem_append.mp hd with hd | hd
    · rw [List.mem_singleton.mp hd]; exact hc
    · exact hz d hd
  · rintro ⟨hne, h⟩
    cases x with
    | nil => exact absurd rfl hne
    | cons c cs =>
      exact ⟨[c], cs, rfl, ⟨c, rfl, h c (List.mem_cons_self c cs)⟩,
        fun d hd => h d (List.mem_cons_of_mem c hd)⟩

theorem nullable_iff (r : Regex) : nullable r = true ↔ Matches r [] := by
  induction r with
  | empty => simp [nullable, matches_empty_iff]
  | eps => simp [nullable, matches_eps_iff]
  | cls p => simp [nullable, matches_cls_iff]
  | alt a b iha ihb => simp [nullable, matches_alt_iff, iha, ihb]
  | seq a b iha ihb =>
    simp only [nullable, Bool.and_eq_true, matches_seq_iff, iha, ihb]
    constructor
    · rintro ⟨h1, h2⟩; exact ⟨[], [], rfl, h1, h2⟩
    · rintro ⟨y, z, h, h1, h2⟩
      have hy : y = [] := (List.append_eq_nil.mp h.symm).1
      have hz : z = [] := (List.append_eq_nil.mp h.symm).2
      subst hy; subst hz
      exact ⟨h1, h2⟩
  | star a _ => simp only [nullable, true_iff]; exact Matches.starNil a

theorem matches_star_cons_iff (a : Regex) (c : Char) (s : List Char) :
    Matches (star a) (c :: s) ↔
      ∃ y z, s = y ++ z ∧ Matches a (c :: y) ∧ Matches (star a) z := by
  constructor
  · intro h
    generalize hr : star a = r at h
    generalize hw : c :: s = w at h
    induction h with
    | eps => cases hr
    | cls _ _ _ => cases hr
    | altL _ _ _ _ _ => cases hr
    | altR _ _ _ _ _ => cases hr
    | seq _ _ _ _ _ _ _ _ => cases hr
    | starNil _ => cases hw
    | starCons a2 x y h1 h2 _ ih2 =>
      injection hr with hr
      subst hr
      cases x with
      | nil => exact ih2 rfl (by simpa using hw)
      | cons d x2 =>
        simp only [List.cons_append, List.cons.injEq] at hw
        obtain ⟨rfl, rfl⟩ := hw
        exact ⟨x2, y, rfl, h1, h2⟩
  · rintro ⟨y, z, rfl, h1, h2⟩
    exact Matches.starCons a (c :: y) z h1 h2

theorem deriv_iff (c : Char) (r : Regex) : ∀ s, Matches (deriv c r) s ↔ Matches r (c :: s) := by
  induction r with
  | empty => intro s; simp [deriv, matches_empty_iff]
  | eps => intro s; simp [deriv, matches_empty_iff, matches_eps_iff]
  | cls p =>
    intro s
    simp only [deriv, matches_cls_iff]
    by_cases hp : p c = true
    · rw [if_pos hp]
      simp only [matches_eps_iff]
      constructor
      · rintro rfl; exact ⟨c, rfl, hp⟩
      · rintro ⟨d, hd, _⟩
        simp only [List.cons.injEq] at hd
        exact hd.2
    · rw [if_neg hp]
      simp only [matches_empty_iff, false_iff]
      rintro ⟨d, hd, hpd⟩
      simp only [List.cons.injEq] at hd
      rw [← hd.1] at hpd
      exact hp hpd
  | alt a b iha ihb => intro s; simp [deriv, matches_alt_iff, iha, ihb]
  | seq a b iha ihb =>
    intro s
    have key : Matches (seq a b) (c :: s) ↔
        (∃ y z, s = y ++ z ∧ Matches a (c :: y) ∧ Matches b z) ∨
          (Matches a [] ∧ Matches b (c :: s)) := by
      rw [matches_seq_iff]
      constructor
      · rintro ⟨y, z, h, h1, h2⟩
        cases y with
        | nil =>
          simp only [List.nil_append] at h
          subst h
          exact Or.inr ⟨h1, h2⟩
        | cons d y2 =>
          simp only [List.cons_append, List.cons.injEq] at h
          obtain ⟨rfl, rfl⟩ := h
          exact Or.inl ⟨y2, z, rfl, h1, h2⟩
      · rintro (⟨y, z, rfl, h1, h2⟩ | ⟨h1, h2⟩)
        · exact ⟨c :: y, z, rfl, h1, h2⟩
        · exact ⟨[], c :: s, rfl, h1, h2⟩
    rw [key]
    simp only [deriv]
    by_cases hn : nullable a = true
    · rw [if_pos hn]
      simp only [matches_alt_iff, matches_seq_iff, iha, ihb, (nullable_iff a).mp hn, true_and]
    · have hn2 : ¬ Matches a [] := fun h => hn ((nullable_iff a).mpr h)
      rw [if_neg hn]
      simp only [matches_seq_iff, iha, hn2, false_and, or_false]
  | star a iha =>
    intro s
    rw [matches_star_cons_iff]
    simp only [deriv, matches_seq_iff, iha]

theorem matchFull_iff (r : Regex) (s : List Char) : matchFull r s = true ↔ Matches r s := by
  induction s generalizing r with
  | nil => exact nullable_iff r
  | cons c cs ih => simp only [matchFull, ih, deriv_iff]

theorem matchPrefix_iff (r : Regex) (s : List Char) :
    matchPrefix r s = true ↔ ∃ p q, s = p ++ q ∧ Matches r p := by
  induction s generalizing r with
  | nil =>
    simp only [matchPrefix, nullable_iff]
    constructor
    · intro h; exact ⟨[], [], rfl, h⟩
    · rintro ⟨p, q, h, hp⟩
      have : p = [] := (List.append_eq_nil.mp h.symm).1
      subst this
      exact hp
  | cons c cs ih =>
    simp only [matchPrefix, Bool.or_eq_true, ih, nullable_iff, deriv_iff]
    constructor
    · rintro (h | ⟨p, q, rfl, hp⟩)
      · exact ⟨[], c :: cs, rfl, h⟩
      · exact ⟨c :: p, q, rfl, hp⟩
    · rintro ⟨p, q, h, hp⟩
      cases p with
      | nil => exact Or.inl hp
      | cons d p2 =>
        simp only [List.cons_append, List.cons.injEq] at h
        obtain ⟨rfl, rfl⟩ := h
        exact Or.inr ⟨p2, q, rfl, hp⟩

end Regex

/-! ## The two patterns of the development-standards agent -/

open Regex

theorem hexClass_iff (c : Char) : hexClass c = true ↔ c ∈ lowerHexDigits := by
  have hl : lowerHexDigits =
      ['0', '1', '2', '3', '4', '5', '6', '7', '8', '9', 'a', 'b', 'c', 'd', 'e', 'f'] := rfl
  constructor
  · intro h
    have hc : c = Char.ofNat c.toNat := (Char.ofNat_toNat c).symm
    simp only [hexClass, Bool.or_eq_true, Bool.and_eq_true, decide_eq_true_eq] at h
    have h1 : 'a'.toNat = 97 := rfl
    have h2 : 'f'.toNat = 102 := rfl
    have h3 : '0'.toNat = 48 := rfl
    have h4 : '9'.toNat = 57 := rfl
    rw [h1, h2, h3, h4] at h
    rw [hc]
    generalize c.toNat = n at h
    have hn : (97 ≤ n ∧ n ≤ 102) ∨ (48 ≤ n ∧ n ≤ 57) := h
    rcases hn with ⟨ha, hb⟩ | ⟨ha, hb⟩ <;> interval_cases n <;> decide
  · intro h
    rw [hl] at h
    simp only [List.mem_cons, List.mem_singleton, List.not_mem_nil, or_false] at h
    rcases h with h | h | h | h | h | h | h | h | h | h | h | h | h | h | h | h <;>
      subst h <;> decide

theorem matches_commitTypes_iff (x : List Char) :
    Matches (alts (commitTypes.map lit)) x ↔ x ∈ commitTypes.map String.toList := by
  simp only [matches_alts_iff, List.mem_map]
  constructor
  · rintro ⟨r, ⟨s, hs, rfl⟩, hm⟩
    exact ⟨s, hs, ((matches_lit_iff s x).mp hm).symm⟩
  · rintro ⟨s, hs, rfl⟩
    exact ⟨lit s, ⟨s, hs, rfl⟩, (matches_lit_iff s _).mpr rfl⟩

theorem matches_dots_iff (x : List Char) : Matches (plus dot) x ↔ x ≠ [] ∧ '\n' ∉ x := by
  simp only [dot, matches_plus_cls_iff, bne_iff_ne, ne_eq]
  constructor
  · rintro ⟨h1, h2⟩
    exact ⟨h1, fun hmem => h2 _ hmem rfl⟩
  · rintro ⟨h1, h2⟩
    exact ⟨h1, fun c hc heq => h2 (heq ▸ hc)⟩

theorem conventional_matches_iff (p : List Char) :
    Matches conventionalPattern.body p ↔
      ∃ hash type scope bang desc : List Char,
        p = hash ++ ' ' :: (type ++ (scope ++ (bang ++ ':' :: ' ' :: desc))) ∧
        (hash ≠ [] ∧ ∀ c ∈ hash, c ∈ lowerHexDigits) ∧
        type ∈ commitTypes.map String.toList ∧
        (scope = [] ∨ ∃ inner, (inner ≠ [] ∧ '\n' ∉ inner) ∧ scope = '(' :: (inner ++ [')'])) ∧
        (bang = [] ∨ bang = ['!']) ∧
        (desc ≠ [] ∧ '\n' ∉ desc) := by
  simp only [conventionalPattern, matches_seq_iff, matches_plus_cls_iff, matches_chr_iff,
    matches_commitTypes_iff, matches_opt_iff, matches_lit_iff, matches_dots_iff, hexClass_iff]
  constructor
  · rintro ⟨hash, _, rfl, hh, _, _, rfl, rfl, type, _, rfl, ht, scope, _, rfl, hs, bang, _, rfl,
      hb, _, desc, rfl, rfl, hd⟩
    refine ⟨hash, type, scope, bang, desc, by simp, hh, ht, ?_, ?_, hd⟩
    · rcases hs with ⟨_, _, rfl, rfl, inner, _, rfl, hi, rfl⟩ | rfl
      · exact Or.inr ⟨inner, hi, by simp⟩
      · exact Or.inl rfl
    · rcases hb with rfl | rfl
      · exact Or.inr rfl
      · exact Or.inl rfl
  · rintro ⟨hash, type, scope, bang, desc, rfl, hh, ht, hs, hb, hd⟩
    refine ⟨hash, _, rfl, hh, [' '], _, rfl, rfl, type, _, rfl, ht, scope, _, rfl, ?_, bang, _,
      rfl, ?_, ": ".toList, desc, by simp, rfl, hd⟩
    · rcases hs with rfl | ⟨inner, hi, rfl⟩
      · exact Or.inr rfl
      · exact Or.inl ⟨['('], _, rfl, rfl, inner, [')'], rfl, hi, rfl⟩
    · rcases hb with rfl | rfl
      · exact Or.inr rfl
      · exact Or.inl rfl

theorem Split_no_sep (s : List Char) (sep : Char) : ∀ l ∈ Split s sep, sep ∉ l := by
  induction s with
  | nil => simp [Split]
  | cons c cs ih =>
    simp only [Split]
    split_ifs with hc
    · intro l hl
      rcases List.mem_cons.mp hl with rfl | hl
      · simp
      · exact ih l hl
    · split
      · intro l hl
        simp only [List.mem_singleton] at hl
        subst hl
        simpa using Ne.symm hc
      · rename_i l0 ls heq
        intro l hl
        rcases List.mem_cons.mp hl with rfl | hl
        · have := ih l0 (by rw [heq]; exact List.mem_cons_self _ _)
          simp only [List.mem_cons, not_or]
          exact ⟨Ne.symm hc, this⟩
        · exact ih l (by rw [heq]; exact List.mem_cons_of_mem _ hl)

/-- Every line that `checkConventionalCommits` examines is free of line feeds. -/
theorem logLines_no_newline (output : String) : ∀ line ∈ logLines output, '\n' ∉ line :=
  Split_no_sep _ _

/-- C5. A one-line log entry matches `conventionalPattern` iff it consists of a
non-empty hash over `[0-9a-f]`, one space, one of the eleven types, an optional
non-empty scope in parentheses, an optional `!`, then `": "` and a non-empty
description. -/
theorem C5_conventional_classification (line : List Char) (hline : '\n' ∉ line) :
    conventionalPattern.MatchString line = true ↔ IsConventionalEntry line := by
  have hte : conventionalPattern.toEnd = false := rfl
  simp only [Regexp.MatchString, hte, Bool.false_eq_true, if_false, matchPrefix_iff,
    conventional_matches_iff, IsConventionalEntry]
  constructor
  · rintro ⟨p, q, rfl, hash, type, scope, bang, desc, rfl, hh, ht, hs, hb, hd⟩
    refine ⟨hash, type, scope, bang, desc ++ q, by simp, hh.1, hh.2, ht, ?_, hb, by simp [hd.1]⟩
    rcases hs with rfl | ⟨inner, hi, rfl⟩
    · exact Or.inl rfl
    · exact Or.inr ⟨inner, hi.1, rfl⟩
  · rintro ⟨hash, type, scope, bang, desc, rfl, hh1, hh2, ht, hs, hb, hd⟩
    refine ⟨_, [], (List.append_nil _).symm, hash, type, scope, bang, desc, rfl, ⟨hh1, hh2⟩, ht,
      ?_, hb, hd, ?_⟩
    · rcases hs with rfl | ⟨inner, hi, rfl⟩
      · exact Or.inl rfl
      · refine Or.inr ⟨inner, ⟨hi, ?_⟩, rfl⟩
        intro hmem
        apply hline
        simp [hmem]
    · intro hmem
      apply hline
      simp [hmem]

set_option maxRecDepth 100000 in
/-- C5 on the nine entries named in the claim: three match, six do not. -/
theorem C5_conventional_classification_witness :
    (conventionalPattern.MatchString "a1b2c3 fix: y".toList = true ∧
      IsConventionalEntry "a1b2c3 fix: y".toList) ∧
    (conventionalPattern.MatchString "a1b2c3 feat(api): x".toList = true ∧
      IsConventionalEntry "a1b2c3 feat(api): x".toList) ∧
    (conventionalPattern.MatchString "a1b2c3 feat(api)!: x".toList = true ∧
      IsConventionalEntry "a1b2c3 feat(api)!: x".toList) ∧
    (conventionalPattern.MatchString "a1b2c3 Update readme".toList = false ∧
      ¬ IsConventionalEntry "a1b2c3 Update readme".toList) ∧
    (conventionalPattern.MatchString "a1b2c3 feature: x".toList = false ∧
      ¬ IsConventionalEntry "a1b2c3 feature: x".toList) ∧
    (conventionalPattern.MatchString "a1b2c3 Feat: x".toList = false ∧
      ¬ IsConventionalEntry "a1b2c3 Feat: x".toList) ∧
    (conventionalPattern.MatchString "a1b2c3 feat:x".toList = false ∧
      ¬ IsConventionalEntry "a1b2c3 feat:x".toList) ∧
    (conventionalPattern.MatchString "a1b2c3 feat(): x".toList = false ∧
      ¬ IsConventionalEntry "a1b2c3 feat(): x".toList) ∧
    (conventionalPattern.MatchString "a1b2c3 feat: ".toList = false ∧
      ¬ IsConventionalEntry "a1b2c3 feat: ".toList) := by
  have yes : ∀ line : List Char, '\n' ∉ line → conventionalPattern.MatchString line = true →
      conventionalPattern.MatchString line = true ∧ IsConventionalEntry line :=
    fun line hl hm => ⟨hm, (C5_conventional_classification line hl).mp hm⟩
  have no : ∀ line : List Char, '\n' ∉ line → conventionalPattern.MatchString line = false →
      conventionalPattern.MatchString line = false ∧ ¬ IsConventionalEntry line :=
    fun line hl hm => ⟨hm, fun hc => by
      rw [(C5_conventional_classification line hl).mpr hc] at hm
      exact Bool.noConfusion hm⟩
  refine ⟨yes _ (by decide) (by decide), yes _ (by decide) (by decide),
    yes _ (by decide) (by decide), no _ (by decide) (by decide), no _ (by decide) (by decide),
    no _ (by decide) (by decide), no _ (by decide) (by decide), no _ (by decide) (by decide),
    no _ (by decide) (by decide)⟩

theorem prefixPattern_iff (a b : String) (name : List Char) (h : '\n' ∉ name) :
    Regexp.MatchString
        { body := seq (alts [lit a, lit b]) (seq (chr '/') (plus dot)), toEnd := false } name
      = true ↔
    ∃ pre, (pre = a.toList ∨ pre = b.toList) ∧ ∃ rest, rest ≠ [] ∧ name = pre ++ '/' :: rest := by
  simp only [Regexp.MatchString, Bool.false_eq_true, if_false, matchPrefix_iff, matches_seq_iff,
    matches_alts_iff, matches_chr_iff, matches_dots_iff, List.mem_cons, List.mem_singleton,
    List.not_mem_nil, or_false]
  constructor
  · rintro ⟨p, q, rfl, pre, _, rfl, ⟨r, hr, hm⟩, _, d, rfl, rfl, hd, -⟩
    refine ⟨pre, ?_, d ++ q, by simp [hd], by simp⟩
    rcases hr with rfl | rfl
    · exact Or.inl ((matches_lit_iff _ _).mp hm)
    · exact Or.inr ((matches_lit_iff _ _).mp hm)
  · rintro ⟨pre, hpre, rest, hrest, rfl⟩
    refine ⟨_, [], (List.append_nil _).symm, pre, _, rfl, ?_, ['/'], rest, rfl, rfl, hrest, ?_⟩
    · rcases hpre with rfl | rfl
      · exact ⟨lit a, Or.inl rfl, (matches_lit_iff _ _).mpr rfl⟩
      · exact ⟨lit b, Or.inr rfl, (matches_lit_iff _ _).mpr rfl⟩
    · intro hmem
      apply h
      simp [hmem]

theorem trunkPattern_iff (name : List Char) :
    Regexp.MatchString
        { body := alts [lit "main", lit "master", lit "develop", lit "development"]
          toEnd := true } name = true ↔
    name ∈ trunkBranches.map String.toList := by
  simp only [Regexp.MatchString, if_true, matchFull_iff, matches_alts_iff, trunkBranches,
    List.mem_cons, List.mem_singleton, List.not_mem_nil, or_false, List.map_cons, List.map_nil]
  constructor
  · rintro ⟨r, hr, hm⟩
    rcases hr with rfl | rfl | rfl | rfl <;> simp [(matches_lit_iff _ _).mp hm]
  · rintro (h | h | h | h)
    · exact ⟨_, Or.inl rfl, (matches_lit_iff _ _).mpr h⟩
    · exact ⟨_, Or.inr (Or.inl rfl), (matches_lit_iff _ _).mpr h⟩
    · exact ⟨_, Or.inr (Or.inr (Or.inl rfl)), (matches_lit_iff _ _).mpr h⟩
    · exact ⟨_, Or.inr (Or.inr (Or.inr rfl)), (matches_lit_iff _ _).mpr h⟩

theorem branchNameValid_iff (name : List Char) (h : '\n' ∉ name) :
    branchNameValid name = true ↔ IsAcceptedBranch name := by
  simp only [branchNameValid, branchPatterns, List.any_cons, List.any_nil, Bool.or_false,
    Bool.or_eq_true, prefixPattern_iff _ _ name h, trunkPattern_iff, IsAcceptedBranch,
    branchPrefixes, List.map_cons, List.map_nil, List.mem_cons, List.mem_singleton,
    List.not_mem_nil, or_false]
  constructor
  · rintro (⟨pre, hp, hr⟩ | ⟨pre, hp, hr⟩ | ⟨pre, hp, hr⟩ | ⟨pre, hp, hr⟩ | ⟨pre, hp, hr⟩ |
      ⟨pre, hp, hr⟩ | ht)
    all_goals first
      | exact Or.inl ht
      | exact Or.inr ⟨pre, by tauto, hr⟩
  · rintro (ht | ⟨pre, hp, hr⟩)
    · tauto
    · rcases hp with hp | hp | hp | hp | hp | hp | hp | hp | hp | hp | hp | hp
      · exact Or.inl ⟨pre, Or.inl hp, hr⟩
      · exact Or.inl ⟨pre, Or.inr hp, hr⟩
      · exact Or.inr (Or.inl ⟨pre, Or.inl hp, hr⟩)
      · exact Or.inr (Or.inl ⟨pre, Or.inr hp, hr⟩)
      · exact Or.inr (Or.inr (Or.inl ⟨pre, Or.inl hp, hr⟩))
      · exact Or.inr (Or.inr (Or.inl ⟨pre, Or.inr hp, hr⟩))
      · exact Or.inr (Or.inr (Or.inr (Or.inl ⟨pre, Or.inl hp, hr⟩)))
      · exact Or.inr (Or.inr (Or.inr (Or.inl ⟨pre, Or.inr hp, hr⟩)))
      · exact Or.inr (Or.inr (Or.inr (Or.inr (Or.inl ⟨pre, Or.inl hp, hr⟩))))
      · exact Or.inr (Or.inr (Or.inr (Or.inr (Or.inl ⟨pre, Or.inr hp, hr⟩))))
      · exact Or.inr (Or.inr (Or.inr (Or.inr (Or.inr (Or.inl ⟨pre, Or.inl hp, hr⟩)))))
      · exact Or.inr (Or.inr (Or.inr (Or.inr (Or.inr (Or.inl ⟨pre, Or.inr hp, hr⟩)))))

/-- C6. When `git rev-parse` succeeds and prints a single name, `checkBranchNaming`
returns the trimmed name, and accepts it iff it is one of main, master, develop,
development, or one of the twelve prefixes followed by `/` and at least one further
character. -/
theorem C6_branch_acceptance (w : World) (output : String) (hb : w.gitBranch = .ok output)
    (hnl : '\n' ∉ TrimSpace output.toList) :
    DevelopmentStandardsAgent.checkBranchNaming w =
        .ok (branchNameValid (TrimSpace output.toList), String.mk (TrimSpace output.toList)) ∧
      (branchNameValid (TrimSpace output.toList) = true ↔
        IsAcceptedBranch (TrimSpace output.toList)) := by
  refine ⟨?_, branchNameValid_iff _ hnl⟩
  simp only [DevelopmentStandardsAgent.checkBranchNaming, hb]

set_option maxRecDepth 100000 in
/-- C6 on the seven names of the claim, as printed by git (with the final line
feed): two are accepted, five rejected. -/
theorem C6_branch_acceptance_witness :
    (DevelopmentStandardsAgent.checkBranchNaming (repoWith "" "feature/login\n")
        = .ok (true, "feature/login") ∧ IsAcceptedBranch "feature/login".toList) ∧
    (DevelopmentStandardsAgent.checkBranchNaming (repoWith "" "development\n")
        = .ok (true, "development") ∧ IsAcceptedBranch "development".toList) ∧
    (DevelopmentStandardsAgent.checkBranchNaming (repoWith "" "random-branch\n")
        = .ok (false, "random-branch") ∧ ¬ IsAcceptedBranch "random-branch".toList) ∧
    (DevelopmentStandardsAgent.checkBranchNaming (repoWith "" "feature/\n")
        = .ok (false, "feature/") ∧ ¬ IsAcceptedBranch "feature/".toList) ∧
    (DevelopmentStandardsAgent.checkBranchNaming (repoWith "" "main/x\n")
        = .ok (false, "main/x") ∧ ¬ IsAcceptedBranch "main/x".toList) ∧
    (DevelopmentStandardsAgent.checkBranchNaming (repoWith "" "mainline\n")
        = .ok (false, "mainline") ∧ ¬ IsAcceptedBranch "mainline".toList) ∧
    (DevelopmentStandardsAgent.checkBranchNaming (repoWith "" "Feature/login\n")
        = .ok (false, "Feature/login") ∧ ¬ IsAcceptedBranch "Feature/login".toList) := by
  have yes : ∀ (output : String) (name : String), '\n' ∉ TrimSpace output.toList →
      (branchNameValid (TrimSpace output.toList), String.mk (TrimSpace output.toList))
        = (true, name) →
      DevelopmentStandardsAgent.checkBranchNaming (repoWith "" output) = .ok (true, name) ∧
        IsAcceptedBranch name.toList := by
    intro output name hnl he
    obtain ⟨h1, h2⟩ := C6_branch_acceptance (repoWith "" output) output rfl hnl
    rw [h1, he]
    have hv := (Prod.mk.inj he).1
    have hname := (Prod.mk.inj he).2
    refine ⟨rfl, ?_⟩
    have := h2.mp hv
    rw [← hname]
    exact this
  have no : ∀ (output : String) (name : String), '\n' ∉ TrimSpace output.toList →
      (branchNameValid (TrimSpace output.toList), String.mk (TrimSpace output.toList))
        = (false, name) →
      DevelopmentStandardsAgent.checkBranchNaming (repoWith "" output) = .ok (false, name) ∧
        ¬ IsAcceptedBranch name.toList := by
    intro output name hnl he
    obtain ⟨h1, h2⟩ := C6_branch_acceptance (repoWith "" output) output rfl hnl
    rw [h1, he]
    have hv := (Prod.mk.inj he).1
    have hname := (Prod.mk.inj he).2
    refine ⟨rfl, ?_⟩
    rw [← hname]
    intro hacc
    rw [h2.mpr hacc] at hv
    exact Bool.noConfusion hv
  exact ⟨yes _ _ (by decide) (by decide), yes _ _ (by decide) (by decide),
    no _ _ (by decide) (by decide), no _ _ (by decide) (by decide),
    no _ _ (by decide) (by decide), no _ _ (by decide) (by decide),
    no _ _ (by decide) (by decide)⟩

/-! ## The development-standards agent: empty log, failed reads, denominator -/

theorem developmentStandards_tally_eq (w : World) (cfg : Config) :
    DevelopmentStandardsAgent.tally w cfg =
      DevelopmentStandardsAgent.branchCheck w
        (if cfg.Validation.Agents.DevelopmentStandards.commitCheckOn = true then
          DevelopmentStandardsAgent.commitCheck w
            cfg.Validation.Agents.DevelopmentStandards.CommitHistoryDepth ⟨0, 0, []⟩
        else ⟨0, 0, []⟩) := rfl

set_option maxRecDepth 100000 in
/-- C7, evaluated: an empty `git log` output is split into one empty entry, so the
guard `len(lines) == 0` is not taken; the entry does not match, the check returns
false and `Validate` reports a critical finding with score 0.5. -/
theorem C7_empty_log_is_rejected :
    logLines "" = [[]] ∧
    DevelopmentStandardsAgent.checkConventionalCommits (repoWith "" "main") 0 = .ok false ∧
    DevelopmentStandardsAgent.Validate (repoWith "" "main") (configWithDepth 0) =
      .ok { Agent := "development-standards", Status := "fail", Score := 1 / 2
            Findings :=
              [ { Type_ := "invalid", File := "git-history"
                  Message := "Recent commits don't follow conventional format"
                  Severity := "critical" },
                { Type_ := "present", File := "git-branch"
                  Message := "Branch naming follows conventions: main"
                  Severity := "info" } ] } := by
  have h1 : logLines "" = [[]] := by decide
  have h2 : conventionalCommitsOf "" = false := by decide
  have h3 : DevelopmentStandardsAgent.checkConventionalCommits (repoWith "" "main") 0
      = .ok false := by
    simp only [DevelopmentStandardsAgent.checkConventionalCommits, repoWith, h2]
  have h4 : DevelopmentStandardsAgent.checkBranchNaming (repoWith "" "main")
      = .ok (true, "main") := by
    simp only [DevelopmentStandardsAgent.checkBranchNaming, repoWith]
    exact congrArg Except.ok (by decide)
  refine ⟨h1, h3, ?_⟩
  simp only [DevelopmentStandardsAgent.Validate, DevelopmentStandardsAgent.tally,
    configWithDepth, DevelopmentStandardsAgent.commitCheck, h3,
    DevelopmentStandardsAgent.branchCheck, h4, Tally.miss, Tally.pass, Tally.result]
  norm_num
  decide

theorem commitCheck_of_error (w : World) (d : Int) (t : Tally) (e : String)
    (h : w.gitLog d = .error e) :
    DevelopmentStandardsAgent.commitCheck w d t = t.miss (logFailedFinding e) := by
  simp only [DevelopmentStandardsAgent.commitCheck,
    DevelopmentStandardsAgent.checkConventionalCommits, h, logFailedFinding]

theorem branchCheck_of_error (w : World) (t : Tally) (e : String)
    (h : w.gitBranch = .error e) :
    DevelopmentStandardsAgent.branchCheck w t = t.miss (branchFailedFinding e) := by
  simp only [DevelopmentStandardsAgent.branchCheck,
    DevelopmentStandardsAgent.checkBranchNaming, h, branchFailedFinding]

theorem branchCheck_of_valid (w : World) (t : Tally) (out : String)
    (h : w.gitBranch = .ok out) (hv : branchNameValid (TrimSpace out.toList) = true) :
    ∃ f, DevelopmentStandardsAgent.branchCheck w t = t.pass f := by
  simp only [DevelopmentStandardsAgent.branchCheck,
    DevelopmentStandardsAgent.checkBranchNaming, h, hv]
  exact ⟨_, rfl⟩

theorem result_of_none_passed (agent : String) (t : Tally) (h0 : t.passedChecks = 0)
    (h1 : 0 < t.totalChecks) :
    (Tally.result agent t).Score = 0 ∧ (Tally.result agent t).Status = "fail" := by
  have hs : (Tally.result agent t).Score = 0 := by
    rw [Tally.result_score, if_neg (by omega), h0]; simp
  exact ⟨hs, (Tally.result_status agent t).1.mpr (by rw [hs]; norm_num)⟩

theorem result_of_one_of_two (agent : String) (t : Tally) (h0 : t.passedChecks = 1)
    (h1 : t.totalChecks = 2) :
    (Tally.result agent t).Score = 1 / 2 ∧ (Tally.result agent t).Status = "fail" := by
  have hs : (Tally.result agent t).Score = 1 / 2 := by
    rw [Tally.result_score, if_neg (by omega), h0, h1]; norm_num
  exact ⟨hs, (Tally.result_status agent t).1.mpr (by rw [hs]; norm_num)⟩

set_option maxRecDepth 100000 in
/-- C8 as stated fails: outside a repository both reads fail, both checks are
counted and the result is 0.0/fail, not 1.0/pass; with a failing log read and the
valid branch `main` the result is 0.5/fail, not 1.0. -/
theorem C8_read_failure_counterexample :
    (DevelopmentStandardsAgent.tally notARepo DefaultConfig).totalChecks = 2 ∧
    (DevelopmentStandardsAgent.tally notARepo DefaultConfig).passedChecks = 0 ∧
    DevelopmentStandardsAgent.Validate notARepo DefaultConfig =
      .ok { Agent := "development-standards", Status := "fail", Score := 0
            Findings := [logFailedFinding "exit status 128",
              branchFailedFinding "exit status 128"] } ∧
    DevelopmentStandardsAgent.Validate (logFails "main\n") DefaultConfig =
      .ok { Agent := "development-standards", Status := "fail", Score := 1 / 2
            Findings :=
              [ logFailedFinding "exit status 128",
                { Type_ := "present", File := "git-branch"
                  Message := "Branch naming follows conventions: main"
                  Severity := "info" } ] } := by
  have h3 : ∀ b, DevelopmentStandardsAgent.checkConventionalCommits (logFails b) 10
      = .error "git log failed: exit status 128" := fun _ => rfl
  have h4 : DevelopmentStandardsAgent.checkBranchNaming notARepo
      = .error "git branch check failed: exit status 128" := rfl
  have h5 : DevelopmentStandardsAgent.checkBranchNaming (logFails "main\n")
      = .ok (true, "main") := by
    simp only [DevelopmentStandardsAgent.checkBranchNaming, logFails]
    exact congrArg Except.ok (by decide)
  have h6 : DevelopmentStandardsAgent.checkConventionalCommits notARepo 10
      = .error "git log failed: exit status 128" := rfl
  refine ⟨?_, ?_, ?_, ?_⟩
  · simp [DevelopmentStandardsAgent.tally, DefaultConfig,
      DevelopmentStandardsAgent.commitCheck, h6,
      DevelopmentStandardsAgent.branchCheck, h4, Tally.miss]
  · simp [DevelopmentStandardsAgent.tally, DefaultConfig,
      DevelopmentStandardsAgent.commitCheck, h6,
      DevelopmentStandardsAgent.branchCheck, h4, Tally.miss]
  · simp only [DevelopmentStandardsAgent.Validate, DevelopmentStandardsAgent.tally,
      DefaultConfig, DevelopmentStandardsAgent.commitCheck, h6,
      DevelopmentStandardsAgent.branchCheck, h4, Tally.miss, Tally.pass, Tally.result,
      logFailedFinding, branchFailedFinding]
    norm_num
    decide
  · simp only [DevelopmentStandardsAgent.Validate, DevelopmentStandardsAgent.tally,
      DefaultConfig, DevelopmentStandardsAgent.commitCheck, h3,
      DevelopmentStandardsAgent.branchCheck, h5, Tally.miss, Tally.pass, Tally.result,
      logFailedFinding]
    norm_num
    decide

/-- C8, amended. A failed log read (respectively branch read) appends a finding of
type invalid and severity warning and is counted like a failed check: `totalChecks`
grows by one, `passedChecks` does not.  So when every attempted read fails the result
is 0.0/fail, and when the log read fails and the branch is valid it is 0.5/fail. -/
theorem C8_read_failure_is_counted (w : World) (cfg : Config) (t : Tally) :
    (∀ e, w.gitLog cfg.Validation.Agents.DevelopmentStandards.CommitHistoryDepth = .error e →
      DevelopmentStandardsAgent.commitCheck w
          cfg.Validation.Agents.DevelopmentStandards.CommitHistoryDepth t
        = { totalChecks := t.totalChecks + 1, passedChecks := t.passedChecks
            Findings := t.Findings ++ [logFailedFinding e] }) ∧
    (∀ e, w.gitBranch = .error e →
      DevelopmentStandardsAgent.branchCheck w t
        = { totalChecks := t.totalChecks + 1, passedChecks := t.passedChecks
            Findings := t.Findings ++ [branchFailedFinding e] }) ∧
    ((cfg.Validation.Agents.DevelopmentStandards.commitCheckOn = true →
        ∃ e, w.gitLog cfg.Validation.Agents.DevelopmentStandards.CommitHistoryDepth
          = .error e) →
      (∃ e, w.gitBranch = .error e) →
      ∃ r, DevelopmentStandardsAgent.Validate w cfg = .ok r ∧ r.Score = 0 ∧
        r.Status = "fail") ∧
    (cfg.Validation.Agents.DevelopmentStandards.commitCheckOn = true →
      (∃ e, w.gitLog cfg.Validation.Agents.DevelopmentStandards.CommitHistoryDepth
          = .error e) →
      (∃ out, w.gitBranch = .ok out ∧ branchNameValid (TrimSpace out.toList) = true) →
      ∃ r, DevelopmentStandardsAgent.Validate w cfg = .ok r ∧ r.Score = 1 / 2 ∧
        r.Status = "fail") := by
  refine ⟨fun e h => commitCheck_of_error w _ t e h, fun e h => branchCheck_of_error w t e h,
    ?_, ?_⟩
  · intro hlog ⟨eb, hb⟩
    refine ⟨_, rfl, ?_⟩
    apply result_of_none_passed
    · rw [developmentStandards_tally_eq, branchCheck_of_error w _ eb hb]
      by_cases hon : cfg.Validation.Agents.DevelopmentStandards.commitCheckOn = true
      · obtain ⟨el, hl⟩ := hlog hon
        rw [if_pos hon, commitCheck_of_error w _ _ el hl]
        rfl
      · rw [if_neg hon]
        rfl
    · rw [developmentStandards_tally_eq, branchCheck_of_error w _ eb hb]
      simp [Tally.miss]
  · intro hon ⟨el, hl⟩ ⟨out, hb, hv⟩
    refine ⟨_, rfl, ?_⟩
    obtain ⟨f, hf⟩ := branchCheck_of_valid w
      (DevelopmentStandardsAgent.commitCheck w
        cfg.Validation.Agents.DevelopmentStandards.CommitHistoryDepth ⟨0, 0, []⟩) out hb hv
    apply result_of_one_of_two
    · rw [developmentStandards_tally_eq, if_pos hon, hf, commitCheck_of_error w _ _ el hl]
      rfl
    · rw [developmentStandards_tally_eq, if_pos hon, hf, commitCheck_of_error w _ _ el hl]
      rfl

set_option maxRecDepth 100000 in
/-- C8 amended, outside a repository and with a failing log on branch
`feature/login`. -/
theorem C8_read_failure_is_counted_witness :
    (∃ r, DevelopmentStandardsAgent.Validate notARepo DefaultConfig = .ok r ∧ r.Score = 0 ∧
      r.Status = "fail") ∧
    (∃ r, DevelopmentStandardsAgent.Validate (logFails "feature/login\n") DefaultConfig
      = .ok r ∧ r.Score = 1 / 2 ∧ r.Status = "fail") := by
  constructor
  · exact (C8_read_failure_is_counted notARepo DefaultConfig ⟨0, 0, []⟩).2.2.1
      (fun _ => ⟨_, rfl⟩) ⟨_, rfl⟩
  · exact (C8_read_failure_is_counted (logFails "feature/login\n") DefaultConfig
      ⟨0, 0, []⟩).2.2.2 rfl ⟨_, rfl⟩ ⟨_, rfl, by decide⟩

/-- The commit check adds one to `totalChecks` and appends one finding about
`git-history`; `passedChecks` grows iff the log was read and meets the threshold. -/
theorem commitCheck_shape (w : World) (d : Int) (t : Tally) :
    ∃ f, f.File = "git-history" ∧
      DevelopmentStandardsAgent.commitCheck w d t =
        { totalChecks := t.totalChecks + 1
          passedChecks := t.passedChecks +
            (match w.gitLog d with
              | .ok log => (conventionalCommitsOf log).toNat
              | .error _ => 0)
          Findings := t.Findings ++ [f] } := by
  cases hl : w.gitLog d with
  | error e =>
    simp only [DevelopmentStandardsAgent.commitCheck,
      DevelopmentStandardsAgent.checkConventionalCommits, hl]
    exact ⟨_, by rfl, rfl⟩
  | ok log =>
    cases hc : conventionalCommitsOf log <;>
      simp only [DevelopmentStandardsAgent.commitCheck,
        DevelopmentStandardsAgent.checkConventionalCommits, hl, hc] <;>
      exact ⟨_, by rfl, rfl⟩

theorem branchCheck_shape (w : World) (t : Tally) :
    ∃ f, f.File = "git-branch" ∧
      DevelopmentStandardsAgent.branchCheck w t =
        { totalChecks := t.totalChecks + 1
          passedChecks := t.passedChecks +
            (match w.gitBranch with
              | .ok out => (branchNameValid (TrimSpace out.toList)).toNat
              | .error _ => 0)
          Findings := t.Findings ++ [f] } := by
  cases hb : w.gitBranch with
  | error e =>
    simp only [DevelopmentStandardsAgent.branchCheck,
      DevelopmentStandardsAgent.checkBranchNaming, hb]
    exact ⟨_, by rfl, rfl⟩
  | ok out =>
    cases hv : branchNameValid (TrimSpace out.toList) <;>
      simp only [DevelopmentStandardsAgent.branchCheck,
        DevelopmentStandardsAgent.checkBranchNaming, hb, hv] <;>
      exact ⟨_, by rfl, rfl⟩

theorem branchCheck_congr (w w2 : World) (t : Tally) (h : w2.gitBranch = w.gitBranch) :
    DevelopmentStandardsAgent.branchCheck w2 t = DevelopmentStandardsAgent.branchCheck w t := by
  simp only [DevelopmentStandardsAgent.branchCheck,
    DevelopmentStandardsAgent.checkBranchNaming, h]

/-- C9. The result of the development-standards agent has one finding about
`git-history` iff `check_commit_history` and `require_conventional_commits` are both
set, and always exactly one finding about `git-branch`, which is the last one.  When
the reads succeed the score is (passed checks)/2 with both flags set and (branch
check passed)/1 otherwise; with a flag unset the commit log does not influence the
result. -/
theorem C9_conditional_denominator (w w2 : World) (cfg : Config) :
    ∃ r, DevelopmentStandardsAgent.Validate w cfg = .ok r ∧
      findingsFor "git-history" r.Findings =
        (if cfg.Validation.Agents.DevelopmentStandards.CheckCommitHistory = true ∧
            cfg.Validation.Agents.DevelopmentStandards.RequireConventionalCommits = true
          then 1 else 0) ∧
      findingsFor "git-branch" r.Findings = 1 ∧
      (∃ f, r.Findings.getLast? = some f ∧ f.File = "git-branch") ∧
      (cfg.Validation.Agents.DevelopmentStandards.CheckCommitHistory = true →
        cfg.Validation.Agents.DevelopmentStandards.RequireConventionalCommits = true →
        ∀ log out,
          w.gitLog cfg.Validation.Agents.DevelopmentStandards.CommitHistoryDepth = .ok log →
          w.gitBranch = .ok out →
          r.Score = (((conventionalCommitsOf log).toNat +
            (branchNameValid (TrimSpace out.toList)).toNat : Nat) : ℚ) / 2) ∧
      (¬ (cfg.Validation.Agents.DevelopmentStandards.CheckCommitHistory = true ∧
          cfg.Validation.Agents.DevelopmentStandards.RequireConventionalCommits = true) →
        (∀ out, w.gitBranch = .ok out →
          r.Score = ((branchNameValid (TrimSpace out.toList)).toNat : ℚ) / 1) ∧
        (w2.gitBranch = w.gitBranch → DevelopmentStandardsAgent.Validate w2 cfg = .ok r)) := by
  refine ⟨_, rfl, ?_⟩
  have hon : cfg.Validation.Agents.DevelopmentStandards.commitCheckOn = true ↔
      (cfg.Validation.Agents.DevelopmentStandards.CheckCommitHistory = true ∧
        cfg.Validation.Agents.DevelopmentStandards.RequireConventionalCommits = true) := by
    simp [DevelopmentStandardsConfig.commitCheckOn]
  have hne : ("git-branch" == "git-history") = false := by decide
  simp only [← hon]
  by_cases h : cfg.Validation.Agents.DevelopmentStandards.commitCheckOn = true
  · obtain ⟨f1, hf1, e1⟩ := commitCheck_shape w
      cfg.Validation.Agents.DevelopmentStandards.CommitHistoryDepth ⟨0, 0, []⟩
    obtain ⟨f2, hf2, e2⟩ := branchCheck_shape w
      (DevelopmentStandardsAgent.commitCheck w
        cfg.Validation.Agents.DevelopmentStandards.CommitHistoryDepth ⟨0, 0, []⟩)
    have ht := developmentStandards_tally_eq w cfg
    rw [if_pos h, e2, e1] at ht
    have hF : (Tally.result "development-standards"
        (DevelopmentStandardsAgent.tally w cfg)).Findings = [f1, f2] := by
      simp only [Tally.result, ht]; rfl
    refine ⟨?_, ?_, ?_, ?_, ?_⟩
    · rw [hF, if_pos h]; simp [findingsFor, hf1, hf2, hne]
    · rw [hF]; simp [findingsFor, hf1, hf2]
    · exact ⟨f2, by rw [hF]; rfl, hf2⟩
    · intro _ _ log out hl hb
      rw [Tally.result_score, ht]
      simp only [hl, hb]
      norm_num
    · intro hcon; exact absurd h hcon
  · obtain ⟨f2, hf2, e2⟩ := branchCheck_shape w ⟨0, 0, []⟩
    have ht := developmentStandards_tally_eq w cfg
    rw [if_neg h, e2] at ht
    have hF : (Tally.result "development-standards"
        (DevelopmentStandardsAgent.tally w cfg)).Findings = [f2] := by
      simp only [Tally.result, ht]; rfl
    refine ⟨?_, ?_, ?_, ?_, ?_⟩
    · rw [hF, if_neg h]; simp [findingsFor, hf2, hne]
    · rw [hF]; simp [findingsFor, hf2]
    · exact ⟨f2, by rw [hF]; rfl, hf2⟩
    · intro h1 h2
      exact absurd (hon.mpr ⟨h1, h2⟩) h
    · intro _
      constructor
      · intro out hb
        rw [Tally.result_score, ht]
        simp only [hb]
        norm_num
      · intro hb
        simp only [DevelopmentStandardsAgent.Validate]
        rw [developmentStandards_tally_eq w2 cfg, if_neg h, branchCheck_congr w w2 _ hb,
          developmentStandards_tally_eq w cfg, if_neg h]

set_option maxRecDepth 100000 in
/-- C9 on a log with seven conventional entries of ten on branch `main`: 0.5 with
the commit check, 1.0 without it, where the log of eight of ten gives the same
result. -/
theorem C9_conditional_denominator_witness :
    (∃ r, DevelopmentStandardsAgent.Validate (repoWith logSevenOfTen "main\n") DefaultConfig
        = .ok r ∧ r.Score = 1 / 2) ∧
    (∃ r, DevelopmentStandardsAgent.Validate (repoWith logSevenOfTen "main\n")
        configWithoutCommitCheck = .ok r ∧ r.Score = 1 ∧
      DevelopmentStandardsAgent.Validate (repoWith logEightOfTen "main\n")
        configWithoutCommitCheck = .ok r) := by
  constructor
  · obtain ⟨r, h, -, -, -, hon, -⟩ := C9_conditional_denominator
      (repoWith logSevenOfTen "main\n") (repoWith logSevenOfTen "main\n") DefaultConfig
    refine ⟨r, h, ?_⟩
    rw [hon rfl rfl logSevenOfTen "main\n" rfl rfl]
    have h1 : conventionalCommitsOf logSevenOfTen = false := by decide
    have h2 : branchNameValid (TrimSpace "main\n".toList) = true := by decide
    rw [h1, h2]
    norm_num
  · obtain ⟨r, h, -, -, -, -, hoff⟩ := C9_conditional_denominator
      (repoWith logSevenOfTen "main\n") (repoWith logEightOfTen "main\n")
      configWithoutCommitCheck
    obtain ⟨hs, hsame⟩ := hoff (by decide)
    refine ⟨r, h, ?_, hsame rfl⟩
    rw [hs "main\n" rfl]
    have h2 : branchNameValid (TrimSpace "main\n".toList) = true := by decide
    rw [h2]
    norm_num

/-! ## Registry -/

theorem GoMap.get_set_self {V : Type} (m : GoMap V) (k : String) (v : V) :
    (GoMap.set m k v).get k = some v := by
  induction m with
  | nil => simp [GoMap.set, GoMap.get]
  | cons e m ih =>
    obtain ⟨k1, v1⟩ := e
    simp only [GoMap.set]
    split_ifs with h
    · simp [GoMap.get]
    · simp [GoMap.get, h, ih]

theorem GoMap.get_set_ne {V : Type} (m : GoMap V) (k k2 : String) (v : V) (hne : k2 ≠ k) :
    (GoMap.set m k v).get k2 = GoMap.get m k2 := by
  induction m with
  | nil => simp [GoMap.set, GoMap.get, Ne.symm hne]
  | cons e m ih =>
    obtain ⟨k1, v1⟩ := e
    simp only [GoMap.set]
    split_ifs with h
    · subst h
      simp [GoMap.get, Ne.symm hne]
    · simp only [GoMap.get, ih]

theorem GoMap.keys_set {V : Type} (m : GoMap V) (k : String) (v : V) :
    (GoMap.set m k v).map Prod.fst =
      if k ∈ m.map Prod.fst then m.map Prod.fst else m.map Prod.fst ++ [k] := by
  induction m with
  | nil => simp [GoMap.set]
  | cons e m ih =>
    obtain ⟨k1, v1⟩ := e
    simp only [GoMap.set]
    by_cases h : k1 = k
    · subst h
      simp
    · have h2 : ¬ k = k1 := fun hh => h hh.symm
      simp only [if_neg h, List.map_cons, ih, List.mem_cons, h2, false_or]
      split_ifs <;> simp

theorem GoMap.get_eq_none_iff {V : Type} (m : GoMap V) (k : String) :
    GoMap.get m k = none ↔ k ∉ m.map Prod.fst := by
  induction m with
  | nil => simp [GoMap.get]
  | cons e m ih =>
    obtain ⟨k1, v1⟩ := e
    simp only [GoMap.get, List.map_cons, List.mem_cons, not_or]
    split_ifs with h
    · subst h; simp
    · rw [ih]
      constructor
      · intro h3; exact ⟨fun hh => h hh.symm, h3⟩
      · intro h3; exact h3.2

theorem registerAll_snoc (calls : List (String × Agent)) (call : String × Agent) :
    registerAll (calls ++ [call]) = (registerAll calls).Register call.1 call.2 := by
  simp [registerAll, List.foldl_append]

theorem registerAll_keys (calls : List (String × Agent)) :
    ((registerAll calls).All.map Prod.fst).Nodup ∧
      ∀ k, k ∈ (registerAll calls).All.map Prod.fst ↔ k ∈ calls.map Prod.fst := by
  induction calls using List.reverseRecOn with
  | nil => simp [registerAll, NewRegistry, Registry.All]
  | append_singleton calls call ih =>
    obtain ⟨hnd, hmem⟩ := ih
    rw [registerAll_snoc]
    simp only [Registry.All, Registry.Register] at hnd hmem ⊢
    rw [GoMap.keys_set]
    split_ifs with h
    · refine ⟨hnd, fun k => ?_⟩
      rw [hmem k]
      simp only [List.map_append, List.map_cons, List.map_nil, List.mem_append,
        List.mem_singleton]
      constructor
      · exact Or.inl
      · rintro (h1 | h1)
        · exact h1
        · rw [h1]; exact (hmem _).mp h
    · refine ⟨?_, fun k => ?_⟩
      · rw [List.nodup_append]
        refine ⟨hnd, List.nodup_singleton _, ?_⟩
        intro x hx hx2
        rw [List.mem_singleton] at hx2
        subst hx2
        exact h hx
      · simp only [List.map_append, List.map_cons, List.map_nil, List.mem_append,
          List.mem_singleton, hmem k]

theorem registerAll_get (calls : List (String × Agent)) (name : String) :
    (registerAll calls).Get name = lastRegistered calls name := by
  induction calls using List.reverseRecOn with
  | nil => rfl
  | append_singleton calls call ih =>
    rw [registerAll_snoc]
    simp only [lastRegistered, List.reverse_append, List.reverse_cons, List.reverse_nil,
      List.nil_append, List.singleton_append, List.find?_cons]
    simp only [Registry.Get, Registry.Register] at ih ⊢
    by_cases h : call.1 = name
    · subst h
      simp [GoMap.get_set_self]
    · have hb : (call.1 == name) = false := by simpa using h
      rw [hb, GoMap.get_set_ne _ _ _ _ (fun hh => h hh.symm), ih]
      rfl

theorem lastRegistered_isSome (calls : List (String × Agent)) (name : String)
    (h : name ∈ calls.map Prod.fst) :
    ∃ agent, (name, agent) ∈ calls ∧ lastRegistered calls name = some agent := by
  simp only [lastRegistered]
  cases hf : calls.reverse.find? (fun call => call.1 == name) with
  | none =>
    exfalso
    rw [List.find?_eq_none] at hf
    obtain ⟨⟨k, v⟩, hmem, hk⟩ := List.mem_map.mp h
    have := hf (k, v) (List.mem_reverse.mpr hmem)
    simp at hk
    simp [hk] at this
  | some call =>
    have h1 := List.find?_some hf
    have h2 := List.mem_reverse.mp (List.mem_of_find?_eq_some hf)
    simp only [beq_iff_eq] at h1
    refine ⟨call.2, ?_, rfl⟩
    rw [← h1]
    exact h2

/-- C10. After any sequence of `Register` calls on a new registry, `Get n` finds
nothing if `n` was never registered and otherwise finds the agent of the last call
under `n`.  Registering under an existing name replaces the entry, keeps the number of
entries and leaves `Get` of every other name unchanged; `All()` has one entry per
distinct registered name, and one entry after a single `Register`. -/
theorem C10_registry_last_write_wins (calls : List (String × Agent)) (n m : String)
    (a : Agent) :
    (n ∉ calls.map Prod.fst → (registerAll calls).Get n = none) ∧
    (n ∈ calls.map Prod.fst →
      ∃ b, (n, b) ∈ calls ∧ lastRegistered calls n = some b ∧
        (registerAll calls).Get n = some b) ∧
    ((registerAll calls).Register m a).Get m = some a ∧
    (n ≠ m → ((registerAll calls).Register m a).Get n = (registerAll calls).Get n) ∧
    (m ∈ calls.map Prod.fst →
      ((registerAll calls).Register m a).All.length = (registerAll calls).All.length) ∧
    ((registerAll calls).All.map Prod.fst).Nodup ∧
    (∀ k, k ∈ (registerAll calls).All.map Prod.fst ↔ k ∈ calls.map Prod.fst) ∧
    (registerAll calls).All.length = (calls.map Prod.fst).dedup.length ∧
    (NewRegistry.Register m a).All.length = 1 := by
  obtain ⟨hnd, hmem⟩ := registerAll_keys calls
  refine ⟨?_, ?_, ?_, ?_, ?_, hnd, hmem, ?_, rfl⟩
  · intro h
    simp only [Registry.Get]
    rw [GoMap.get_eq_none_iff]
    exact fun hh => h ((hmem n).mp hh)
  · intro h
    obtain ⟨b, hb1, hb2⟩ := lastRegistered_isSome calls n h
    exact ⟨b, hb1, hb2, by rw [registerAll_get, hb2]⟩
  · exact GoMap.get_set_self _ _ _
  · intro hne
    exact GoMap.get_set_ne _ _ _ _ hne
  · intro h
    have hk := GoMap.keys_set (registerAll calls).agents m a
    have h2 : m ∈ List.map Prod.fst (registerAll calls).agents := (hmem m).mpr h
    rw [if_pos h2] at hk
    have := congrArg List.length hk
    simpa [Registry.All, Registry.Register] using this
  · have hperm : ((registerAll calls).All.map Prod.fst).Perm (calls.map Prod.fst).dedup := by
      rw [List.perm_ext_iff_of_nodup hnd (List.nodup_dedup _)]
      intro k
      rw [hmem k, List.mem_dedup]
    have := hperm.length_eq
    simpa using this

/-- C10 on the calls of `TestRegistry`, followed by a second registration under the
same name. -/
theorem C10_registry_last_write_wins_witness :
    (registerAll [("test-agent", Agent.EssentialFilesAgent)]).Get "non-existent" = none ∧
    (registerAll [("test-agent", Agent.EssentialFilesAgent)]).Get "test-agent"
      = some Agent.EssentialFilesAgent ∧
    (registerAll [("test-agent", Agent.EssentialFilesAgent)]).All.length = 1 ∧
    ((registerAll [("test-agent", Agent.EssentialFilesAgent)]).Register "test-agent"
      Agent.GitConfigurationAgent).All.length = 1 ∧
    ((registerAll [("test-agent", Agent.EssentialFilesAgent)]).Register "test-agent"
      Agent.GitConfigurationAgent).Get "test-agent" = some Agent.GitConfigurationAgent := by
  obtain ⟨h1, -, h3, -, h5, -, -, h8, -⟩ := C10_registry_last_write_wins
    [("test-agent", Agent.EssentialFilesAgent)] "non-existent" "test-agent"
    Agent.GitConfigurationAgent
  obtain ⟨-, h2, -⟩ := C10_registry_last_write_wins
    [("test-agent", Agent.EssentialFilesAgent)] "test-agent" "test-agent"
    Agent.GitConfigurationAgent
  have hlen : (registerAll [("test-agent", Agent.EssentialFilesAgent)]).All.length = 1 := by
    rw [h8]; decide
  refine ⟨h1 (by decide), ?_, hlen, ?_, h3⟩
  · obtain ⟨b, hb, -, hget⟩ := h2 (by decide)
    have : b = Agent.EssentialFilesAgent := by simpa using hb
    rw [hget, this]
  · rw [h5 (by decide), hlen]

/-! ## cmd/validate.go: selection, enable gate, order, exit status -/

theorem Agent.Validate_eq (a : Agent) (w : World) (cfg : Config) :
    a.Validate w cfg = .ok (a.result w cfg) := by
  cases a <;> rfl

theorem agentRegistry_All :
    agentRegistry.All =
      [("essential-files", Agent.EssentialFilesAgent),
       ("git-configuration", Agent.GitConfigurationAgent),
       ("development-standards", Agent.DevelopmentStandardsAgent)] := by
  decide

theorem agentRegistry_Get (name : String) :
    agentRegistry.Get name =
      if name = "essential-files" then some Agent.EssentialFilesAgent
      else if name = "git-configuration" then some Agent.GitConfigurationAgent
      else if name = "development-standards" then some Agent.DevelopmentStandardsAgent
      else none := by
  have h : agentRegistry.agents = _ := agentRegistry_All
  simp only [Registry.Get, h, GoMap.get, eq_comm]

theorem agentRegistry_Get_some (name : String) (agent : Agent)
    (h : agentRegistry.Get name = some agent) :
    name ∈ registeredNames ∧ name ≠ "" ∧ ∀ w cfg, (agent.result w cfg).Agent = name := by
  rw [agentRegistry_Get] at h
  split_ifs at h with h1 h2 h3
  · injection h with h; subst h; subst h1
    exact ⟨by decide, by decide, fun _ _ => rfl⟩
  · injection h with h; subst h; subst h2
    exact ⟨by decide, by decide, fun _ _ => rfl⟩
  · injection h with h; subst h; subst h3
    exact ⟨by decide, by decide, fun _ _ => rfl⟩

theorem agentRegistry_Get_none (name : String) (h : name ∉ registeredNames) :
    agentRegistry.Get name = none := by
  rw [agentRegistry_Get]
  simp only [registeredNames, List.mem_cons, List.mem_singleton, List.not_mem_nil, or_false,
    not_or] at h
  rw [if_neg h.1, if_neg h.2.1, if_neg h.2.2]

theorem collectSelected_of_some (w : World) (cfg : Config) (name : String) (agent : Agent)
    (h : agentRegistry.Get name = some agent) :
    collectSelected w cfg name = { ran := [agent], results := .ok [agent.result w cfg] } := by
  simp only [collectSelected, h, Agent.Validate_eq]

theorem collectSelected_of_none (w : World) (cfg : Config) (name : String)
    (h : agentRegistry.Get name = none) :
    collectSelected w cfg name = { ran := [], results := .error (.agentNotFound name) } := by
  simp only [collectSelected, h]

theorem collectEnabled_eq (w : World) (cfg : Config) (entries : List (String × Agent)) :
    ∀ ran results, collectEnabled w cfg entries ran results =
      { ran := ran ++ (entries.filter (fun e => cfg.IsAgentEnabled e.1)).map Prod.snd
        results := .ok (results ++ enabledResults w cfg entries) } := by
  induction entries with
  | nil => intro ran results; simp [collectEnabled, enabledResults]
  | cons e rest ih =>
    intro ran results
    obtain ⟨name, agent⟩ := e
    simp only [collectEnabled, Agent.Validate_eq]
    by_cases hen : cfg.IsAgentEnabled name = true
    · rw [if_pos hen, ih]
      simp [enabledResults, hen]
    · rw [if_neg hen, ih]
      simp [enabledResults, hen]

/-- C11. When `--agent` names a registered agent, `runValidate` runs that agent and
no other, and the collected list is exactly that agent's result, whatever the
configuration says, the agent's own `enabled` flag included. -/
theorem C11_explicit_selection (inv : Invocation) (cfg : Config) (agent : Agent)
    (hload : inv.loadConfig = .ok cfg)
    (hreg : agentRegistry.Get inv.agentName = some agent) :
    ∃ r, agent.Validate inv.world cfg = .ok r ∧ r.Agent = inv.agentName ∧
      (collect inv cfg).results = .ok [r] ∧ (collect inv cfg).ran = [agent] ∧
      (runValidate inv).ran = [agent] := by
  obtain ⟨_, hne, hname⟩ := agentRegistry_Get_some _ _ hreg
  have hc : collect inv cfg =
      { ran := [agent], results := .ok [agent.result inv.world cfg] } := by
    simp only [collect, if_pos hne, collectSelected_of_some _ _ _ _ hreg]
  refine ⟨agent.result inv.world cfg, Agent.Validate_eq _ _ _, hname _ _, ?_, ?_, ?_⟩
  · rw [hc]
  · rw [hc]
  · simp only [runValidate, hload, hc]
    cases NewFormatter inv.outputFormat with
    | error e => rfl
    | ok f => cases inv.stdoutError <;> rfl

/-- C11 with `--agent essential-files` while `essential-files` is disabled. -/
theorem C11_explicit_selection_witness :
    ∃ r, (collect (invocation "essential-files" (configWithEnabled false true true)
        (filesOnly ["README.md"]) rangeInOrder) (configWithEnabled false true true)).results
        = .ok [r] ∧ r.Agent = "essential-files" ∧
      (runValidate (invocation "essential-files" (configWithEnabled false true true)
        (filesOnly ["README.md"]) rangeInOrder)).ran = [Agent.EssentialFilesAgent] := by
  obtain ⟨r, -, h2, h3, -, h5⟩ := C11_explicit_selection
    (invocation "essential-files" (configWithEnabled false true true)
      (filesOnly ["README.md"]) rangeInOrder)
    (configWithEnabled false true true) Agent.EssentialFilesAgent rfl (by decide)
  exact ⟨r, h3, h2, h5⟩

/-- C12. When `--agent` is a non-empty name that is not registered, `runValidate`
returns the error `agent '<name>' not found`, runs no agent, collects no results and
writes no report; for a registered name that error is never returned. -/
theorem C12_unknown_agent (inv : Invocation) (cfg : Config)
    (hload : inv.loadConfig = .ok cfg) (hne : inv.agentName ≠ "") :
    (inv.agentName ∉ registeredNames →
      (runValidate inv).outcome = .failed (.agentNotFound inv.agentName) ∧
      (RunError.agentNotFound inv.agentName).Error = "agent '" ++ inv.agentName ++ "' not found" ∧
      (runValidate inv).ran = [] ∧ (collect inv cfg).ran = [] ∧
      (runValidate inv).report.isNone = true ∧
      ∀ results, (collect inv cfg).results ≠ .ok results) ∧
    (inv.agentName ∈ registeredNames →
      ∀ name, (runValidate inv).outcome ≠ .failed (.agentNotFound name)) := by
  constructor
  · intro hun
    have hc : collect inv cfg =
        { ran := [], results := .error (.agentNotFound inv.agentName) } := by
      simp only [collect, if_pos hne,
        collectSelected_of_none _ _ _ (agentRegistry_Get_none _ hun)]
    refine ⟨?_, rfl, ?_, ?_, ?_, ?_⟩
    · simp only [runValidate, hload, hc]
    · simp only [runValidate, hload, hc]
    · rw [hc]
    · simp only [runValidate, hload, hc]; rfl
    · intro results h
      rw [hc] at h
      cases h
  · intro hreg name
    have hsome : ∃ agent, agentRegistry.Get inv.agentName = some agent := by
      rw [agentRegistry_Get]
      simp only [registeredNames, List.mem_cons, List.mem_singleton, List.not_mem_nil,
        or_false] at hreg
      rcases hreg with h | h | h <;> simp [h]
    obtain ⟨agent, hag⟩ := hsome
    have hc : collect inv cfg =
        { ran := [agent], results := .ok [agent.result inv.world cfg] } := by
      simp only [collect, if_pos hne, collectSelected_of_some _ _ _ _ hag]
    simp only [runValidate, hload, hc]
    cases NewFormatter inv.outputFormat with
    | error e => simp
    | ok f =>
      cases inv.stdoutError with
      | some e => simp
      | none =>
        simp only
        split_ifs <;> simp

/-- C12 with `--agent unknown-agent` and with `--agent git-configuration`. -/
theorem C12_unknown_agent_witness :
    (runValidate (invocation "unknown-agent" DefaultConfig notARepo rangeInOrder)).outcome
      = .failed (.agentNotFound "unknown-agent") ∧
    (RunError.agentNotFound "unknown-agent").Error = "agent 'unknown-agent' not found" ∧
    (runValidate (invocation "unknown-agent" DefaultConfig notARepo rangeInOrder)).ran = [] ∧
    (runValidate (invocation "git-configuration" DefaultConfig notARepo rangeInOrder)).outcome
      ≠ .failed (.agentNotFound "git-configuration") := by
  obtain ⟨h1, -⟩ := C12_unknown_agent
    (invocation "unknown-agent" DefaultConfig notARepo rangeInOrder) DefaultConfig rfl
    (by decide)
  obtain ⟨-, h2⟩ := C12_unknown_agent
    (invocation "git-configuration" DefaultConfig notARepo rangeInOrder) DefaultConfig rfl
    (by decide)
  obtain ⟨ha, -, hc, -⟩ := h1 (by decide)
  exact ⟨ha, by decide, hc, h2 (by decide) _⟩

theorem collect_unselected (inv : Invocation) (cfg : Config) (hsel : inv.agentName = "") :
    collect inv cfg =
      { ran := ((inv.range.order agentRegistry.All).filter
          (fun e => cfg.IsAgentEnabled e.1)).map Prod.snd
        results := .ok (enabledResults inv.world cfg (inv.range.order agentRegistry.All)) } := by
  simp only [collect, hsel, ne_eq, not_true_eq_false, if_false, collectEnabled_eq,
    List.nil_append]

theorem enabledResults_perm (w : World) (cfg : Config) (l1 l2 : List (String × Agent))
    (h : l1.Perm l2) : (enabledResults w cfg l1).Perm (enabledResults w cfg l2) :=
  (h.filter _).map _

theorem enabledResults_names (w : World) (cfg : Config) :
    (enabledResults w cfg agentRegistry.All).map (fun r => r.Agent) =
      registeredNames.filter cfg.IsAgentEnabled := by
  rw [agentRegistry_All]
  simp only [enabledResults, registeredNames, List.filter_cons, List.filter_nil]
  cases cfg.IsAgentEnabled "essential-files" <;>
    cases cfg.IsAgentEnabled "git-configuration" <;>
    cases cfg.IsAgentEnabled "development-standards" <;> rfl

/-- C13. When no agent is selected, the collected list holds exactly the results of
the registered agents whose `enabled` flag is set, one each, and nothing for a disabled
agent; only the enabled agents are run; with all three disabled the list is empty. -/
theorem C13_enable_gate (inv : Invocation) (cfg : Config) (hsel : inv.agentName = "") :
    ∃ results, (collect inv cfg).results = .ok results ∧
      results.Perm (enabledResults inv.world cfg agentRegistry.All) ∧
      (results.map (fun r => r.Agent)).Perm (registeredNames.filter cfg.IsAgentEnabled) ∧
      (∀ name ∈ registeredNames,
        (results.filter (fun r => r.Agent == name)).length =
          if cfg.IsAgentEnabled name = true then 1 else 0) ∧
      ((collect inv cfg).ran.Perm
        ((agentRegistry.All.filter (fun e => cfg.IsAgentEnabled e.1)).map Prod.snd)) ∧
      ((∀ name ∈ registeredNames, cfg.IsAgentEnabled name = false) → results = []) := by
  have hperm := enabledResults_perm inv.world cfg _ _ (inv.range.perm agentRegistry.All)
  have hnames : ((enabledResults inv.world cfg (inv.range.order agentRegistry.All)).map
      (fun r => r.Agent)).Perm (registeredNames.filter cfg.IsAgentEnabled) := by
    rw [← enabledResults_names inv.world cfg]
    exact hperm.map _
  refine ⟨_, by rw [collect_unselected inv cfg hsel], hperm, hnames, ?_, ?_, ?_⟩
  · intro name hname
    have hcount : ∀ l : List ValidationResult,
        (l.filter (fun r => r.Agent == name)).length = (l.map (fun r => r.Agent)).count name := by
      intro l
      induction l with
      | nil => rfl
      | cons r l ih =>
        by_cases h : r.Agent = name
        · simp [List.filter_cons, h, ih]
        · have h2 : (r.Agent == name) = false := by simpa using h
          simp [List.filter_cons, h2, ih, List.count_cons, h]
    rw [hcount, hnames.count_eq]
    simp only [registeredNames, List.mem_cons, List.mem_singleton, List.not_mem_nil,
      or_false] at hname
    simp only [registeredNames, List.filter_cons, List.filter_nil]
    rcases hname with h | h | h <;> subst h <;>
      cases cfg.IsAgentEnabled "essential-files" <;>
      cases cfg.IsAgentEnabled "git-configuration" <;>
      cases cfg.IsAgentEnabled "development-standards" <;> decide
  · rw [collect_unselected inv cfg hsel]
    exact ((inv.range.perm agentRegistry.All).filter _).map _
  · intro hall
    have h0 : registeredNames.filter cfg.IsAgentEnabled = [] := by
      rw [List.filter_eq_nil_iff]
      intro name hname
      simp [hall name hname]
    rw [h0] at hnames
    have := hnames.length_eq
    simp only [List.length_map, List.length_nil] at this
    exact List.length_eq_zero.mp this

/-- C13 with all agents disabled, and with only `git-configuration` disabled. -/
theorem C13_enable_gate_witness :
    (∃ results, (collect (invocation "" (configWithEnabled false false false)
        (filesOnly []) rangeReversed) (configWithEnabled false false false)).results
        = .ok results ∧ results = []) ∧
    (∃ results, (collect (invocation "" (configWithEnabled true false true)
        (filesOnly []) rangeReversed) (configWithEnabled true false true)).results
        = .ok results ∧
      (results.map (fun r => r.Agent)).Perm ["essential-files", "development-standards"]) := by
  constructor
  · obtain ⟨results, h1, -, -, -, -, h6⟩ := C13_enable_gate
      (invocation "" (configWithEnabled false false false) (filesOnly []) rangeReversed)
      (configWithEnabled false false false) rfl
    exact ⟨results, h1, h6 (by decide)⟩
  · obtain ⟨results, h1, -, h3, -⟩ := C13_enable_gate
      (invocation "" (configWithEnabled true false true) (filesOnly []) rangeReversed)
      (configWithEnabled true false true) rfl
    exact ⟨results, h1, h3⟩

theorem Agent.result_name (e : String × Agent) (he : e ∈ agentRegistry.All) (w : World)
    (cfg : Config) : (e.2.result w cfg).Agent = e.1 := by
  rw [agentRegistry_All] at he
  simp only [List.mem_cons, List.mem_singleton, List.not_mem_nil, or_false] at he
  rcases he with rfl | rfl | rfl <;> rfl

theorem enabledResults_map_agent (w : World) (cfg : Config) :
    ∀ l : List (String × Agent), (∀ e ∈ l, e ∈ agentRegistry.All) →
      (enabledResults w cfg l).map (fun r => r.Agent) =
        (l.map Prod.fst).filter cfg.IsAgentEnabled := by
  intro l
  induction l with
  | nil => intro _; rfl
  | cons e l ih =>
    intro hl
    have ih2 := ih (fun x hx => hl x (List.mem_cons_of_mem e hx))
    have hn := Agent.result_name e (hl e (List.mem_cons_self e l)) w cfg
    simp only [enabledResults] at ih2 ⊢
    by_cases hen : cfg.IsAgentEnabled e.1 = true
    · have hL : List.filter (fun e => cfg.IsAgentEnabled e.1) (e :: l) =
          e :: List.filter (fun e => cfg.IsAgentEnabled e.1) l :=
        List.filter_cons_of_pos hen
      have hR : List.filter cfg.IsAgentEnabled (e.1 :: List.map Prod.fst l) =
          e.1 :: List.filter cfg.IsAgentEnabled (List.map Prod.fst l) :=
        List.filter_cons_of_pos hen
      rw [hL, List.map_cons, List.map_cons, List.map_cons, hR, hn, ih2]
    · have hL : List.filter (fun e => cfg.IsAgentEnabled e.1) (e :: l) =
          List.filter (fun e => cfg.IsAgentEnabled e.1) l :=
        List.filter_cons_of_neg hen
      have hR : List.filter cfg.IsAgentEnabled (e.1 :: List.map Prod.fst l) =
          List.filter cfg.IsAgentEnabled (List.map Prod.fst l) :=
        List.filter_cons_of_neg hen
      rw [hL, List.map_cons, hR]
      exact ih2

/-- The registry entry with a given name. -/
theorem entry_of_name (e : String × Agent) (he : e ∈ agentRegistry.All) :
    (e.1, (if e.1 = "essential-files" then Agent.EssentialFilesAgent
      else if e.1 = "git-configuration" then Agent.GitConfigurationAgent
      else Agent.DevelopmentStandardsAgent)) = e := by
  rw [agentRegistry_All] at he
  simp only [List.mem_cons, List.mem_singleton, List.not_mem_nil, or_false] at he
  rcases he with rfl | rfl | rfl <;> decide

theorem entries_eq_of_names_eq (l1 l2 : List (String × Agent))
    (h1 : ∀ e ∈ l1, e ∈ agentRegistry.All) (h2 : ∀ e ∈ l2, e ∈ agentRegistry.All)
    (h : l1.map Prod.fst = l2.map Prod.fst) : l1 = l2 := by
  have hinv : ∀ l : List (String × Agent), (∀ e ∈ l, e ∈ agentRegistry.All) →
      (l.map Prod.fst).map (fun n => (n, (if n = "essential-files" then Agent.EssentialFilesAgent
        else if n = "git-configuration" then Agent.GitConfigurationAgent
        else Agent.DevelopmentStandardsAgent))) = l := by
    intro l hl
    rw [List.map_map]
    conv_rhs => rw [← List.map_id l]
    apply List.map_congr_left
    intro e he
    exact entry_of_name e (hl e he)
  rw [← hinv l1 h1, ← hinv l2 h2, h]

/-- C14 as stated fails: when the map is ranged over in the opposite order, the
results come out as development-standards, git-configuration, essential-files. -/
theorem C14_registration_order_counterexample :
    ∃ results, (collect (invocation "" DefaultConfig notARepo rangeReversed)
        DefaultConfig).results = .ok results ∧
      results.map (fun r => r.Agent) =
        ["development-standards", "git-configuration", "essential-files"] ∧
      results.map (fun r => r.Agent) ≠ registeredNames := by
  refine ⟨_, by rw [collect_unselected _ _ rfl], ?_, ?_⟩
  · rfl
  · decide

theorem filter_names_eq_iff (cfg : Config) (l : List (String × Agent))
    (hl : ∀ e ∈ l, e ∈ agentRegistry.All) :
    (l.map Prod.fst).filter cfg.IsAgentEnabled = registeredNames.filter cfg.IsAgentEnabled ↔
      l.filter (fun e => cfg.IsAgentEnabled e.1) =
        agentRegistry.All.filter (fun e => cfg.IsAgentEnabled e.1) := by
  have hreg : registeredNames = agentRegistry.All.map Prod.fst := by
    rw [agentRegistry_All]; rfl
  have hf : ∀ m : List (String × Agent),
      (m.map Prod.fst).filter cfg.IsAgentEnabled =
        (m.filter (fun e => cfg.IsAgentEnabled e.1)).map Prod.fst := by
    intro m
    rw [List.filter_map]
    rfl
  rw [hreg, hf, hf]
  constructor
  · intro h
    exact entries_eq_of_names_eq _ _
      (fun e he => hl e (List.mem_of_mem_filter he))
      (fun e he => List.mem_of_mem_filter he) h
  · intro h
    rw [h]

/-- C14, amended. When no agent is selected, the collected list holds the results of
the enabled agents in the order in which the range over the registry map visits them:
its agent names are the visited names without the disabled ones.  It is a permutation
of the results in registration order, whose names are essential-files,
git-configuration, development-standards without the disabled ones.  The list is in
registration order (by its names, and as a list of results) exactly when the range
visits the enabled agents in registration order; with all three agents enabled,
exactly when the range visits the map in registration order. -/
theorem C14_results_in_range_order (inv : Invocation) (cfg : Config)
    (hsel : inv.agentName = "") :
    ∃ results, (collect inv cfg).results = .ok results ∧
      results = enabledResults inv.world cfg (inv.range.order agentRegistry.All) ∧
      results.map (fun r => r.Agent) = (visitedNames inv.range).filter cfg.IsAgentEnabled ∧
      results.Perm (enabledResults inv.world cfg agentRegistry.All) ∧
      (enabledResults inv.world cfg agentRegistry.All).map (fun r => r.Agent) =
        registeredNames.filter cfg.IsAgentEnabled ∧
      (results.map (fun r => r.Agent) = registeredNames.filter cfg.IsAgentEnabled ↔
        (visitedNames inv.range).filter cfg.IsAgentEnabled =
          registeredNames.filter cfg.IsAgentEnabled) ∧
      (results = enabledResults inv.world cfg agentRegistry.All ↔
        (visitedNames inv.range).filter cfg.IsAgentEnabled =
          registeredNames.filter cfg.IsAgentEnabled) ∧
      ((∀ name ∈ registeredNames, cfg.IsAgentEnabled name = true) →
        (results.map (fun r => r.Agent) = registeredNames ↔
          inv.range.order agentRegistry.All = agentRegistry.All)) := by
  have hmem : ∀ e ∈ inv.range.order agentRegistry.All, e ∈ agentRegistry.All :=
    fun e he => (inv.range.perm agentRegistry.All).mem_iff.mp he
  have hnames : (enabledResults inv.world cfg (inv.range.order agentRegistry.All)).map
      (fun r => r.Agent) = (visitedNames inv.range).filter cfg.IsAgentEnabled :=
    enabledResults_map_agent inv.world cfg _ hmem
  have hreg : registeredNames = agentRegistry.All.map Prod.fst := by
    rw [agentRegistry_All]; rfl
  refine ⟨_, by rw [collect_unselected inv cfg hsel], rfl, hnames,
    enabledResults_perm _ _ _ _ (inv.range.perm _), enabledResults_names _ _, ?_, ?_, ?_⟩
  · rw [hnames]
  · constructor
    · intro h
      rw [← hnames, h, enabledResults_names]
    · intro h
      have := (filter_names_eq_iff cfg _ hmem).mp h
      simp only [enabledResults, this]
  · intro hall
    have hfilter : ∀ l : List String, (∀ n ∈ l, n ∈ registeredNames) →
        l.filter cfg.IsAgentEnabled = l := by
      intro l hl
      rw [List.filter_eq_self]
      exact fun n hn => hall n (hl n hn)
    have hvis : ∀ n ∈ visitedNames inv.range, n ∈ registeredNames := by
      intro n hn
      simp only [visitedNames, List.mem_map] at hn
      obtain ⟨e, he, rfl⟩ := hn
      rw [hreg]
      exact List.mem_map_of_mem _ (hmem e he)
    rw [hnames, hfilter _ hvis]
    constructor
    · intro h
      apply entries_eq_of_names_eq _ _ hmem (fun e he => he)
      rw [← hreg]
      exact h
    · intro h
      rw [visitedNames, h, hreg]

/-- C14 amended on three runs.  A range in registration order gives the results in
registration order.  A range that visits development-standards, essential-files,
git-configuration, with development-standards disabled, gives essential-files,
git-configuration, which is registration order.  The opposite range with all agents
enabled does not give registration order. -/
theorem C14_results_in_range_order_witness :
    (∃ results, (collect (invocation "" DefaultConfig notARepo rangeInOrder)
        DefaultConfig).results = .ok results ∧
      results.map (fun r => r.Agent) =
        ["essential-files", "git-configuration", "development-standards"]) ∧
    (visitedNames rangeRotated =
        ["development-standards", "essential-files", "git-configuration"] ∧
      ∃ results, (collect (invocation "" (configWithEnabled true true false) notARepo
          rangeRotated) (configWithEnabled true true false)).results = .ok results ∧
        results.map (fun r => r.Agent) = ["essential-files", "git-configuration"] ∧
        results.map (fun r => r.Agent) =
          registeredNames.filter (configWithEnabled true true false).IsAgentEnabled) ∧
    (∃ results, (collect (invocation "" DefaultConfig notARepo rangeReversed)
        DefaultConfig).results = .ok results ∧
      results.map (fun r => r.Agent) ≠ registeredNames) := by
  refine ⟨?_, ⟨by decide, ?_⟩, ?_⟩
  · obtain ⟨results, h1, -, h3, -⟩ := C14_results_in_range_order
      (invocation "" DefaultConfig notARepo rangeInOrder) DefaultConfig rfl
    exact ⟨results, h1, by rw [h3]; decide⟩
  · obtain ⟨results, h1, -, h3, -, -, h6, -⟩ := C14_results_in_range_order
      (invocation "" (configWithEnabled true true false) notARepo rangeRotated)
      (configWithEnabled true true false) rfl
    exact ⟨results, h1, by rw [h3]; decide, h6.mpr (by decide)⟩
  · obtain ⟨results, h1, -, -, -, -, -, -, h8⟩ := C14_results_in_range_order
      (invocation "" DefaultConfig notARepo rangeReversed) DefaultConfig rfl
    exact ⟨results, h1, fun h => absurd ((h8 (by decide)).mp h) (by decide)⟩

theorem any_fail_iff (results : List ValidationResult) :
    results.any (fun result => result.Status == "fail") = true ↔
      ∃ r ∈ results, r.Status = "fail" := by
  simp [List.any_eq_true]

/-- C16. Once the results are collected and written without error, `runValidate` ends
the process with exit code 1 iff some collected result has status fail, and otherwise
returns nil (exit code 0), in particular for an empty list of results. -/
theorem C16_exit_status (inv : Invocation) (cfg : Config) (results : List ValidationResult)
    (formatter : Formatter)
    (hload : inv.loadConfig = .ok cfg) (hcol : (collect inv cfg).results = .ok results)
    (hfmt : NewFormatter inv.outputFormat = .ok formatter) (hout : inv.stdoutError = none) :
    ((runValidate inv).outcome = .exited 1 ↔ ∃ r ∈ results, r.Status = "fail") ∧
    ((runValidate inv).outcome = .returned ↔ ¬ ∃ r ∈ results, r.Status = "fail") ∧
    ((runValidate inv).exitCode = 1 ↔ ∃ r ∈ results, r.Status = "fail") ∧
    ((runValidate inv).exitCode = 0 ↔ ¬ ∃ r ∈ results, r.Status = "fail") ∧
    (results = [] → (runValidate inv).outcome = .returned ∧ (runValidate inv).exitCode = 0) := by
  have hrun : (runValidate inv).outcome =
      if results.any (fun result => result.Status == "fail") then .exited 1 else .returned := by
    simp only [runValidate, hload, hcol, hfmt, hout]
  have hcode : (runValidate inv).exitCode =
      if results.any (fun result => result.Status == "fail") then 1 else 0 := by
    simp only [Run.exitCode, hrun]
    split_ifs <;> rfl
  rw [hrun, hcode, ← any_fail_iff]
  refine ⟨?_, ?_, ?_, ?_, ?_⟩
  · split_ifs with h <;> simp [h]
  · split_ifs with h <;> simp [h]
  · split_ifs with h <;> simp [h]
  · split_ifs with h <;> simp [h]
  · rintro rfl
    simp

set_option maxRecDepth 100000 in
/-- C16 with every agent disabled (exit code 0) and with the default configuration
outside a repository (exit code 1). -/
theorem C16_exit_status_witness :
    (runValidate (invocation "" (configWithEnabled false false false) notARepo
        rangeInOrder)).exitCode = 0 ∧
    (runValidate (invocation "" DefaultConfig notARepo rangeInOrder)).exitCode = 1 ∧
    (runValidate (invocation "" DefaultConfig notARepo rangeInOrder)).outcome = .exited 1 := by
  have h0 := C16_exit_status
    (invocation "" (configWithEnabled false false false) notARepo rangeInOrder)
    (configWithEnabled false false false) [] Formatter.TableFormatter rfl
    (by rw [collect_unselected _ _ rfl]; rfl) rfl rfl
  have h1 := C16_exit_status (invocation "" DefaultConfig notARepo rangeInOrder)
    DefaultConfig _ Formatter.TableFormatter rfl
    (by rw [collect_unselected _ _ rfl]) rfl rfl
  have hfail : ∃ r ∈ enabledResults notARepo DefaultConfig
      (rangeInOrder.order agentRegistry.All), r.Status = "fail" := by
    refine ⟨Agent.EssentialFilesAgent.result notARepo DefaultConfig, ?_, ?_⟩
    · simp [enabledResults, rangeInOrder, agentRegistry, Registry.All, Registry.Register,
        NewRegistry, GoMap.set, Config.IsAgentEnabled, DefaultConfig]
    · exact (result_of_none_passed "essential-files"
        (EssentialFilesAgent.tally notARepo DefaultConfig) (by decide) (by decide)).2
  exact ⟨(h0.2.2.2.2 rfl).2, h1.2.2.1.mpr hfail, h1.1.mpr hfail⟩

/-! ## binary64: rounding of rationals -/

theorem roundHalfEven_intCast (n : ℤ) : roundHalfEven (n : ℚ) = n := by
  simp [roundHalfEven]

theorem roundHalfEven_of_lt (x : ℚ) (f : ℤ) (h1 : (f : ℚ) ≤ x) (h2 : x - f < 1 / 2) :
    roundHalfEven x = f := by
  have hf : ⌊x⌋ = f := by
    rw [Int.floor_eq_iff]; constructor <;> linarith
  simp only [roundHalfEven, hf]
  rw [if_pos h2]

theorem roundHalfEven_of_gt (x : ℚ) (f : ℤ) (h1 : 1 / 2 < x - f) (h2 : x < f + 1) :
    roundHalfEven x = f + 1 := by
  have hf : ⌊x⌋ = f := by
    rw [Int.floor_eq_iff]; constructor <;> linarith
  simp only [roundHalfEven, hf]
  rw [if_neg (by linarith), if_pos h1]

theorem roundHalfEven_tie_even (x : ℚ) (f : ℤ) (h1 : x - f = 1 / 2) (h2 : f % 2 = 0) :
    roundHalfEven x = f := by
  have hf : ⌊x⌋ = f := by
    rw [Int.floor_eq_iff]; constructor <;> linarith
  simp only [roundHalfEven, hf]
  rw [if_neg (by linarith), if_neg (by linarith), if_pos h2]

theorem roundHalfEven_tie_odd (x : ℚ) (f : ℤ) (h1 : x - f = 1 / 2) (h2 : f % 2 ≠ 0) :
    roundHalfEven x = f + 1 := by
  have hf : ⌊x⌋ = f := by
    rw [Int.floor_eq_iff]; constructor <;> linarith
  simp only [roundHalfEven, hf]
  rw [if_neg (by linarith), if_neg (by linarith), if_neg h2]

/-- The binary exponent of `x`, from bounds. -/
theorem intLog_eq (x : ℚ) (e : ℤ) (hlo : (2 : ℚ) ^ e ≤ |x|) (hhi : |x| < 2 ^ (e + 1)) :
    Int.log 2 |x| = e := by
  have hpos : 0 < |x| := lt_of_lt_of_le (by positivity) hlo
  have h1 : e ≤ Int.log 2 |x| :=
    (Int.zpow_le_iff_le_log (by norm_num) hpos).1 (by exact_mod_cast hlo)
  have h2 : Int.log 2 |x| < e + 1 :=
    (Int.lt_zpow_iff_log_lt (by norm_num) hpos).1 (by exact_mod_cast hhi)
  omega

/-- The value of `roundF64` at a normal number, from its exponent and the rounded
significand. -/
theorem roundF64_eval (x : ℚ) (e r : ℤ) (hlo : (2 : ℚ) ^ e ≤ |x|) (hhi : |x| < 2 ^ (e + 1))
    (he : -1022 ≤ e) (hr : roundHalfEven (x / 2 ^ (e - 52)) = r)
    (hfin : |(r : ℚ) * 2 ^ (e - 52)| < 2 ^ 1024) :
    roundF64 x = .finite (r * 2 ^ (e - 52)) := by
  have hq : quantumExp x = e - 52 := by
    simp only [quantumExp, intLog_eq x e hlo hhi]; omega
  simp only [roundF64, hq, hr]
  rw [abs_lt] at hfin
  rw [if_neg (by linarith [hfin.2]), if_neg (by linarith [hfin.1])]

theorem roundF64_zero : roundF64 0 = .finite 0 := by
  have h : ¬ ((2 : ℚ) ^ 1024 ≤ 0) := by norm_num
  simp [roundF64, roundHalfEven, h]

/-- A binary64 value is not changed by rounding. -/
theorem roundF64_of_isBinary64 (x : ℚ) (hx : IsBinary64 x) : roundF64 x = .finite x := by
  obtain ⟨m, e, hm, he1, he2, rfl⟩ := hx
  by_cases h0 : (m : ℚ) * 2 ^ e = 0
  · rw [h0]; exact roundF64_zero
  have hbound : |(m : ℚ) * 2 ^ e| < 2 ^ 1024 := by
    rw [abs_mul, abs_of_pos (by positivity : (0 : ℚ) < 2 ^ e)]
    have hm2 : |(m : ℚ)| < 2 ^ 53 := by exact_mod_cast hm
    have h3 : (2 : ℚ) ^ e ≤ 2 ^ (971 : ℤ) := zpow_le_zpow_right₀ (by norm_num) he2
    calc |(m : ℚ)| * 2 ^ e < 2 ^ 53 * 2 ^ e := by
          apply mul_lt_mul_of_pos_right hm2 (by positivity)
      _ ≤ 2 ^ 53 * 2 ^ (971 : ℤ) := by
          apply mul_le_mul_of_nonneg_left h3 (by positivity)
      _ = 2 ^ 1024 := by norm_num
  have hq : quantumExp ((m : ℚ) * 2 ^ e) ≤ e := by
    simp only [quantumExp]
    apply max_le _ he1
    have hpos : 0 < |(m : ℚ) * 2 ^ e| := abs_pos.2 h0
    have hlt : |(m : ℚ) * 2 ^ e| < ((2 : ℕ) : ℚ) ^ (53 + e) := by
      rw [abs_mul, abs_of_pos (by positivity : (0 : ℚ) < 2 ^ e), zpow_add₀ (by norm_num)]
      have hm2 : |(m : ℚ)| < 2 ^ 53 := by exact_mod_cast hm
      have := mul_lt_mul_of_pos_right hm2 (by positivity : (0 : ℚ) < 2 ^ e)
      exact_mod_cast this
    have := (Int.lt_zpow_iff_log_lt (by norm_num) hpos).1 hlt
    omega
  have hint : (m : ℚ) * 2 ^ e / 2 ^ quantumExp ((m : ℚ) * 2 ^ e) =
      ((m * 2 ^ (e - quantumExp ((m : ℚ) * 2 ^ e)).toNat : ℤ) : ℚ) := by
    generalize quantumExp ((m : ℚ) * 2 ^ e) = q at hq
    obtain ⟨k, hk⟩ := Int.eq_ofNat_of_zero_le (by omega : 0 ≤ e - q)
    have he : e = q + k := by omega
    rw [hk, he]
    simp only [Int.toNat_ofNat]
    push_cast
    rw [zpow_add₀ (by norm_num), zpow_natCast]
    field_simp
    ring
  have hv : ((roundHalfEven ((m : ℚ) * 2 ^ e / 2 ^ quantumExp ((m : ℚ) * 2 ^ e)) : ℤ) : ℚ) *
      2 ^ quantumExp ((m : ℚ) * 2 ^ e) = (m : ℚ) * 2 ^ e := by
    rw [hint, roundHalfEven_intCast, ← hint]
    field_simp
  simp only [roundF64, hv]
  rw [abs_lt] at hbound
  rw [if_neg (by linarith [hbound.2]), if_neg (by linarith [hbound.1])]

theorem isBinary64_natCast (k : ℕ) (hk : k < 2 ^ 53) : IsBinary64 (k : ℚ) :=
  ⟨k, 0, by rw [abs_of_nonneg (by positivity)]; exact_mod_cast hk, by norm_num, by norm_num, by simp⟩

theorem roundF64_natCast (k : ℕ) (hk : k < 2 ^ 53) : roundF64 (k : ℚ) = .finite k :=
  roundF64_of_isBinary64 _ (isBinary64_natCast k hk)

theorem roundF64_one : roundF64 1 = .finite 1 := by
  have := roundF64_natCast 1 (by norm_num)
  simpa using this

/-- The binary64 constant `0.8` is `7205759403792794 * 2^-53`, above `4/5`. -/
theorem roundF64_point8 : roundF64 (4 / 5) = .finite (3602879701896397 / 4503599627370496) := by
  have h := roundF64_eval (4 / 5) (-1) 7205759403792794 (by norm_num [abs_of_pos])
    (by norm_num [abs_of_pos]) (by norm_num) (by
      have := roundHalfEven_of_gt (4 / 5 / 2 ^ ((-1 : ℤ) - 52)) 7205759403792793
        (by norm_num) (by norm_num)
      rw [this]; norm_num) (by norm_num [abs_of_pos])
  rw [h]; norm_num

/-- The constant `0.8` of the formatter is the constant `f64_0_8` of the threshold
test, which is kept in units of `2^-52`. -/
theorem roundF64_point8_eq_f64_0_8 :
    roundF64 (4 / 5) = .finite ((f64_0_8 : ℚ) / 2 ^ 52) := by
  rw [roundF64_point8]
  norm_num [f64_0_8]

/-! ## internal/output/formatter.go: the overall verdict -/

/-- No binary64 value lies in `[4/5, 0.8)`, where `0.8` is the binary64 constant: a
binary64 value is below the constant iff it is below `4/5`. -/
theorem isBinary64_lt_point8_iff (x : ℚ) (hx : IsBinary64 x) :
    x < 3602879701896397 / 4503599627370496 ↔ x < 4 / 5 := by
  constructor
  · intro h
    by_contra hge
    push_neg at hge
    obtain ⟨m, e, hm, he1, he2, rfl⟩ := hx
    have he : -53 ≤ e := by
      by_contra hlt
      push_neg at hlt
      have hm2 : (m : ℚ) < 2 ^ 53 := by
        have : |(m : ℚ)| < 2 ^ 53 := by exact_mod_cast hm
        exact lt_of_le_of_lt (le_abs_self _) this
      have h3 : (2 : ℚ) ^ e ≤ 2 ^ (-54 : ℤ) := zpow_le_zpow_right₀ (by norm_num) (by omega)
      have h4 : (m : ℚ) * 2 ^ e < 2 ^ 53 * 2 ^ e :=
        mul_lt_mul_of_pos_right hm2 (by positivity)
      have h5 : (2 : ℚ) ^ 53 * 2 ^ e ≤ 2 ^ 53 * 2 ^ (-54 : ℤ) :=
        mul_le_mul_of_nonneg_left h3 (by positivity)
      have h6 : (2 : ℚ) ^ 53 * 2 ^ (-54 : ℤ) = 1 / 2 := by norm_num
      have h7 : (m : ℚ) * 2 ^ e < 1 / 2 := lt_of_lt_of_le h4 (h5.trans h6.le)
      have h8 : (1 : ℚ) / 2 < 4 / 5 := by norm_num
      exact absurd (lt_of_le_of_lt hge h7) (not_lt.mpr h8.le)
    obtain ⟨k, hk⟩ := Int.eq_ofNat_of_zero_le (by omega : 0 ≤ e + 53)
    have hek : e = (k : ℤ) + (-53) := by omega
    have hx2 : (m : ℚ) * 2 ^ e = ((m * 2 ^ k : ℤ) : ℚ) / 2 ^ 53 := by
      rw [hek, zpow_add₀ (by norm_num), zpow_natCast]
      push_cast
      norm_num
      ring
    rw [hx2] at h hge
    have h1 : ((m * 2 ^ k : ℤ) : ℚ) < 7205759403792794 := by
      rw [div_lt_iff₀ (by positivity)] at h
      norm_num at h ⊢
      linarith
    have h2 : (7205759403792793 : ℚ) < ((m * 2 ^ k : ℤ) : ℚ) := by
      rw [le_div_iff₀ (by positivity)] at hge
      norm_num at hge ⊢
      linarith
    have h1' : m * 2 ^ k < 7205759403792794 := by exact_mod_cast h1
    have h2' : 7205759403792793 < m * 2 ^ k := by exact_mod_cast h2
    omega
  · intro h
    have : (4 : ℚ) / 5 < 3602879701896397 / 4503599627370496 := by norm_num
    linarith

/-- The loop of `Format`: `totalScore` is the running binary64 sum, and
`criticalFailures` records a status fail. -/
theorem TableFormatter.foldl_step (results : List ValidationResult) :
    ∀ acc : TableFormatter.Acc,
      (results.foldl TableFormatter.step acc).totalScore =
        (results.map ValidationResult.scoreF64).foldl F64.add acc.totalScore ∧
      (results.foldl TableFormatter.step acc).criticalFailures =
        (acc.criticalFailures || results.any (fun r => r.Status == "fail")) := by
  induction results with
  | nil => intro acc; simp
  | cons r rest ih =>
    intro acc
    obtain ⟨h1, h2⟩ := ih (TableFormatter.step acc r)
    rw [List.foldl_cons, h1, h2]
    simp only [TableFormatter.step, List.map_cons, List.foldl_cons, List.any_cons]
    constructor
    · trivial
    · by_cases h : r.Status = "fail"
      · simp [h]
      · have hb : (r.Status == "fail") = false := by simpa using h
        simp [h, hb]

/-- The overall score and the verdict of `Format` in terms of the list. -/
theorem TableFormatter.Format_eq (results : List ValidationResult) :
    (TableFormatter.Format results).overallScore =
      (f64Sum results).div (roundF64 (results.length : ℚ)) ∧
    (TableFormatter.Format results).overallStatus =
      if (results.any (fun r => r.Status == "fail") ||
          ((f64Sum results).div (roundF64 (results.length : ℚ))).lt (roundF64 (4 / 5))) = true
        then "FAIL"
      else if ((f64Sum results).div (roundF64 (results.length : ℚ))).lt (roundF64 1) = true
        then "PASS (with warnings)"
      else "PASS" := by
  obtain ⟨h1, h2⟩ := TableFormatter.foldl_step results ⟨.finite 0, false⟩
  simp only [TableFormatter.Format, h1, h2, f64Sum, Bool.false_or]
  exact ⟨trivial, trivial⟩

/-- A running sum none of whose additions rounds is the exact sum. -/
theorem foldl_add_exact : ∀ (l : List ValidationResult) (a : ℚ),
    (∀ r ∈ l, IsBinary64 r.Score) →
    (∀ k, k ≤ l.length → IsBinary64 (a + ((l.take k).map (fun r => r.Score)).sum)) →
    (l.map ValidationResult.scoreF64).foldl F64.add (.finite a) =
      .finite (a + (l.map (fun r => r.Score)).sum) := by
  intro l
  induction l with
  | nil => intro a _ _; simp
  | cons r rest ih =>
    intro a hall hpre
    have hr : r.scoreF64 = .finite r.Score :=
      roundF64_of_isBinary64 _ (hall r (List.mem_cons_self r rest))
    have h1 : IsBinary64 (a + r.Score) := by
      have := hpre 1 (by simp)
      simpa using this
    simp only [List.map_cons, List.foldl_cons, hr, F64.add, roundF64_of_isBinary64 _ h1,
      List.sum_cons]
    rw [ih (a + r.Score) (fun x hx => hall x (List.mem_cons_of_mem r hx))]
    · rw [add_assoc]
    · intro k hk
      have := hpre (k + 1) (by simpa using hk)
      simpa [add_assoc] using this

theorem F64.add_finite (a b : ℚ) : F64.add (.finite a) (.finite b) = roundF64 (a + b) := rfl

theorem F64.div_finite (a b : ℚ) (hb : b ≠ 0) :
    F64.div (.finite a) (.finite b) = roundF64 (a / b) := by
  simp only [F64.div, if_neg hb]

theorem F64.lt_finite (a b : ℚ) : F64.lt (.finite a) (.finite b) = decide (a < b) := rfl

theorem f64Sum_halfOneNineTenths :
    f64Sum scoresHalfOneNineTenths = .finite (5404319552844595 / 2 ^ 51) := by
  have r0 : roundF64 (1 / 2) = .finite (1 / 2) :=
    roundF64_of_isBinary64 _ ⟨1, -1, by norm_num, by norm_num, by norm_num, by norm_num⟩
  have r1 : roundF64 (0 + 1 / 2) = .finite (1 / 2) := by
    rw [zero_add]; exact r0
  have r2 : roundF64 (1 / 2 + 1) = .finite (3 / 2) := by
    rw [roundF64_of_isBinary64 _ ⟨3, -1, by norm_num, by norm_num, by norm_num, by norm_num⟩]
    norm_num
  have r3 : roundF64 (9 / 10) = .finite (8106479329266893 / 2 ^ 53) := by
    have h := roundF64_eval (9 / 10) (-1) 8106479329266893 (by norm_num [abs_of_pos])
      (by norm_num [abs_of_pos]) (by norm_num) (by
        have := roundHalfEven_of_gt (9 / 10 / 2 ^ ((-1 : ℤ) - 52)) 8106479329266892
          (by norm_num) (by norm_num)
        rw [this]; norm_num) (by norm_num [abs_of_pos])
    rw [h]; norm_num
  have r4 : roundF64 (3 / 2 + 8106479329266893 / 2 ^ 53) =
      .finite (5404319552844595 / 2 ^ 51) := by
    have h := roundF64_eval (3 / 2 + 8106479329266893 / 2 ^ 53) 1 5404319552844595
      (by norm_num [abs_of_pos]) (by norm_num [abs_of_pos]) (by norm_num) (by
        exact roundHalfEven_of_lt _ 5404319552844595 (by norm_num) (by norm_num))
      (by norm_num [abs_of_pos])
    rw [h]; norm_num
  show F64.add (F64.add (F64.add (.finite 0) (roundF64 (1 / 2))) (roundF64 1))
    (roundF64 (9 / 10)) = _
  rw [r0, roundF64_one, r3, F64.add_finite, r1, F64.add_finite, r2, F64.add_finite, r4]


theorem f64Sum_almostOne : f64Sum scoresAlmostOne = .finite 3 := by
  have r1 : roundF64 (0 + 1) = .finite 1 := by
    rw [zero_add]; exact roundF64_one
  have r2 : roundF64 (1 + 1) = .finite 2 := by
    rw [roundF64_of_isBinary64 _ ⟨2, 0, by norm_num, by norm_num, by norm_num, by norm_num⟩]
    norm_num
  have r3 : roundF64 (1 - 1 / 2 ^ 53) = .finite (1 - 1 / 2 ^ 53) :=
    roundF64_of_isBinary64 _
      ⟨9007199254740991, -53, by norm_num, by norm_num, by norm_num, by norm_num⟩
  have r4 : roundF64 (2 + (1 - 1 / 2 ^ 53)) = .finite 3 := by
    have h := roundF64_eval (2 + (1 - 1 / 2 ^ 53)) 1 6755399441055744
      (by norm_num [abs_of_pos]) (by norm_num [abs_of_pos]) (by norm_num) (by
        have := roundHalfEven_of_gt ((2 + (1 - 1 / 2 ^ 53)) / 2 ^ ((1 : ℤ) - 52))
          6755399441055743 (by norm_num) (by norm_num)
        rw [this]; norm_num) (by norm_num [abs_of_pos])
    rw [h]; norm_num
  show F64.add (F64.add (F64.add (.finite 0) (roundF64 1)) (roundF64 1))
    (roundF64 (1 - 1 / 2 ^ 53)) = _
  rw [roundF64_one, r3, F64.add_finite, r1, F64.add_finite, r2, F64.add_finite, r4]

theorem roundF64_three : roundF64 ((3 : ℕ) : ℚ) = .finite 3 := by
  have := roundF64_natCast 3 (by norm_num)
  simpa using this

/-- C15 is refuted by three results without a failing status.  For the scores 0.5,
1.0 and 0.9 the arithmetic mean is 0.8, so the claim gives PASS (with warnings);
`Format` computes 0.7999999999999999 (the sum 2.4 is rounded down, and so is its third)
and prints FAIL.  For the scores 1, 1 and 1 - 2^-53 the mean is below 1, so the claim
gives PASS (with warnings); `Format` computes the sum 3 and the score 1.0 and prints
PASS. -/
theorem C15_table_verdict_counterexample :
    (scoresHalfOneNineTenths ≠ [] ∧
      (∀ r ∈ scoresHalfOneNineTenths, r.Status ≠ "fail") ∧
      meanScore scoresHalfOneNineTenths = 4 / 5 ∧
      (TableFormatter.Format scoresHalfOneNineTenths).overallScore =
        .finite (7205759403792793 / 2 ^ 53) ∧
      (TableFormatter.Format scoresHalfOneNineTenths).overallStatus = "FAIL") ∧
    (scoresAlmostOne ≠ [] ∧
      (∀ r ∈ scoresAlmostOne, r.Status ≠ "fail") ∧
      4 / 5 ≤ meanScore scoresAlmostOne ∧ meanScore scoresAlmostOne < 1 ∧
      (TableFormatter.Format scoresAlmostOne).overallScore = .finite 1 ∧
      (TableFormatter.Format scoresAlmostOne).overallStatus = "PASS") := by
  have hd1 : (f64Sum scoresHalfOneNineTenths).div
      (roundF64 (scoresHalfOneNineTenths.length : ℚ)) =
      .finite (7205759403792793 / 2 ^ 53) := by
    rw [f64Sum_halfOneNineTenths]
    show F64.div _ (roundF64 ((3 : ℕ) : ℚ)) = _
    rw [roundF64_three, F64.div_finite _ _ (by norm_num)]
    have h := roundF64_eval (5404319552844595 / 2 ^ 51 / 3) (-1) 7205759403792793
      (by norm_num [abs_of_pos]) (by norm_num [abs_of_pos]) (by norm_num) (by
        exact roundHalfEven_of_lt _ 7205759403792793 (by norm_num) (by norm_num))
      (by norm_num [abs_of_pos])
    rw [h]; norm_num
  have hd2 : (f64Sum scoresAlmostOne).div (roundF64 (scoresAlmostOne.length : ℚ)) =
      .finite 1 := by
    rw [f64Sum_almostOne]
    show F64.div _ (roundF64 ((3 : ℕ) : ℚ)) = _
    rw [roundF64_three, F64.div_finite _ _ (by norm_num)]
    rw [show (3 : ℚ) / 3 = 1 by norm_num, roundF64_one]
  have ha1 : scoresHalfOneNineTenths.any (fun r => r.Status == "fail") = false := by decide
  have ha2 : scoresAlmostOne.any (fun r => r.Status == "fail") = false := by decide
  refine ⟨⟨by decide, by decide, by norm_num [meanScore, scoresHalfOneNineTenths], ?_, ?_⟩,
    ⟨by decide, by decide, by norm_num [meanScore, scoresAlmostOne],
      by norm_num [meanScore, scoresAlmostOne], ?_, ?_⟩⟩
  · rw [(TableFormatter.Format_eq _).1, hd1]
  · rw [(TableFormatter.Format_eq _).2, hd1, ha1, roundF64_point8, F64.lt_finite]
    norm_num
  · rw [(TableFormatter.Format_eq _).1, hd2]
  · rw [(TableFormatter.Format_eq _).2, hd2, ha2, roundF64_point8, roundF64_one, F64.lt_finite,
      F64.lt_finite]
    norm_num

/-- C15, amended. For a non-empty list of results the overall score of the table
formatter is computed in binary64: the scores are added in list order, starting from
0.0, and the sum is divided by the number of results, every operation rounded to the
nearest binary64 value.  The verdict is FAIL if some result has status fail or the
computed score is below the binary64 constant 0.8; PASS (with warnings) if no result
has status fail and the computed score is not below 0.8 but below 1.0; PASS if no
result has status fail and the computed score is below neither.  When nothing is
rounded (the scores, their running sums, the number of results and the arithmetic
mean are binary64 values), the computed score is the arithmetic mean, and the verdict
is FAIL if some result has status fail or the mean is below 0.8, PASS (with warnings)
if no result has status fail and the mean is in [0.8, 1), and PASS otherwise. -/
theorem C15_table_verdict_binary64 (results : List ValidationResult) (hne : results ≠ []) :
    (TableFormatter.Format results).overallScore =
      (f64Sum results).div (roundF64 (results.length : ℚ)) ∧
    (((∃ r ∈ results, r.Status = "fail") ∨
        (TableFormatter.Format results).overallScore.lt (roundF64 (4 / 5)) = true) →
      (TableFormatter.Format results).overallStatus = "FAIL") ∧
    ((∀ r ∈ results, r.Status ≠ "fail") →
      (TableFormatter.Format results).overallScore.lt (roundF64 (4 / 5)) = false →
      (TableFormatter.Format results).overallScore.lt (roundF64 1) = true →
      (TableFormatter.Format results).overallStatus = "PASS (with warnings)") ∧
    ((∀ r ∈ results, r.Status ≠ "fail") →
      (TableFormatter.Format results).overallScore.lt (roundF64 (4 / 5)) = false →
      (TableFormatter.Format results).overallScore.lt (roundF64 1) = false →
      (TableFormatter.Format results).overallStatus = "PASS") ∧
    ((∀ r ∈ results, IsBinary64 r.Score) →
      (∀ k, k ≤ results.length → IsBinary64 (((results.take k).map (fun r => r.Score)).sum)) →
      IsBinary64 (results.length : ℚ) → IsBinary64 (meanScore results) →
      (TableFormatter.Format results).overallScore = .finite (meanScore results) ∧
      (((∃ r ∈ results, r.Status = "fail") ∨ meanScore results < 4 / 5) →
        (TableFormatter.Format results).overallStatus = "FAIL") ∧
      ((∀ r ∈ results, r.Status ≠ "fail") → 4 / 5 ≤ meanScore results →
        meanScore results < 1 →
        (TableFormatter.Format results).overallStatus = "PASS (with warnings)") ∧
      ((∀ r ∈ results, r.Status ≠ "fail") → 1 ≤ meanScore results →
        (TableFormatter.Format results).overallStatus = "PASS")) := by
  obtain ⟨hscore, hstatus⟩ := TableFormatter.Format_eq results
  have hany := any_fail_iff results
  have hnone : (∀ r ∈ results, r.Status ≠ "fail") →
      results.any (fun r => r.Status == "fail") = false := by
    intro hno
    rw [Bool.eq_false_iff]
    intro h
    obtain ⟨r, hr, hf⟩ := hany.mp h
    exact hno r hr hf
  have hfail : ((∃ r ∈ results, r.Status = "fail") ∨
      (TableFormatter.Format results).overallScore.lt (roundF64 (4 / 5)) = true) →
      (TableFormatter.Format results).overallStatus = "FAIL" := by
    intro h
    rw [hstatus, ← hscore, if_pos]
    rcases h with h | h
    · simp [hany.mpr h]
    · simp [h]
  have hwarn : (∀ r ∈ results, r.Status ≠ "fail") →
      (TableFormatter.Format results).overallScore.lt (roundF64 (4 / 5)) = false →
      (TableFormatter.Format results).overallScore.lt (roundF64 1) = true →
      (TableFormatter.Format results).overallStatus = "PASS (with warnings)" := by
    intro hno h8 h1
    rw [hstatus, ← hscore, hnone hno, h8, h1]
    simp
  have hpass : (∀ r ∈ results, r.Status ≠ "fail") →
      (TableFormatter.Format results).overallScore.lt (roundF64 (4 / 5)) = false →
      (TableFormatter.Format results).overallScore.lt (roundF64 1) = false →
      (TableFormatter.Format results).overallStatus = "PASS" := by
    intro hno h8 h1
    rw [hstatus, ← hscore, hnone hno, h8, h1]
    simp
  refine ⟨hscore, hfail, hwarn, hpass, ?_⟩
  intro hall hpre hlen hmean
  have hlen0 : (results.length : ℚ) ≠ 0 := by
    have : results.length ≠ 0 := fun h => hne (List.length_eq_zero.mp h)
    exact_mod_cast this
  have hsum : f64Sum results = .finite ((results.map (fun r => r.Score)).sum) := by
    have := foldl_add_exact results 0 hall (by intro k hk; simpa using hpre k hk)
    simpa [f64Sum] using this
  have hexact : (TableFormatter.Format results).overallScore = .finite (meanScore results) := by
    rw [hscore, hsum, roundF64_of_isBinary64 _ hlen, F64.div_finite _ _ hlen0]
    exact roundF64_of_isBinary64 _ hmean
  have hlt8 : (TableFormatter.Format results).overallScore.lt (roundF64 (4 / 5)) =
      decide (meanScore results < 4 / 5) := by
    rw [hexact, roundF64_point8, F64.lt_finite]
    exact decide_eq_decide.mpr (isBinary64_lt_point8_iff _ hmean)
  have hlt1 : (TableFormatter.Format results).overallScore.lt (roundF64 1) =
      decide (meanScore results < 1) := by
    rw [hexact, roundF64_one, F64.lt_finite]
  refine ⟨hexact, ?_, ?_, ?_⟩
  · rintro (h | h)
    · exact hfail (Or.inl h)
    · exact hfail (Or.inr (by rw [hlt8]; exact decide_eq_true h))
  · intro hno hge hlt
    exact hwarn hno (by rw [hlt8]; exact decide_eq_false (not_lt.mpr hge))
      (by rw [hlt1]; exact decide_eq_true hlt)
  · intro hno hge
    have h45 : ¬ meanScore results < 4 / 5 := by
      intro h
      have : (4 : ℚ) / 5 < 1 := by norm_num
      linarith
    exact hpass hno (by rw [hlt8]; exact decide_eq_false h45)
      (by rw [hlt1]; exact decide_eq_false (not_lt.mpr hge))

/-- C15 (amended) on two lists without a failing status in which no step rounds:
the scores 1.0 and 0.5 give the score 0.75 and FAIL, the scores 1.0 and 0.75 give the
score 0.875 and PASS (with warnings). -/
theorem C15_table_verdict_binary64_witness :
    ((TableFormatter.Format
      [{ Agent := "a", Status := "pass", Score := 1, Findings := [] },
       { Agent := "b", Status := "warning", Score := 1 / 2, Findings := [] }]).overallScore
      = .finite (3 / 4) ∧
    (TableFormatter.Format
      [{ Agent := "a", Status := "pass", Score := 1, Findings := [] },
       { Agent := "b", Status := "warning", Score := 1 / 2, Findings := [] }]).overallStatus
      = "FAIL") ∧
    ((TableFormatter.Format
      [{ Agent := "a", Status := "pass", Score := 1, Findings := [] },
       { Agent := "b", Status := "warning", Score := 3 / 4, Findings := [] }]).overallScore
      = .finite (7 / 8) ∧
    (TableFormatter.Format
      [{ Agent := "a", Status := "pass", Score := 1, Findings := [] },
       { Agent := "b", Status := "warning", Score := 3 / 4, Findings := [] }]).overallStatus
      = "PASS (with warnings)") := by
  have b1 : IsBinary64 1 := ⟨1, 0, by norm_num, by norm_num, by norm_num, by norm_num⟩
  have b0 : IsBinary64 0 := ⟨0, 0, by norm_num, by norm_num, by norm_num, by norm_num⟩
  have b2 : IsBinary64 2 := ⟨2, 0, by norm_num, by norm_num, by norm_num, by norm_num⟩
  have b12 : IsBinary64 (1 / 2) := ⟨1, -1, by norm_num, by norm_num, by norm_num, by norm_num⟩
  have b32 : IsBinary64 (3 / 2) := ⟨3, -1, by norm_num, by norm_num, by norm_num, by norm_num⟩
  have b34 : IsBinary64 (3 / 4) := ⟨3, -2, by norm_num, by norm_num, by norm_num, by norm_num⟩
  have b74 : IsBinary64 (7 / 4) := ⟨7, -2, by norm_num, by norm_num, by norm_num, by norm_num⟩
  have b78 : IsBinary64 (7 / 8) := ⟨7, -3, by norm_num, by norm_num, by norm_num, by norm_num⟩
  constructor
  · have h := (C15_table_verdict_binary64
      [{ Agent := "a", Status := "pass", Score := 1, Findings := [] },
       { Agent := "b", Status := "warning", Score := 1 / 2, Findings := [] }]
      (by simp)).2.2.2.2
      (by
        intro r hr
        simp only [List.mem_cons, List.mem_singleton, List.not_mem_nil, or_false] at hr
        rcases hr with rfl | rfl
        · exact b1
        · exact b12)
      (by
        intro k hk
        simp only [List.length_cons, List.length_nil] at hk
        interval_cases k
        · simpa using b0
        · simpa using b1
        · show IsBinary64 (1 + (1 / 2 + 0))
          rw [show (1 : ℚ) + (1 / 2 + 0) = 3 / 2 by norm_num]
          exact b32)
      (by simpa using b2)
      (by
        have : meanScore
          [{ Agent := "a", Status := "pass", Score := 1, Findings := [] },
           { Agent := "b", Status := "warning", Score := 1 / 2, Findings := [] }] = 3 / 4 := by
          norm_num [meanScore]
        rw [this]; exact b34)
    have hm : meanScore
        [{ Agent := "a", Status := "pass", Score := 1, Findings := [] },
         { Agent := "b", Status := "warning", Score := 1 / 2, Findings := [] }] = 3 / 4 := by
      norm_num [meanScore]
    rw [hm] at h
    exact ⟨h.1, h.2.1 (Or.inr (by norm_num))⟩
  · have h := (C15_table_verdict_binary64
      [{ Agent := "a", Status := "pass", Score := 1, Findings := [] },
       { Agent := "b", Status := "warning", Score := 3 / 4, Findings := [] }]
      (by simp)).2.2.2.2
      (by
        intro r hr
        simp only [List.mem_cons, List.mem_singleton, List.not_mem_nil, or_false] at hr
        rcases hr with rfl | rfl
        · exact b1
        · exact b34)
      (by
        intro k hk
        simp only [List.length_cons, List.length_nil] at hk
        interval_cases k
        · simpa using b0
        · simpa using b1
        · show IsBinary64 (1 + (3 / 4 + 0))
          rw [show (1 : ℚ) + (3 / 4 + 0) = 7 / 4 by norm_num]
          exact b74)
      (by simpa using b2)
      (by
        have : meanScore
          [{ Agent := "a", Status := "pass", Score := 1, Findings := [] },
           { Agent := "b", Status := "warning", Score := 3 / 4, Findings := [] }] = 7 / 8 := by
          norm_num [meanScore]
        rw [this]; exact b78)
    have hm : meanScore
        [{ Agent := "a", Status := "pass", Score := 1, Findings := [] },
         { Agent := "b", Status := "warning", Score := 3 / 4, Findings := [] }] = 7 / 8 := by
      norm_num [meanScore]
    rw [hm] at h
    exact ⟨h.1, h.2.2.1 (by simp) (by norm_num) (by norm_num)⟩

/-! ## internal/config/config.go: the enable flags -/

/-- C18. `IsAgentEnabled` returns the `Enabled` flag of the section named by the
argument for the three agent names and false for every other name; on the default
configuration it is true for the three names and false for `unknown-agent`. -/
theorem C18_is_agent_enabled (c : Config) (name : String) :
    c.IsAgentEnabled "essential-files" = c.Validation.Agents.EssentialFiles.Enabled ∧
    c.IsAgentEnabled "git-configuration" = c.Validation.Agents.GitConfiguration.Enabled ∧
    c.IsAgentEnabled "development-standards" =
      c.Validation.Agents.DevelopmentStandards.Enabled ∧
    (name ∉ registeredNames → c.IsAgentEnabled name = false) ∧
    DefaultConfig.IsAgentEnabled "essential-files" = true ∧
    DefaultConfig.IsAgentEnabled "git-configuration" = true ∧
    DefaultConfig.IsAgentEnabled "development-standards" = true ∧
    DefaultConfig.IsAgentEnabled "unknown-agent" = false := by
  refine ⟨rfl, rfl, rfl, ?_, rfl, rfl, rfl, rfl⟩
  intro h
  simp only [registeredNames, List.mem_cons, List.mem_singleton, List.not_mem_nil, or_false,
    not_or] at h
  simp only [Config.IsAgentEnabled, if_neg h.1, if_neg h.2.1, if_neg h.2.2]

/-- C18 on a configuration with `git-configuration` disabled, for a known and an
unknown name. -/
theorem C18_is_agent_enabled_witness :
    (configWithEnabled true false true).IsAgentEnabled "git-configuration" = false ∧
    (configWithEnabled true false true).IsAgentEnabled "essential-files" = true ∧
    (configWithEnabled true false true).IsAgentEnabled "linter" = false := by
  obtain ⟨h1, h2, -, h4, -⟩ := C18_is_agent_enabled (configWithEnabled true false true) "linter"
  exact ⟨h2, h1, h4 (by decide)⟩

/-! ## The branch patterns are disjoint -/

theorem firstSegment_slash (pre rest : List Char) (h : '/' ∉ pre) :
    firstSegment (pre ++ '/' :: rest) = pre := by
  unfold firstSegment
  rw [List.takeWhile_append_of_pos]
  · simp
  · intro c hc
    simp only [bne_iff_ne, ne_eq]
    rintro rfl
    exact h hc

theorem firstSegment_self (name : List Char) (h : '/' ∉ name) : firstSegment name = name := by
  unfold firstSegment
  rw [List.takeWhile_eq_self_iff]
  intro c hc
  simp only [bne_iff_ne, ne_eq]
  rintro rfl
  exact h hc

/-- A match of a prefix pattern fixes the first segment of the name. -/
theorem prefixPattern_firstSegment (a b : String) (name : List Char)
    (ha : '/' ∉ a.toList) (hb : '/' ∉ b.toList)
    (h : Regexp.MatchString
        { body := seq (alts [lit a, lit b]) (seq (chr '/') (plus dot)), toEnd := false } name
      = true) :
    firstSegment name = a.toList ∨ firstSegment name = b.toList := by
  simp only [Regexp.MatchString, Bool.false_eq_true, if_false, matchPrefix_iff, matches_seq_iff,
    matches_alts_iff, matches_chr_iff, List.mem_cons, List.mem_singleton,
    List.not_mem_nil, or_false] at h
  obtain ⟨p, q, rfl, pre, _, rfl, ⟨r, hr, hm⟩, _, d, rfl, rfl, -⟩ := h
  rcases hr with rfl | rfl
  · left
    have := (matches_lit_iff _ _).mp hm
    subst this
    simp only [List.append_assoc, List.singleton_append]
    exact firstSegment_slash _ _ ha
  · right
    have := (matches_lit_iff _ _).mp hm
    subst this
    simp only [List.append_assoc, List.singleton_append]
    exact firstSegment_slash _ _ hb

theorem trunkPattern_firstSegment (name : List Char)
    (h : Regexp.MatchString
        { body := alts [lit "main", lit "master", lit "develop", lit "development"]
          toEnd := true } name = true) :
    firstSegment name ∈ trunkBranches.map String.toList := by
  have hmem := (trunkPattern_iff name).mp h
  have hns : '/' ∉ name := by
    simp only [trunkBranches, List.map_cons, List.map_nil, List.mem_cons, List.mem_singleton,
      List.not_mem_nil, or_false] at hmem
    rcases hmem with h | h | h | h <;> rw [h] <;> decide
  rw [firstSegment_self name hns]
  exact hmem

/-- The index (from 1) of the only pattern that can match a name with first segment
`key`. -/
theorem branchPatterns_exclusive (name : List Char) :
    ∃ idx : Nat, ∀ i (hi : i < branchPatterns.length),
      (branchPatterns.get ⟨i, hi⟩).MatchString name = true → idx = i := by
  let f : List Char → Nat := fun k =>
    if k = "feature".toList ∨ k = "feat".toList then 0
    else if k = "fix".toList ∨ k = "bugfix".toList then 1
    else if k = "hotfix".toList ∨ k = "patch".toList then 2
    else if k = "release".toList ∨ k = "rel".toList then 3
    else if k = "docs".toList ∨ k = "documentation".toList then 4
    else if k = "chore".toList ∨ k = "task".toList then 5
    else 6
  refine ⟨f (firstSegment name), ?_⟩
  intro i hi hm
  have hlen : branchPatterns.length = 7 := rfl
  rw [hlen] at hi
  interval_cases i
  · rcases prefixPattern_firstSegment "feature" "feat" name (by decide) (by decide) hm
      with h | h <;> rw [h] <;> decide
  · rcases prefixPattern_firstSegment "fix" "bugfix" name (by decide) (by decide) hm
      with h | h <;> rw [h] <;> decide
  · rcases prefixPattern_firstSegment "hotfix" "patch" name (by decide) (by decide) hm
      with h | h <;> rw [h] <;> decide
  · rcases prefixPattern_firstSegment "release" "rel" name (by decide) (by decide) hm
      with h | h <;> rw [h] <;> decide
  · rcases prefixPattern_firstSegment "docs" "documentation" name (by decide) (by decide) hm
      with h | h <;> rw [h] <;> decide
  · rcases prefixPattern_firstSegment "chore" "task" name (by decide) (by decide) hm
      with h | h <;> rw [h] <;> decide
  · have h := trunkPattern_firstSegment name hm
    simp only [trunkBranches, List.map_cons, List.map_nil, List.mem_cons, List.mem_singleton,
      List.not_mem_nil, or_false] at h
    rcases h with h | h | h | h <;> rw [h] <;> decide

/-- When at most one index can satisfy `p`, at most one element of the list does. -/
theorem filter_length_le_one {α : Type} (p : α → Bool) (l : List α) (idx : Nat)
    (h : ∀ i (hi : i < l.length), p (l.get ⟨i, hi⟩) = true → idx = i) :
    (l.filter p).length ≤ 1 := by
  induction l generalizing idx with
  | nil => simp
  | cons a l ih =>
    by_cases ha : p a = true
    · have h0 : idx = 0 := h 0 (by simp) ha
      have hnone : ∀ b ∈ l, p b = false := by
        intro b hb
        obtain ⟨n, hn⟩ := List.mem_iff_get.mp hb
        by_contra hcon
        have hpb : p (l.get n) = true := by
          rw [hn]; simpa using hcon
        have := h (n.1 + 1) (by simp [n.2]) (by simpa using hpb)
        omega
      have : l.filter p = [] := by
        rw [List.filter_eq_nil_iff]
        intro b hb
        simp [hnone b hb]
      simp [List.filter_cons, ha, this]
    · have hfa : p a = false := by simpa using ha
      rw [List.filter_cons, if_neg ha]
      cases idx with
      | zero =>
        have hnone : ∀ b ∈ l, p b = false := by
          intro b hb
          obtain ⟨n, hn⟩ := List.mem_iff_get.mp hb
          by_contra hcon
          have hpb : p (l.get n) = true := by
            rw [hn]; simpa using hcon
          have := h (n.1 + 1) (by simp [n.2]) (by simpa using hpb)
          omega
        have : l.filter p = [] := by
          rw [List.filter_eq_nil_iff]
          intro b hb
          simp [hnone b hb]
        simp [this]
      | succ k =>
        apply ih k
        intro i hi hp
        have := h (i + 1) (by simp [hi]) (by simpa using hp)
        omega

theorem perm_of_length_le_one {α : Type} (l1 l2 : List α) (h : l1.Perm l2)
    (hlen : l2.length ≤ 1) : l1 = l2 := by
  match l2, hlen with
  | [], _ => exact h.eq_nil
  | [a], _ => exact List.perm_singleton.mp h

/-- C19. At most one of the seven branch patterns matches a given name; hence for
every permutation of the pattern list the loop finds a match iff the source order
does, and the matching patterns are the same. -/
theorem C19_branch_patterns_disjoint (name : List Char) (patterns : List Regexp)
    (hperm : patterns.Perm branchPatterns) :
    matchCount branchPatterns name ≤ 1 ∧
    matchCount patterns name ≤ 1 ∧
    patterns.any (fun pattern => pattern.MatchString name) = branchNameValid name ∧
    (patterns.find? (fun pattern => pattern.MatchString name)).isSome =
      (branchPatterns.find? (fun pattern => pattern.MatchString name)).isSome ∧
    patterns.filter (fun pattern => pattern.MatchString name) =
      branchPatterns.filter (fun pattern => pattern.MatchString name) := by
  obtain ⟨idx, hidx⟩ := branchPatterns_exclusive name
  have h1 : matchCount branchPatterns name ≤ 1 :=
    filter_length_le_one _ _ idx hidx
  have hfp := hperm.filter (fun pattern => pattern.MatchString name)
  have hfeq : patterns.filter (fun pattern => pattern.MatchString name) =
      branchPatterns.filter (fun pattern => pattern.MatchString name) :=
    perm_of_length_le_one _ _ hfp h1
  have hany : ∀ l : List Regexp, l.any (fun pattern => pattern.MatchString name) =
      !(l.filter (fun pattern => pattern.MatchString name)).isEmpty := by
    intro l
    induction l with
    | nil => rfl
    | cons a l ih =>
      by_cases ha : a.MatchString name = true
      · simp [List.filter_cons, ha]
      · have hfa : a.MatchString name = false := by simpa using ha
        simp [List.filter_cons, hfa, ih]
  have hfind : ∀ l : List Regexp, (l.find? (fun pattern => pattern.MatchString name)).isSome =
      l.any (fun pattern => pattern.MatchString name) := by
    intro l
    induction l with
    | nil => rfl
    | cons a l ih =>
      by_cases ha : a.MatchString name = true
      · simp [List.find?_cons, ha]
      · have hfa : a.MatchString name = false := by simpa using ha
        simp [List.find?_cons, hfa, ih]
  refine ⟨h1, ?_, ?_, ?_, hfeq⟩
  · simp only [matchCount, hfeq]
    exact h1
  · rw [branchNameValid, hany, hany, hfeq]
  · rw [hfind, hfind, hany, hany, hfeq]

set_option maxRecDepth 100000 in
/-- C19 for the name `feature/login` and the pattern list in opposite order. -/
theorem C19_branch_patterns_disjoint_witness :
    matchCount branchPatterns "feature/login".toList = 1 ∧
    branchPatterns.reverse.any (fun pattern => pattern.MatchString "feature/login".toList)
      = true := by
  obtain ⟨_, _, h3, _, _⟩ := C19_branch_patterns_disjoint "feature/login".toList
    branchPatterns.reverse (List.reverse_perm _)
  refine ⟨by decide, ?_⟩
  rw [h3]
  decide

/-! ## Findings, counters and severities -/

theorem Tally.pass_accounted (P : Finding → Prop) (t : Tally) (f : Finding)
    (hf : f.Type_ = "present") (hP : P f) (h : t.Accounted P) : (t.pass f).Accounted P := by
  obtain ⟨h1, h2, h3⟩ := h
  refine ⟨?_, ?_, ?_⟩
  · simp [Tally.pass, h1]
  · simp only [Tally.pass, presentCount] at h2 ⊢
    simp [List.filter_append, hf, h2]
  · intro g hg
    simp only [Tally.pass, List.mem_append, List.mem_singleton] at hg
    rcases hg with hg | rfl
    · exact h3 g hg
    · exact hP

theorem Tally.miss_accounted (P : Finding → Prop) (t : Tally) (f : Finding)
    (hf : f.Type_ ≠ "present") (hP : P f) (h : t.Accounted P) : (t.miss f).Accounted P := by
  obtain ⟨h1, h2, h3⟩ := h
  refine ⟨?_, ?_, ?_⟩
  · simp [Tally.miss, h1]
  · simp only [Tally.miss, presentCount] at h2 ⊢
    simp [List.filter_append, hf, h2]
  · intro g hg
    simp only [Tally.miss, List.mem_append, List.mem_singleton] at hg
    rcases hg with hg | rfl
    · exact h3 g hg
    · exact hP

theorem Tally.empty_accounted (P : Finding → Prop) :
    Tally.Accounted P { totalChecks := 0, passedChecks := 0, Findings := [] } :=
  ⟨rfl, rfl, fun _ h => absurd h (List.not_mem_nil _)⟩

theorem checkFile_accounted (P : Finding → Prop) (w : World) (file msg sev : String)
    (t : Tally)
    (hpass : P { Type_ := "present", File := file, Message := file ++ " present"
                 Severity := "info" })
    (hmiss : P { Type_ := "missing", File := file, Message := msg, Severity := sev })
    (h : t.Accounted P) : (checkFile w file msg sev t).Accounted P := by
  unfold checkFile
  split
  · exact Tally.pass_accounted P t _ rfl hpass h
  · exact Tally.miss_accounted P t _ (by show "missing" ≠ "present"; decide) hmiss h

theorem severityRule_present (w : World) (d : Int) (file msg : String) :
    SeverityRule w d { Type_ := "present", File := file, Message := msg, Severity := "info" } :=
  Or.inl ⟨rfl, rfl⟩

theorem severityRule_critical (w : World) (d : Int) (ty file msg : String)
    (hty : ty ≠ "present") (h1 : file ≠ ".gitattributes") (h2 : file ≠ "git-branch") :
    SeverityRule w d { Type_ := ty, File := file, Message := msg, Severity := "critical" } :=
  Or.inr (Or.inl ⟨hty, rfl, h1, h2⟩)

theorem checkReadme_accounted (w : World) (d : Int) (t : Tally)
    (h : t.Accounted (SeverityRule w d)) :
    (EssentialFilesAgent.checkReadme w t).Accounted (SeverityRule w d) := by
  unfold EssentialFilesAgent.checkReadme
  split
  · exact Tally.pass_accounted _ t _ rfl (severityRule_present _ _ _ _) h
  · exact Tally.miss_accounted _ t _ (by decide)
      (severityRule_critical _ _ _ _ _ (by decide) (by decide) (by decide)) h

theorem commitCheck_accounted (w : World) (d : Int) (t : Tally)
    (h : t.Accounted (SeverityRule w d)) :
    (DevelopmentStandardsAgent.commitCheck w d t).Accounted (SeverityRule w d) := by
  cases hl : w.gitLog d with
  | error e =>
    rw [commitCheck_of_error w d t e hl]
    exact Tally.miss_accounted _ t _ (by simp [logFailedFinding])
      (Or.inr (Or.inr (Or.inr (Or.inr (Or.inl ⟨e, hl, rfl⟩))))) h
  | ok log =>
    cases hc : conventionalCommitsOf log
    · have : DevelopmentStandardsAgent.commitCheck w d t =
          t.miss { Type_ := "invalid", File := "git-history"
                   Message := "Recent commits don't follow conventional format"
                   Severity := "critical" } := by
        simp only [DevelopmentStandardsAgent.commitCheck,
          DevelopmentStandardsAgent.checkConventionalCommits, hl, hc]
      rw [this]
      exact Tally.miss_accounted _ t _ (by decide)
        (severityRule_critical _ _ _ _ _ (by decide) (by decide) (by decide)) h
    · have : DevelopmentStandardsAgent.commitCheck w d t =
          t.pass { Type_ := "present", File := "git-history"
                   Message := "Recent commits follow conventional format"
                   Severity := "info" } := by
        simp only [DevelopmentStandardsAgent.commitCheck,
          DevelopmentStandardsAgent.checkConventionalCommits, hl, hc]
      rw [this]
      exact Tally.pass_accounted _ t _ rfl (severityRule_present _ _ _ _) h

theorem branchCheck_of_invalid (w : World) (t : Tally) (out : String)
    (hb : w.gitBranch = .ok out) (hv : branchNameValid (TrimSpace out.toList) = false) :
    DevelopmentStandardsAgent.branchCheck w t =
      t.miss (branchInvalid (String.mk (TrimSpace out.toList))) := by
  simp only [DevelopmentStandardsAgent.branchCheck,
    DevelopmentStandardsAgent.checkBranchNaming, hb, hv, branchInvalid]

theorem branchCheck_accounted (w : World) (d : Int) (t : Tally)
    (h : t.Accounted (SeverityRule w d)) :
    (DevelopmentStandardsAgent.branchCheck w t).Accounted (SeverityRule w d) := by
  cases hb : w.gitBranch with
  | error e =>
    rw [branchCheck_of_error w t e hb]
    exact Tally.miss_accounted _ t _ (by simp [branchFailedFinding])
      (Or.inr (Or.inr (Or.inr (Or.inr (Or.inr ⟨e, hb, rfl⟩))))) h
  | ok out =>
    cases hv : branchNameValid (TrimSpace out.toList)
    · rw [branchCheck_of_invalid w t out hb hv]
      exact Tally.miss_accounted _ t _ (by simp [branchInvalid])
        (Or.inr (Or.inr (Or.inr (Or.inl ⟨out, hb, hv, rfl⟩)))) h
    · have : DevelopmentStandardsAgent.branchCheck w t =
          t.pass { Type_ := "present", File := "git-branch"
                   Message := "Branch naming follows conventions: " ++
                     String.mk (TrimSpace out.toList)
                   Severity := "info" } := by
        simp only [DevelopmentStandardsAgent.branchCheck,
          DevelopmentStandardsAgent.checkBranchNaming, hb, hv]
      rw [this]
      exact Tally.pass_accounted _ t _ rfl (severityRule_present _ _ _ _) h

theorem Agent.tally_accounted (a : Agent) (w : World) (cfg : Config) :
    (a.tally w cfg).Accounted
      (SeverityRule w cfg.Validation.Agents.DevelopmentStandards.CommitHistoryDepth) := by
  have h0 := Tally.empty_accounted
    (SeverityRule w cfg.Validation.Agents.DevelopmentStandards.CommitHistoryDepth)
  cases a
  · simp only [Agent.tally, EssentialFilesAgent.tally]
    have h1 : (if cfg.Validation.Agents.EssentialFiles.RequireReadme = true then
        EssentialFilesAgent.checkReadme w ⟨0, 0, []⟩ else ⟨0, 0, []⟩).Accounted
        (SeverityRule w cfg.Validation.Agents.DevelopmentStandards.CommitHistoryDepth) := by
      split_ifs
      · exact checkReadme_accounted w _ _ h0
      · exact h0
    generalize (if cfg.Validation.Agents.EssentialFiles.RequireReadme = true then
        EssentialFilesAgent.checkReadme w ⟨0, 0, []⟩ else ⟨0, 0, []⟩) = t1 at h1 ⊢
    split_ifs
    · exact checkFile_accounted _ w _ _ _ _ (severityRule_present _ _ _ _)
        (severityRule_critical _ _ _ _ _ (by decide) (by decide) (by decide)) h1
    · exact h1
  · simp only [Agent.tally, GitConfigurationAgent.tally]
    have h1 : (if cfg.Validation.Agents.GitConfiguration.RequireGitignore = true then
        checkFile w ".gitignore" ".gitignore missing" "critical" ⟨0, 0, []⟩
        else ⟨0, 0, []⟩).Accounted
        (SeverityRule w cfg.Validation.Agents.DevelopmentStandards.CommitHistoryDepth) := by
      split_ifs
      · exact checkFile_accounted _ w _ _ _ _ (severityRule_present _ _ _ _)
          (severityRule_critical _ _ _ _ _ (by decide) (by decide) (by decide)) h0
      · exact h0
    generalize (if cfg.Validation.Agents.GitConfiguration.RequireGitignore = true then
        checkFile w ".gitignore" ".gitignore missing" "critical" ⟨0, 0, []⟩
        else ⟨0, 0, []⟩) = t1 at h1 ⊢
    have h2 : (if cfg.Validation.Agents.GitConfiguration.RequireGitattributes = true then
        checkFile w ".gitattributes" ".gitattributes missing (optional)" "warning" t1
        else t1).Accounted
        (SeverityRule w cfg.Validation.Agents.DevelopmentStandards.CommitHistoryDepth) := by
      split_ifs
      · exact checkFile_accounted _ w _ _ _ _ (severityRule_present _ _ _ _)
          (Or.inr (Or.inr (Or.inl rfl))) h1
      · exact h1
    generalize (if cfg.Validation.Agents.GitConfiguration.RequireGitattributes = true then
        checkFile w ".gitattributes" ".gitattributes missing (optional)" "warning" t1
        else t1) = t2 at h2 ⊢
    split_ifs
    · exact checkFile_accounted _ w _ _ _ _ (severityRule_present _ _ _ _)
        (severityRule_critical _ _ _ _ _ (by decide) (by decide) (by decide)) h2
    · exact h2
  · simp only [Agent.tally, DevelopmentStandardsAgent.tally]
    apply branchCheck_accounted
    split_ifs
    · exact commitCheck_accounted w _ _ h0
    · exact h0

/-- With accounted findings, the status is fail exactly when some finding is not of
type present, and the score is the share of findings of type present. -/
theorem Tally.result_of_accounted (P : Finding → Prop) (agent : String) (t : Tally)
    (h : t.Accounted P) :
    (Tally.result agent t).Findings = t.Findings ∧
    ((Tally.result agent t).Status = "fail" ↔ ∃ f ∈ t.Findings, f.Type_ ≠ "present") ∧
    ((Tally.result agent t).Status = "pass" ↔ ∀ f ∈ t.Findings, f.Type_ = "present") ∧
    (t.Findings ≠ [] →
      (Tally.result agent t).Score = (presentCount t.Findings : ℚ) / (t.Findings.length : ℚ)) ∧
    (t.Findings = [] → (Tally.result agent t).Score = 1) := by
  obtain ⟨h1, h2, -⟩ := h
  have hle : presentCount t.Findings ≤ t.Findings.length := List.length_filter_le _ _
  have hall : presentCount t.Findings = t.Findings.length ↔
      ∀ f ∈ t.Findings, f.Type_ = "present" := by
    simp only [presentCount]
    rw [List.filter_length_eq_length]
    simp
  have hscore := Tally.result_score agent t
  obtain ⟨hfail, hpass, -⟩ := Tally.result_status agent t
  have hlt : (Tally.result agent t).Score < 1 ↔ presentCount t.Findings < t.Findings.length := by
    rw [hscore, h1, h2]
    by_cases h0 : t.totalChecks = 0
    · rw [if_pos h0]
      have : t.passedChecks = 0 := by omega
      simp [h0, this]
    · rw [if_neg h0]
      have hq : (0 : ℚ) < (t.totalChecks : ℚ) := by
        exact_mod_cast Nat.pos_of_ne_zero h0
      rw [div_lt_one hq]
      exact_mod_cast Iff.rfl
  refine ⟨rfl, ?_, ?_, ?_, ?_⟩
  · rw [hfail, hlt]
    constructor
    · intro hlt2
      by_contra hcon
      push_neg at hcon
      have := hall.mpr hcon
      omega
    · rintro ⟨f, hf, hne⟩
      by_contra hcon
      have heq : presentCount t.Findings = t.Findings.length := by omega
      exact hne (hall.mp heq f hf)
  · rw [hpass, hlt, ← hall]
    omega
  · intro hne
    have h0 : t.totalChecks ≠ 0 := by
      rw [← h1]
      exact fun hh => hne (List.length_eq_zero.mp hh)
    rw [hscore, if_neg h0, h1, h2]
  · intro he
    have h0 : t.totalChecks = 0 := by rw [← h1, he]; rfl
    rw [hscore, if_pos h0]

theorem Agent.result_eq (a : Agent) (w : World) (cfg : Config) :
    ∃ name, a.result w cfg = Tally.result name (a.tally w cfg) := by
  cases a <;> exact ⟨_, rfl⟩

theorem checkFile_files (w : World) (file msg sev : String) (t : Tally) :
    (checkFile w file msg sev t).Findings.map (fun f => f.File) =
      t.Findings.map (fun f => f.File) ++ [file] := by
  unfold checkFile
  split <;> simp [Tally.pass, Tally.miss]

theorem checkReadme_files (w : World) (t : Tally) :
    (EssentialFilesAgent.checkReadme w t).Findings.map (fun f => f.File) =
      t.Findings.map (fun f => f.File) ++ [readmeFile w] := by
  unfold EssentialFilesAgent.checkReadme readmeFile
  cases readmePaths.find? w.stat <;> simp [Tally.pass, Tally.miss]

theorem commitCheck_files (w : World) (d : Int) (t : Tally) :
    (DevelopmentStandardsAgent.commitCheck w d t).Findings.map (fun f => f.File) =
      t.Findings.map (fun f => f.File) ++ ["git-history"] := by
  obtain ⟨f, hf, he⟩ := commitCheck_shape w d t
  rw [he]
  simp [hf]

theorem branchCheck_files (w : World) (t : Tally) :
    (DevelopmentStandardsAgent.branchCheck w t).Findings.map (fun f => f.File) =
      t.Findings.map (fun f => f.File) ++ ["git-branch"] := by
  obtain ⟨f, hf, he⟩ := branchCheck_shape w t
  rw [he]
  simp [hf]

theorem Agent.tally_files (a : Agent) (w : World) (cfg : Config) :
    (a.tally w cfg).Findings.map (fun f => f.File) = a.checkedFiles w cfg := by
  cases a
  · simp only [Agent.tally, EssentialFilesAgent.tally, Agent.checkedFiles]
    cases cfg.Validation.Agents.EssentialFiles.RequireReadme <;>
      cases cfg.Validation.Agents.EssentialFiles.RequireContributing <;>
      simp [checkFile_files, checkReadme_files]
  · simp only [Agent.tally, GitConfigurationAgent.tally, Agent.checkedFiles]
    cases cfg.Validation.Agents.GitConfiguration.RequireGitignore <;>
      cases cfg.Validation.Agents.GitConfiguration.RequireGitattributes <;>
      cases cfg.Validation.Agents.GitConfiguration.RequireEditorconfig <;>
      simp [checkFile_files]
  · simp only [Agent.tally, Agent.checkedFiles]
    rw [developmentStandards_tally_eq, branchCheck_files]
    cases cfg.Validation.Agents.DevelopmentStandards.commitCheckOn <;>
      simp [commitCheck_files]

/-- C20. For each agent the findings are one per counted check, in the order in which
the checks are evaluated, and those of type present are as many as the passed checks.
So a non-empty list of findings gives score (findings of type present)/(findings),
the status is pass iff every finding is of type present, and without findings the
score is 1. -/
theorem C20_findings_account_for_score (a : Agent) (w : World) (cfg : Config) :
    ∃ r, a.Validate w cfg = .ok r ∧
      r.Findings.length = (a.tally w cfg).totalChecks ∧
      presentCount r.Findings = (a.tally w cfg).passedChecks ∧
      r.Findings.map (fun f => f.File) = a.checkedFiles w cfg ∧
      (r.Findings ≠ [] →
        r.Score = (presentCount r.Findings : ℚ) / (r.Findings.length : ℚ)) ∧
      (r.Status = "pass" ↔ ∀ f ∈ r.Findings, f.Type_ = "present") ∧
      (r.Findings = [] → r.Score = 1) := by
  refine ⟨a.result w cfg, Agent.Validate_eq a w cfg, ?_⟩
  obtain ⟨name, hname⟩ := Agent.result_eq a w cfg
  have hacc := Agent.tally_accounted a w cfg
  obtain ⟨hF, -, hpass, hscore, hempty⟩ := Tally.result_of_accounted _ name _ hacc
  rw [hname, hF]
  exact ⟨hacc.1, hacc.2.1, Agent.tally_files a w cfg, hscore, hpass, hempty⟩

/-- C20 for the essential-files agent in a directory that holds only README.md. -/
theorem C20_findings_account_for_score_witness :
    ∃ r, EssentialFilesAgent.Validate (filesOnly ["README.md"]) DefaultConfig = .ok r ∧
      r.Findings.map (fun f => f.File) = ["README.md", "CONTRIBUTING.md"] ∧
      presentCount r.Findings = 1 ∧ r.Score = 1 / 2 := by
  obtain ⟨r, h1, h2, h3, h4, h5, -⟩ := C20_findings_account_for_score
    Agent.EssentialFilesAgent (filesOnly ["README.md"]) DefaultConfig
  have hfiles : r.Findings.map (fun f => f.File) = ["README.md", "CONTRIBUTING.md"] := by
    rw [h4]; decide
  have hlen : r.Findings.length = 2 := by
    have := congrArg List.length hfiles
    simpa using this
  have hpc : presentCount r.Findings = 1 := by
    rw [h3]; decide
  refine ⟨r, h1, hfiles, hpc, ?_⟩
  rw [h5 (by intro h; rw [h] at hlen; cases hlen), hpc, hlen]
  norm_num

theorem checkFile_kinds (w : World) (file msg sev : String) (t : Tally) :
    (checkFile w file msg sev t).Findings.map Finding.kind =
      t.Findings.map Finding.kind ++
        [(file, if w.stat file then "present" else "missing",
          if w.stat file then "info" else sev)] := by
  unfold checkFile
  cases w.stat file <;> simp [Tally.pass, Tally.miss, Finding.kind]

theorem checkReadme_kinds (w : World) (t : Tally) :
    (EssentialFilesAgent.checkReadme w t).Findings.map Finding.kind =
      t.Findings.map Finding.kind ++
        [expectedKind (readmeFile w, CheckOutcome.ofBool (readmePaths.any w.stat))] := by
  unfold EssentialFilesAgent.checkReadme readmeFile
  cases hf : readmePaths.find? w.stat with
  | none =>
    have hany : readmePaths.any w.stat = false := by
      rw [Bool.eq_false_iff]
      intro h
      obtain ⟨x, hx, hp⟩ := List.any_eq_true.mp h
      exact absurd hp (by simpa using (List.find?_eq_none.mp hf) x hx)
    simp only [Tally.miss, List.map_append, List.map_cons, List.map_nil, Finding.kind,
      Option.getD_none, hany, expectedKind, CheckOutcome.ofBool, findingType, findingSeverity]
    rfl
  | some p =>
    have hany : readmePaths.any w.stat = true :=
      List.any_eq_true.mpr ⟨p, List.mem_of_find?_eq_some hf, List.find?_some hf⟩
    simp only [Tally.pass, List.map_append, List.map_cons, List.map_nil, Finding.kind,
      Option.getD_some, hany, expectedKind, CheckOutcome.ofBool, findingType, findingSeverity]
    rfl

theorem commitCheck_kinds (w : World) (d : Int) (t : Tally) :
    (DevelopmentStandardsAgent.commitCheck w d t).Findings.map Finding.kind =
      t.Findings.map Finding.kind ++
        [expectedKind ("git-history",
          match w.gitLog d with
          | .error _ => CheckOutcome.unreadable
          | .ok output => CheckOutcome.ofBool (conventionalCommitsOf output))] := by
  cases hl : w.gitLog d with
  | error e =>
    simp only [DevelopmentStandardsAgent.commitCheck,
      DevelopmentStandardsAgent.checkConventionalCommits, hl, Tally.miss, List.map_append,
      List.map_cons, List.map_nil, Finding.kind, expectedKind, findingType, findingSeverity]
  | ok log =>
    cases hc : conventionalCommitsOf log <;>
    simp only [DevelopmentStandardsAgent.commitCheck,
      DevelopmentStandardsAgent.checkConventionalCommits, hl, hc, Tally.miss, Tally.pass,
      List.map_append, List.map_cons, List.map_nil, Finding.kind, expectedKind, findingType,
      findingSeverity, CheckOutcome.ofBool] <;> rfl

theorem branchCheck_kinds (w : World) (t : Tally) :
    (DevelopmentStandardsAgent.branchCheck w t).Findings.map Finding.kind =
      t.Findings.map Finding.kind ++
        [expectedKind ("git-branch",
          match w.gitBranch with
          | .error _ => CheckOutcome.unreadable
          | .ok output => CheckOutcome.ofBool (branchNameValid (TrimSpace output.toList)))] := by
  cases hl : w.gitBranch with
  | error e =>
    simp only [DevelopmentStandardsAgent.branchCheck,
      DevelopmentStandardsAgent.checkBranchNaming, hl, Tally.miss, List.map_append,
      List.map_cons, List.map_nil, Finding.kind, expectedKind, findingType, findingSeverity]
  | ok out =>
    cases hc : branchNameValid (TrimSpace out.toList) <;>
    simp only [DevelopmentStandardsAgent.branchCheck,
      DevelopmentStandardsAgent.checkBranchNaming, hl, hc, Tally.miss, Tally.pass,
      List.map_append, List.map_cons, List.map_nil, Finding.kind, expectedKind, findingType,
      findingSeverity, CheckOutcome.ofBool] <;> rfl

theorem checkFile_expected (w : World) (file sev : String)
    (hsev : sev = findingSeverity file .failed)
    (hfile : file ≠ "git-history" ∧ file ≠ "git-branch") :
    (file, (if w.stat file then "present" else "missing"),
      (if w.stat file then "info" else sev)) =
      expectedKind (file, CheckOutcome.ofBool (w.stat file)) := by
  cases w.stat file
  · simp only [expectedKind, CheckOutcome.ofBool, findingType, hsev, hfile.1, hfile.2,
      or_self, if_false]
    rfl
  · rfl

theorem Agent.tally_kinds (a : Agent) (w : World) (cfg : Config) :
    (a.tally w cfg).Findings.map Finding.kind = (a.outcomes w cfg).map expectedKind := by
  cases a
  · simp only [Agent.tally, EssentialFilesAgent.tally, Agent.outcomes]
    have hc := checkFile_expected w "CONTRIBUTING.md" "critical" (by decide) (by decide)
    cases cfg.Validation.Agents.EssentialFiles.RequireReadme <;>
      cases cfg.Validation.Agents.EssentialFiles.RequireContributing <;>
      simp [checkFile_kinds, checkReadme_kinds, hc]
  · simp only [Agent.tally, GitConfigurationAgent.tally, Agent.outcomes]
    have h1 := checkFile_expected w ".gitignore" "critical" (by decide) (by decide)
    have h2 := checkFile_expected w ".gitattributes" "warning" (by decide) (by decide)
    have h3 := checkFile_expected w ".editorconfig" "critical" (by decide) (by decide)
    cases cfg.Validation.Agents.GitConfiguration.RequireGitignore <;>
      cases cfg.Validation.Agents.GitConfiguration.RequireGitattributes <;>
      cases cfg.Validation.Agents.GitConfiguration.RequireEditorconfig <;>
      simp [checkFile_kinds, h1, h2, h3]
  · simp only [Agent.tally, Agent.outcomes]
    rw [developmentStandards_tally_eq, branchCheck_kinds]
    cases cfg.Validation.Agents.DevelopmentStandards.commitCheckOn <;>
      simp [commitCheck_kinds]

theorem findingType_eq_present (file : String) (c : CheckOutcome) :
    findingType file c = "present" ↔ c = .passed := by
  cases c
  · simp [findingType]
  · simp only [findingType]
    split_ifs <;> simp
  · simp [findingType]

theorem Agent.fail_iff_outcome (a : Agent) (w : World) (cfg : Config) :
    (∃ f ∈ (a.tally w cfg).Findings, f.Type_ ≠ "present") ↔
      ∃ c ∈ a.outcomes w cfg, c.2 ≠ CheckOutcome.passed := by
  have h := congrArg (List.map (fun k : String × String × String => k.2.1))
    (Agent.tally_kinds a w cfg)
  simp only [List.map_map] at h
  have hl : ∀ s, s ∈ (a.tally w cfg).Findings.map (fun f => f.Type_) ↔
      s ∈ (a.outcomes w cfg).map (fun c => findingType c.1 c.2) := by
    intro s
    have e1 : (a.tally w cfg).Findings.map (fun f => f.Type_) =
        (a.tally w cfg).Findings.map ((fun k : String × String × String => k.2.1) ∘
          Finding.kind) := rfl
    have e2 : (a.outcomes w cfg).map (fun c => findingType c.1 c.2) =
        (a.outcomes w cfg).map ((fun k : String × String × String => k.2.1) ∘
          expectedKind) := rfl
    rw [e1, e2, h]
  constructor
  · rintro ⟨f, hf, hne⟩
    have := (hl f.Type_).mp (List.mem_map_of_mem _ hf)
    obtain ⟨c, hc, hce⟩ := List.mem_map.mp this
    refine ⟨c, hc, fun hp => hne ?_⟩
    rw [← hce]
    exact (findingType_eq_present c.1 c.2).mpr hp
  · rintro ⟨c, hc, hne⟩
    have := (hl (findingType c.1 c.2)).mpr
      (List.mem_map_of_mem (fun c : String × CheckOutcome => findingType c.1 c.2) hc)
    obtain ⟨f, hf, hfe⟩ := List.mem_map.mp this
    refine ⟨f, hf, fun hp => hne ?_⟩
    rw [hfe] at hp
    exact (findingType_eq_present c.1 c.2).mp hp

/-- C17. Every agent appends one finding per check, in the order of the checks, and
file, type and severity of the finding are fixed by the outcome of its check: a passed
check gives type present and severity info; a check that was evaluated and failed
gives severity critical (type missing for a file, invalid for the commit history),
except the missing `.gitattributes` (type missing) and the branch name that does not
follow the conventions (type invalid), which give severity warning; a check whose git
call failed gives type invalid and severity warning.  The status is fail exactly when
some check did not pass, so a failure of severity warning makes the status fail.  Each
finding falls under one of these cases, any finding that is not of type present makes
the status fail, and the two findings of severity warning occur as stated. -/
theorem C17_finding_severities (a : Agent) (w : World) (cfg : Config) :
    ∃ r, a.Validate w cfg = .ok r ∧
      r.Findings.map Finding.kind = (a.outcomes w cfg).map expectedKind ∧
      (r.Status = "fail" ↔ ∃ c ∈ a.outcomes w cfg, c.2 ≠ CheckOutcome.passed) ∧
      (∀ f ∈ r.Findings,
        SeverityRule w cfg.Validation.Agents.DevelopmentStandards.CommitHistoryDepth f) ∧
      (∀ f ∈ r.Findings, f.Type_ ≠ "present" → r.Status = "fail") ∧
      (a = Agent.GitConfigurationAgent →
        cfg.Validation.Agents.GitConfiguration.RequireGitattributes = true →
        w.stat ".gitattributes" = false →
        gitattributesMissing ∈ r.Findings ∧ r.Status = "fail") ∧
      (a = Agent.DevelopmentStandardsAgent →
        ∀ out, w.gitBranch = .ok out → branchNameValid (TrimSpace out.toList) = false →
          branchInvalid (String.mk (TrimSpace out.toList)) ∈ r.Findings ∧ r.Status = "fail") := by
  refine ⟨a.result w cfg, Agent.Validate_eq a w cfg, ?_⟩
  obtain ⟨name, hname⟩ := Agent.result_eq a w cfg
  have hacc := Agent.tally_accounted a w cfg
  obtain ⟨hF, hfail, -, -, -⟩ := Tally.result_of_accounted _ name _ hacc
  rw [hname, hF]
  have hstatus : ∀ f ∈ (a.tally w cfg).Findings, f.Type_ ≠ "present" →
      (Tally.result name (a.tally w cfg)).Status = "fail" :=
    fun f hf hne => hfail.mpr ⟨f, hf, hne⟩
  refine ⟨Agent.tally_kinds a w cfg, hfail.trans (Agent.fail_iff_outcome a w cfg),
    hacc.2.2, hstatus, ?_, ?_⟩
  · rintro rfl hreq hstat
    have hmem : gitattributesMissing ∈ (Agent.GitConfigurationAgent.tally w cfg).Findings := by
      simp only [Agent.tally, GitConfigurationAgent.tally, hreq, if_true]
      have h1 : ∀ t, gitattributesMissing ∈
          (checkFile w ".gitattributes" ".gitattributes missing (optional)" "warning"
            t).Findings := by
        intro t
        simp [checkFile, hstat, Tally.miss, gitattributesMissing]
      have h2 : ∀ (file msg sev : String) (t : Tally), gitattributesMissing ∈ t.Findings →
          gitattributesMissing ∈ (checkFile w file msg sev t).Findings := by
        intro file msg sev t ht
        unfold checkFile
        split <;> simp [Tally.pass, Tally.miss, ht]
      split_ifs <;> first | exact h2 _ _ _ _ (h1 _) | exact h1 _
    exact ⟨hmem, hstatus _ hmem (by decide)⟩
  · rintro rfl out hb hv
    have hmem : branchInvalid (String.mk (TrimSpace out.toList)) ∈
        (Agent.DevelopmentStandardsAgent.tally w cfg).Findings := by
      simp only [Agent.tally]
      rw [developmentStandards_tally_eq, branchCheck_of_invalid w _ out hb hv]
      simp [Tally.miss]
    exact ⟨hmem, hstatus _ hmem (by show "invalid" ≠ "present"; decide)⟩

set_option maxRecDepth 100000 in
/-- C17 for a directory that holds only README.md, for a required but missing
`.gitattributes` next to the two other files, and for the branch `random-branch`. -/
theorem C17_finding_severities_witness :
    (∃ r, EssentialFilesAgent.Validate (filesOnly ["README.md"]) DefaultConfig = .ok r ∧
      r.Findings.map Finding.kind =
        [("README.md", "present", "info"), ("CONTRIBUTING.md", "missing", "critical")] ∧
      r.Status = "fail") ∧
    (∃ r, GitConfigurationAgent.Validate (filesOnly [".gitignore", ".editorconfig"])
        configWithGitattributes = .ok r ∧
      r.Findings.map Finding.kind =
        [(".gitignore", "present", "info"), (".gitattributes", "missing", "warning"),
         (".editorconfig", "present", "info")] ∧
      gitattributesMissing ∈ r.Findings ∧ r.Status = "fail") ∧
    (∃ r, DevelopmentStandardsAgent.Validate (repoWith logEightOfTen "random-branch\n")
        DefaultConfig = .ok r ∧
      branchInvalid "random-branch" ∈ r.Findings ∧ r.Status = "fail") := by
  refine ⟨?_, ?_, ?_⟩
  · obtain ⟨r, h1, h2, h3, -⟩ := C17_finding_severities Agent.EssentialFilesAgent
      (filesOnly ["README.md"]) DefaultConfig
    exact ⟨r, h1, by rw [h2]; decide,
      h3.mpr ⟨("CONTRIBUTING.md", CheckOutcome.failed), by decide, by decide⟩⟩
  · obtain ⟨r, h1, h2, -, -, -, h4, -⟩ := C17_finding_severities Agent.GitConfigurationAgent
      (filesOnly [".gitignore", ".editorconfig"]) configWithGitattributes
    obtain ⟨h5, h6⟩ := h4 rfl rfl (by decide)
    exact ⟨r, h1, by rw [h2]; decide, h5, h6⟩
  · obtain ⟨r, h1, -, -, -, -, -, h5⟩ := C17_finding_severities Agent.DevelopmentStandardsAgent
      (repoWith logEightOfTen "random-branch\n") DefaultConfig
    have hv : branchNameValid (TrimSpace "random-branch\n".toList) = false := by decide
    have hname : String.mk (TrimSpace "random-branch\n".toList) = "random-branch" := by decide
    have := h5 rfl "random-branch\n" rfl hv
    rw [hname] at this
    exact ⟨r, h1, this⟩

/-! ## The overall verdict and the exit code -/

/-- The results of the agents lie in the domain of scores and statuses. -/
theorem Agent.result_domain (a : Agent) (w : World) (cfg : Config) :
    0 ≤ (a.result w cfg).Score ∧ (a.result w cfg).Score ≤ 1 ∧
      ((a.result w cfg).Status = "fail" ↔ (a.result w cfg).Score < 1) := by
  cases a
  · have hb := Tally.result_score_bounds "essential-files" _ (essentialFiles_tally_le w cfg)
    exact ⟨hb.1, hb.2, (Tally.result_status "essential-files" _).1⟩
  · have hb := Tally.result_score_bounds "git-configuration" _ (gitConfiguration_tally_le w cfg)
    exact ⟨hb.1, hb.2, (Tally.result_status "git-configuration" _).1⟩
  · have hb := Tally.result_score_bounds "development-standards" _
      (developmentStandards_tally_le w cfg)
    exact ⟨hb.1, hb.2, (Tally.result_status "development-standards" _).1⟩

/-- Every result that `runValidate` collects has a score in `[0, 1]` and status fail
exactly when the score is below 1. -/
theorem collect_results_domain (inv : Invocation) (cfg : Config)
    (results : List ValidationResult) (h : (collect inv cfg).results = .ok results) :
    ∀ r ∈ results, 0 ≤ r.Score ∧ r.Score ≤ 1 ∧ (r.Status = "fail" ↔ r.Score < 1) := by
  by_cases hsel : inv.agentName = ""
  · rw [collect_unselected inv cfg hsel] at h
    injection h with h
    subst h
    intro r hr
    simp only [enabledResults, List.mem_map] at hr
    obtain ⟨e, -, rfl⟩ := hr
    exact Agent.result_domain _ _ _
  · simp only [collect, ne_eq, hsel, not_false_eq_true, if_true, collectSelected] at h
    cases hg : agentRegistry.Get inv.agentName with
    | none => rw [hg] at h; cases h
    | some agent =>
      rw [hg] at h
      simp only [Agent.Validate_eq] at h
      injection h with h
      subst h
      intro r hr
      rw [List.mem_singleton] at hr
      subst hr
      exact Agent.result_domain _ _ _

/-- Scores that are all 1 have mean 1. -/
theorem meanScore_eq_one (results : List ValidationResult) (hne : results ≠ [])
    (h : ∀ r ∈ results, r.Score = 1) : meanScore results = 1 := by
  have hsum : ∀ l : List ValidationResult, (∀ r ∈ l, r.Score = 1) →
      (l.map (fun r => r.Score)).sum = (l.length : ℚ) := by
    intro l
    induction l with
    | nil => intro _; simp
    | cons a l ih =>
      intro hl
      simp only [List.map_cons, List.sum_cons, List.length_cons, Nat.cast_add, Nat.cast_one]
      rw [hl a (List.mem_cons_self a l), ih (fun r hr => hl r (List.mem_cons_of_mem a hr))]
      ring
  have hlen : (results.length : ℚ) ≠ 0 := by
    have : results.length ≠ 0 := fun hh => hne (List.length_eq_zero.mp hh)
    exact_mod_cast this
  rw [meanScore, hsum results h, div_self hlen]

/-- A running sum of scores 1.0 is exact below `2^53`. -/
theorem foldl_add_ones : ∀ (l : List ValidationResult) (a : ℕ),
    (∀ r ∈ l, r.Score = 1) → a + l.length < 2 ^ 53 →
    (l.map ValidationResult.scoreF64).foldl F64.add (.finite (a : ℚ)) =
      .finite ((a + l.length : ℕ) : ℚ) := by
  intro l
  induction l with
  | nil => intro a _ _; simp
  | cons r rest ih =>
    intro a hall hlen
    have hr : r.scoreF64 = .finite 1 := by
      rw [ValidationResult.scoreF64, hall r (List.mem_cons_self r rest), roundF64_one]
    simp only [List.length_cons] at hlen
    have h1 : roundF64 ((a : ℚ) + 1) = .finite ((a + 1 : ℕ) : ℚ) := by
      have := roundF64_natCast (a + 1) (by omega)
      simpa using this
    simp only [List.map_cons, List.foldl_cons, hr, F64.add_finite, h1]
    rw [ih (a + 1) (fun x hx => hall x (List.mem_cons_of_mem r hx)) (by omega)]
    simp only [List.length_cons]
    congr 2
    omega

/-- The score that `Format` computes for fewer than `2^53` scores 1.0 is 1.0. -/
theorem TableFormatter.overallScore_of_ones (results : List ValidationResult)
    (hne : results ≠ []) (hlen : results.length < 2 ^ 53) (h : ∀ r ∈ results, r.Score = 1) :
    (TableFormatter.Format results).overallScore = .finite 1 := by
  have hlen0 : (results.length : ℚ) ≠ 0 := by
    have : results.length ≠ 0 := fun h => hne (List.length_eq_zero.mp h)
    exact_mod_cast this
  have hsum : f64Sum results = .finite (results.length : ℚ) := by
    have := foldl_add_ones results 0 h (by omega)
    simpa [f64Sum] using this
  rw [(TableFormatter.Format_eq results).1, hsum, roundF64_natCast _ hlen,
    F64.div_finite _ _ hlen0, div_self hlen0, roundF64_one]

theorem collectSelected_length (w : World) (cfg : Config) (name : String)
    (results : List ValidationResult) (h : (collectSelected w cfg name).results = .ok results) :
    results.length ≤ 3 := by
  simp only [collectSelected] at h
  cases hg : agentRegistry.Get name with
  | none => rw [hg] at h; cases h
  | some agent =>
    rw [hg] at h
    simp only [Agent.Validate_eq] at h
    injection h with h
    subst h
    simp

/-- A run collects at most three results. -/
theorem collect_results_length (inv : Invocation) (cfg : Config)
    (results : List ValidationResult) (h : (collect inv cfg).results = .ok results) :
    results.length ≤ 3 := by
  by_cases hsel : inv.agentName = ""
  · rw [collect_unselected inv cfg hsel] at h
    injection h with h
    subst h
    have hp := inv.range.perm agentRegistry.All
    simp only [enabledResults, List.length_map]
    calc ((inv.range.order agentRegistry.All).filter _).length
        ≤ (inv.range.order agentRegistry.All).length := List.length_filter_le _ _
      _ = agentRegistry.All.length := hp.length_eq
      _ = 3 := rfl
  · simp only [collect, ne_eq, hsel, not_false_eq_true, if_true] at h
    exact collectSelected_length _ _ _ _ h

/-- The tie `2^53 + 1` is rounded to the even neighbour `2^53`. -/
theorem roundF64_two_pow_53_succ :
    roundF64 (((2 ^ 53 : ℕ) : ℚ) + 1) = .finite ((2 ^ 53 : ℕ) : ℚ) := by
  have h := roundF64_eval (((2 ^ 53 : ℕ) : ℚ) + 1) 53 4503599627370496
    (by norm_num [abs_of_pos]) (by norm_num [abs_of_pos]) (by norm_num) (by
      exact roundHalfEven_tie_even _ 4503599627370496 (by norm_num) (by norm_num))
    (by norm_num [abs_of_pos])
  rw [h]; norm_num

/-- A running sum of scores 1.0 stops growing at `2^53`. -/
theorem foldl_add_replicate_one : ∀ (n a : ℕ), a ≤ 2 ^ 53 →
    (List.replicate n (F64.finite 1)).foldl F64.add (.finite (a : ℚ)) =
      .finite ((min (a + n) (2 ^ 53) : ℕ) : ℚ) := by
  intro n
  induction n with
  | zero =>
    intro a ha
    simp only [List.replicate_zero, List.foldl_nil, add_zero, min_eq_left ha]
  | succ n ih =>
    intro a ha
    rw [List.replicate_succ, List.foldl_cons, F64.add_finite]
    rcases Nat.lt_or_ge a (2 ^ 53) with hlt | hge
    · have h1 : roundF64 ((a : ℚ) + 1) = .finite ((a + 1 : ℕ) : ℚ) := by
        have hb : IsBinary64 (((a + 1 : ℕ) : ℚ)) := by
          rcases Nat.lt_or_ge (a + 1) (2 ^ 53) with h | h
          · exact isBinary64_natCast _ h
          · have : a + 1 = 2 ^ 53 := by omega
            rw [this]
            exact ⟨1, 53, by norm_num, by norm_num, by norm_num, by norm_num⟩
        have := roundF64_of_isBinary64 _ hb
        simpa using this
      rw [h1, ih (a + 1) (by omega)]
      congr 2
      omega
    · have ha2 : a = 2 ^ 53 := by omega
      subst ha2
      rw [roundF64_two_pow_53_succ, ih _ (le_refl _)]
      congr 1
      have e1 : min (2 ^ 53 + n) (2 ^ 53) = 2 ^ 53 := by omega
      have e2 : min (2 ^ 53 + (n + 1)) (2 ^ 53) = 2 ^ 53 := by omega
      rw [e1, e2]

/-- The bound of C21 on the length cannot be dropped: for `2^53 + 2` results of score
1.0 and status pass the running sum stops at `2^53`, the computed score is
`1 - 2^-52`, and the verdict is PASS (with warnings). -/
theorem TableFormatter.verdict_beyond_bound :
    (TableFormatter.Format (List.replicate (2 ^ 53 + 2)
      { Agent := "essential-files", Status := "pass", Score := 1, Findings := [] })).overallStatus
      = "PASS (with warnings)" := by
  have hsum : f64Sum (List.replicate (2 ^ 53 + 2)
      { Agent := "essential-files", Status := "pass", Score := 1, Findings := [] }) =
      .finite ((2 ^ 53 : ℕ) : ℚ) := by
    have hs : ValidationResult.scoreF64
        { Agent := "essential-files", Status := "pass", Score := 1, Findings := [] } =
        .finite 1 := roundF64_one
    have h := foldl_add_replicate_one (2 ^ 53 + 2) 0 (by norm_num)
    rw [f64Sum, List.map_replicate, hs]
    rw [Nat.cast_zero] at h
    rw [h]
    congr 2
  have hlen : roundF64 (((List.replicate (2 ^ 53 + 2)
      ({ Agent := "essential-files", Status := "pass", Score := 1, Findings := [] } :
        ValidationResult)).length : ℕ) : ℚ) = .finite ((2 ^ 53 + 2 : ℕ) : ℚ) := by
    rw [List.length_replicate]
    exact roundF64_of_isBinary64 _
      ⟨4503599627370497, 1, by norm_num, by norm_num, by norm_num, by norm_num⟩
  have hdiv : roundF64 (((2 ^ 53 : ℕ) : ℚ) / ((2 ^ 53 + 2 : ℕ) : ℚ)) =
      .finite (9007199254740990 / 2 ^ 53) := by
    have h := roundF64_eval (((2 ^ 53 : ℕ) : ℚ) / ((2 ^ 53 + 2 : ℕ) : ℚ)) (-1) 9007199254740990
      (by norm_num [abs_of_pos]) (by norm_num [abs_of_pos]) (by norm_num) (by
        exact roundHalfEven_of_lt _ 9007199254740990 (by norm_num) (by norm_num))
      (by norm_num [abs_of_pos])
    rw [h]; norm_num
  have hany : (List.replicate (2 ^ 53 + 2)
      ({ Agent := "essential-files", Status := "pass", Score := 1, Findings := [] } :
        ValidationResult)).any (fun r => r.Status == "fail") = false := by
    rw [Bool.eq_false_iff]
    intro h
    obtain ⟨r, hr, hf⟩ := (any_fail_iff _).mp h
    rw [List.eq_of_mem_replicate hr] at hf
    exact absurd hf (by decide)
  rw [(TableFormatter.Format_eq _).2, hsum, hlen, F64.div_finite _ _ (by norm_num), hdiv, hany,
    roundF64_point8, roundF64_one, F64.lt_finite, F64.lt_finite]
  norm_num

/-- C21. For a non-empty list of fewer than 2^53 results with scores in [0, 1] and
status fail exactly when the score is below 1, the verdict of the table formatter is
FAIL iff some result has status fail and PASS otherwise: PASS (with warnings) does not
occur, and neither a mean below 0.8 nor a computed score below 0.8 occurs without a
failing result.  In a run with table output that collects these results and writes them
without error, the verdict is FAIL exactly when the exit code is 1 and PASS exactly
when it is 0.  (A run collects at most three results, `collect_results_length`; the
sum of 2^53 + 2 scores 1.0 is no longer exact, `TableFormatter.verdict_beyond_bound`.) -/
theorem C21_verdict_agrees_with_exit_code (results : List ValidationResult)
    (hne : results ≠ []) (hlen : results.length < 2 ^ 53)
    (hdom : ∀ r ∈ results, 0 ≤ r.Score ∧ r.Score ≤ 1 ∧ (r.Status = "fail" ↔ r.Score < 1)) :
    ((TableFormatter.Format results).overallStatus = "FAIL" ↔
      ∃ r ∈ results, r.Status = "fail") ∧
    ((¬ ∃ r ∈ results, r.Status = "fail") →
      (TableFormatter.Format results).overallStatus = "PASS") ∧
    (TableFormatter.Format results).overallStatus ≠ "PASS (with warnings)" ∧
    (meanScore results < 4 / 5 → ∃ r ∈ results, r.Status = "fail") ∧
    ((TableFormatter.Format results).overallScore.lt (roundF64 (4 / 5)) = true →
      ∃ r ∈ results, r.Status = "fail") ∧
    (∀ (inv : Invocation) (cfg : Config), inv.loadConfig = .ok cfg →
      (collect inv cfg).results = .ok results → inv.outputFormat = "table" →
      inv.stdoutError = none →
      (runValidate inv).report = some (.table (TableFormatter.Format results)) ∧
      ((TableFormatter.Format results).overallStatus = "FAIL" ↔
        (runValidate inv).exitCode = 1) ∧
      ((TableFormatter.Format results).overallStatus = "PASS" ↔
        (runValidate inv).exitCode = 0)) := by
  obtain ⟨hscore, hstatus⟩ := TableFormatter.Format_eq results
  rw [← hscore] at hstatus
  have hany := any_fail_iff results
  have hones : (¬ ∃ r ∈ results, r.Status = "fail") → ∀ r ∈ results, r.Score = 1 := by
    intro hno r hr
    obtain ⟨-, hle, hiff⟩ := hdom r hr
    have hnl : ¬ r.Score < 1 := fun hlt => hno ⟨r, hr, hiff.mpr hlt⟩
    exact le_antisymm hle (not_lt.mp hnl)
  have hnofail : (¬ ∃ r ∈ results, r.Status = "fail") → meanScore results = 1 :=
    fun hno => meanScore_eq_one results hne (hones hno)
  have hone : (¬ ∃ r ∈ results, r.Status = "fail") →
      (TableFormatter.Format results).overallScore = .finite 1 :=
    fun hno => TableFormatter.overallScore_of_ones results hne hlen (hones hno)
  have hpass : (¬ ∃ r ∈ results, r.Status = "fail") →
      (TableFormatter.Format results).overallStatus = "PASS" := by
    intro hno
    have hn : results.any (fun r => r.Status == "fail") = false := by
      rw [Bool.eq_false_iff]
      exact fun h => hno (hany.mp h)
    rw [hstatus, hone hno, hn, roundF64_point8, roundF64_one, F64.lt_finite, F64.lt_finite]
    norm_num
  have hfail : (∃ r ∈ results, r.Status = "fail") →
      (TableFormatter.Format results).overallStatus = "FAIL" := by
    intro h
    rw [hstatus, hany.mpr h]
    simp
  have hiff : (TableFormatter.Format results).overallStatus = "FAIL" ↔
      ∃ r ∈ results, r.Status = "fail" := by
    constructor
    · intro h
      by_contra hno
      rw [hpass hno] at h
      exact absurd h (by decide)
    · exact hfail
  have hmean : meanScore results < 4 / 5 → ∃ r ∈ results, r.Status = "fail" := by
    intro hlt
    by_contra hno
    rw [hnofail hno] at hlt
    norm_num at hlt
  have hcomp : (TableFormatter.Format results).overallScore.lt (roundF64 (4 / 5)) = true →
      ∃ r ∈ results, r.Status = "fail" := by
    intro hlt
    by_contra hno
    rw [hone hno, roundF64_point8, F64.lt_finite] at hlt
    norm_num at hlt
  refine ⟨hiff, hpass, ?_, hmean, hcomp, ?_⟩
  · by_cases h : ∃ r ∈ results, r.Status = "fail"
    · rw [hfail h]; decide
    · rw [hpass h]; decide
  · intro inv cfg hload hcol hfmt hout
    have hf : NewFormatter inv.outputFormat = .ok Formatter.TableFormatter := by
      rw [hfmt]; rfl
    have hcode : (runValidate inv).exitCode =
        if results.any (fun result => result.Status == "fail") then 1 else 0 := by
      simp only [Run.exitCode, runValidate, hload, hcol, hf, hout]
      split_ifs <;> rfl
    have hrep : (runValidate inv).report = some (.table (TableFormatter.Format results)) := by
      simp only [runValidate, hload, hcol, hf, hout, Formatter.Format]
    refine ⟨hrep, ?_⟩
    rw [hcode]
    by_cases h : ∃ r ∈ results, r.Status = "fail"
    · rw [hfail h, hany.mpr h]
      simp
    · have hn : results.any (fun r => r.Status == "fail") = false := by
        rw [Bool.eq_false_iff]
        exact fun hh => h (hany.mp hh)
      rw [hpass h, hn]
      simp

set_option maxRecDepth 100000 in
/-- C21 on two runs with table output: the default configuration outside a
repository (verdict FAIL, exit code 1) and `--agent git-configuration` in a directory
with .gitignore and .editorconfig (verdict PASS, exit code 0). -/
theorem C21_verdict_agrees_with_exit_code_witness :
    ((TableFormatter.Format
        (enabledResults notARepo DefaultConfig agentRegistry.All)).overallStatus = "FAIL" ∧
      (runValidate (invocation "" DefaultConfig notARepo rangeInOrder)).exitCode = 1) ∧
    ((TableFormatter.Format
        [Agent.GitConfigurationAgent.result (filesOnly [".gitignore", ".editorconfig"])
          DefaultConfig]).overallStatus = "PASS" ∧
      (runValidate (invocation "git-configuration" DefaultConfig
        (filesOnly [".gitignore", ".editorconfig"]) rangeInOrder)).exitCode = 0) := by
  constructor
  · have hcol : (collect (invocation "" DefaultConfig notARepo rangeInOrder)
        DefaultConfig).results = .ok (enabledResults notARepo DefaultConfig agentRegistry.All) := by
      rw [collect_unselected _ _ rfl]; rfl
    have hmem : Agent.EssentialFilesAgent.result notARepo DefaultConfig ∈
        enabledResults notARepo DefaultConfig agentRegistry.All := by
      simp [enabledResults, agentRegistry, Registry.All, Registry.Register, NewRegistry,
        GoMap.set, Config.IsAgentEnabled, DefaultConfig]
    have hne : enabledResults notARepo DefaultConfig agentRegistry.All ≠ [] :=
      List.ne_nil_of_mem hmem
    obtain ⟨h1, -, -, -, -, h5⟩ := C21_verdict_agrees_with_exit_code
      (enabledResults notARepo DefaultConfig agentRegistry.All) hne
      (lt_of_le_of_lt (collect_results_length _ _ _ hcol) (by norm_num))
      (collect_results_domain _ _ _ hcol)
    have hfail : (TableFormatter.Format
        (enabledResults notARepo DefaultConfig agentRegistry.All)).overallStatus = "FAIL" :=
      h1.mpr ⟨_, hmem, (result_of_none_passed "essential-files"
        (EssentialFilesAgent.tally notARepo DefaultConfig) (by decide) (by decide)).2⟩
    exact ⟨hfail, (h5 _ DefaultConfig rfl hcol rfl rfl).2.1.mp hfail⟩
  · have hcol : (collect (invocation "git-configuration" DefaultConfig
        (filesOnly [".gitignore", ".editorconfig"]) rangeInOrder) DefaultConfig).results =
        .ok [Agent.GitConfigurationAgent.result (filesOnly [".gitignore", ".editorconfig"])
          DefaultConfig] := by
      have hget : agentRegistry.Get "git-configuration" = some Agent.GitConfigurationAgent := by
        decide
      have hsel := collectSelected_of_some (filesOnly [".gitignore", ".editorconfig"])
        DefaultConfig "git-configuration" Agent.GitConfigurationAgent hget
      simp only [collect, invocation, ne_eq, String.reduceEq, not_false_eq_true, if_true, hsel]
    obtain ⟨-, h2, -, -, -, h5⟩ := C21_verdict_agrees_with_exit_code
      [Agent.GitConfigurationAgent.result (filesOnly [".gitignore", ".editorconfig"])
        DefaultConfig] (List.cons_ne_nil _ _) (by simp)
      (collect_results_domain _ _ _ hcol)
    have hscore : (Agent.GitConfigurationAgent.result
        (filesOnly [".gitignore", ".editorconfig"]) DefaultConfig).Score = 1 := by
      have ht : (GitConfigurationAgent.tally (filesOnly [".gitignore", ".editorconfig"])
          DefaultConfig).totalChecks = 2 := by decide
      have hp : (GitConfigurationAgent.tally (filesOnly [".gitignore", ".editorconfig"])
          DefaultConfig).passedChecks = 2 := by decide
      simp only [Agent.result]
      rw [Tally.result_score, ht, hp]
      norm_num
    have hno : ¬ ∃ r ∈ [Agent.GitConfigurationAgent.result
        (filesOnly [".gitignore", ".editorconfig"]) DefaultConfig], r.Status = "fail" := by
      rintro ⟨r, hr, hf⟩
      rw [List.mem_singleton] at hr
      subst hr
      have := (Agent.result_domain Agent.GitConfigurationAgent
        (filesOnly [".gitignore", ".editorconfig"]) DefaultConfig).2.2.mp hf
      rw [hscore] at this
      exact lt_irrefl _ this
    have hpass := h2 hno
    exact ⟨hpass, (h5 _ DefaultConfig rfl hcol rfl rfl).2.2.mp hpass⟩

end CodebaseInterface
